import Mathlib

/-!
# CD-block filesystem demo: a shallow embedding

The definitions below follow `cdblock.h`, `cdblock.cpp` and `filesystem.cpp`.
Machine integers are natural numbers or integers with explicit reduction
modulo `2^32`; a function that can fail to return yields an `Outcome`.
-/

namespace CdBlock

/-! ## Machine arithmetic -/

/-- Number of values of a `uint32_t`. -/
def U32 : Nat := 4294967296

/-- Conversion of an `int` to `uint32_t`. -/
def toU32 (x : Int) : Nat := (x % 4294967296).toNat

/-- Conversion of a `uint32_t` to `int32_t` (two's complement). -/
def toInt32 (x : Nat) : Int :=
  if x % U32 < 2147483648 then ((x % U32 : Nat) : Int) else ((x % U32 : Nat) : Int) - 4294967296

/-- Value of a byte read through a `char*`; plain `char` is signed on the SH-2 target. -/
def charOfByte (b : Nat) : Int := if b < 128 then (b : Int) else (b : Int) - 256

/-! ## Outcomes -/

/-- Ways in which a call fails to return normally. -/
inductive Fault where
  /-- An `assert` failed; `_assert` prints the message and spins forever. -/
  | assertion
  /-- A read outside the object a pointer refers to. -/
  | badRead
  /-- A write outside the object a pointer refers to. -/
  | badWrite
  /-- The step budget of the model ran out. -/
  | fuel
  deriving DecidableEq

/-- Outcome of a call: it returns `a`, or it stops with a fault in state `s`. -/
inductive Outcome (σ α : Type) where
  | ok (a : α) : Outcome σ α
  | fail (f : Fault) (s : σ) : Outcome σ α
  deriving DecidableEq

/-! ## Rolling hash (`cdblock.h`) -/

def HASH_PRIME : Nat := 31

def HASH_CUT_NUMBER : Nat := 1000000009

/-- The macro `HASH_CHAR(X)`, `((X) - 31)`, on the promoted `char`. -/
def HASH_CHAR (x : Int) : Int := x - 31

/-- Body of the loop of `generateHash` on the pair `(hash, prime)`:
`hash += HASH_CHAR(filename[i]) * prime; hash %= HASH_CUT_NUMBER; prime *= primeFactor`,
all in `uint32_t`. -/
def hashStep (primeFactor : Nat) (st : Nat × Nat) (c : Int) : Nat × Nat :=
  let hash := (st.1 + (toU32 (HASH_CHAR c) * st.2) % U32) % U32
  let hash := hash % HASH_CUT_NUMBER
  let prime := (st.2 * primeFactor) % U32
  (hash, prime)

/-- The function `generateHash`; the result is the returned hash paired with `*lastPrime`. The
string is the `length` characters starting at `filename`. -/
def generateHash (filename : List Int) (startingHash firstPrime primeFactor : Nat) : Nat × Nat :=
  filename.foldl (hashStep primeFactor) (startingHash, firstPrime)

/-- The function `getFilenameHash`. -/
def getFilenameHash (filename : List Int) : Nat :=
  (generateHash filename 0 HASH_PRIME HASH_PRIME).1

/-! ## Header table, search and sort (`cdblock.cpp`) -/

/-- Entry in the file table. Entries are compared by `filenameHash` alone. -/
structure FilesystemEntry where
  filenameHash : Nat
  lba : Nat
  size : Nat
  deriving DecidableEq

/-- Filesystem header table: `entries` is the user allocated region, as many
entries as were allocated. -/
structure FilesystemHeaderTable where
  numEntries : Nat
  entries : List FilesystemEntry
  deriving DecidableEq

/-- The template `binarySearch` at `T = FilesystemEntry`. `mem` is the array the
pointer `entries` points into and `base` the index it points at. The result
`some i` means `*foundEntry = &mem[i]`, `none` that `*foundEntry` was not written. -/
def binarySearch (mem : List FilesystemEntry) :
    Nat → Nat → Nat → FilesystemEntry → Outcome Unit (Option Nat)
  | 0, _, _, _ => .fail .fuel ()
  | fuel + 1, base, entriesLength, searchElement =>
    let pivotIndex := entriesLength / 2
    match mem[base + pivotIndex]? with
    | none => .fail .badRead ()
    | some pivot =>
      if pivot.filenameHash = searchElement.filenameHash then
        .ok (some (base + pivotIndex))
      else if entriesLength > 1 then
        if pivot.filenameHash > searchElement.filenameHash then
          binarySearch mem fuel base pivotIndex searchElement
        else
          binarySearch mem fuel (base + pivotIndex) (entriesLength - pivotIndex) searchElement
      else
        .ok none

/-- The function `getFileEntry`; `none` leaves `*resultingEntry` as the caller set it. -/
def getFileEntry (fuel : Nat) (headerTable : FilesystemHeaderTable) (filenameHash : Nat) :
    Outcome Unit (Option Nat) :=
  binarySearch headerTable.entries fuel 0 headerTable.numEntries ⟨filenameHash, 0, 0⟩

/-- Element read `entries[i]` with an `int32_t` index. -/
def readAt (entries : List FilesystemEntry) (i : Int) : Option FilesystemEntry :=
  if 0 ≤ i then entries[i.toNat]? else none

/-- The loop `do { l++; } while (entries[l] < pivot);` of `quickSort`. -/
def scanLeft (entries : List FilesystemEntry) (pivot : FilesystemEntry) :
    Nat → Int → Outcome Unit Int
  | 0, _ => .fail .fuel ()
  | fuel + 1, l =>
    match readAt entries (l + 1) with
    | none => .fail .badRead ()
    | some e =>
      if e.filenameHash < pivot.filenameHash then scanLeft entries pivot fuel (l + 1)
      else .ok (l + 1)

/-- The loop `do { r--; } while (entries[r] > pivot);` of `quickSort`. -/
def scanRight (entries : List FilesystemEntry) (pivot : FilesystemEntry) :
    Nat → Int → Outcome Unit Int
  | 0, _ => .fail .fuel ()
  | fuel + 1, r =>
    match readAt entries (r - 1) with
    | none => .fail .badRead ()
    | some e =>
      if e.filenameHash > pivot.filenameHash then scanRight entries pivot fuel (r - 1)
      else .ok (r - 1)

/-- The `for (;;)` loop of `quickSort`: the result is the array and the final
`pivotIndex`. The swap writes the two elements the scans have just read. -/
def partitionLoop (pivot : FilesystemEntry) :
    Nat → List FilesystemEntry → Int → Int → Outcome Unit (List FilesystemEntry × Int)
  | 0, _, _, _ => .fail .fuel ()
  | fuel + 1, entries, l, r =>
    match scanLeft entries pivot fuel l with
    | .fail f s => .fail f s
    | .ok l =>
      match scanRight entries pivot fuel r with
      | .fail f s => .fail f s
      | .ok r =>
        if l ≥ r then .ok (entries, r)
        else
          match readAt entries r, readAt entries l with
          | some tmp, some el =>
            partitionLoop pivot fuel ((entries.set r.toNat el).set l.toNat tmp) l r
          | _, _ => .fail .badRead ()

/-- The template `quickSort` at `T = FilesystemEntry`, on `int32_t` bounds. -/
def quickSort : Nat → List FilesystemEntry → Int → Int → Outcome Unit (List FilesystemEntry)
  | 0, _, _, _ => .fail .fuel ()
  | fuel + 1, entries, left, right =>
    if right ≤ left then .ok entries
    else
      let pivotIndex := left + (right - left).tdiv 2
      match readAt entries pivotIndex with
      | none => .fail .badRead ()
      | some pivot =>
        match partitionLoop pivot fuel entries (left - 1) (right + 1) with
        | .fail f s => .fail f s
        | .ok (entries, pivotIndex) =>
          match quickSort fuel entries left pivotIndex with
          | .fail f s => .fail f s
          | .ok entries => quickSort fuel entries (pivotIndex + 1) right


/-! ## The disc -/

/-- Contents of a 2048-byte sector buffer: byte `i` is `getD i 0`, so a list
shorter than 2048 stands for a sector that is zero from there on. -/
abbrev Sector := List Nat

/-- The first `n` bytes of a sector buffer, as `memcpy(dst, tmpBuffer, n)` copies them. -/
def Sector.bytes (s : Sector) (n : Nat) : List Nat :=
  (List.range n).map (fun i => s.getD i 0)

/-- The drive, as the library primitives present it.
`LBA2FAD` is the address translation macro of the platform library;
`cd_block_read_data fad` is the status returned by
`cd_block_read_data(fad, 2048, buffer)` and the sector it stores in `buffer`. -/
structure CdDevice where
  LBA2FAD : Nat → Nat
  cd_block_read_data : Nat → Int × Sector

/-! ## Directory records (`cdblock.h`) -/

def FLAG_CDBLOCK_DIRECTORY : Nat := 2

/-- Memory that a `DirectoryRecord*` points into: a sector buffer of 2048
bytes, and the bytes that follow it in the same object, if there are any. The
`rootSector` of a `FilesystemData` is followed by its `tempSector`; a `Sector`
that is a local variable of a walker is followed by nothing. -/
structure Buffer where
  data : Sector
  beyond : Option Sector
  deriving DecidableEq

/-- A sector with nothing behind it. -/
instance : Coe Sector Buffer := ⟨fun s => ⟨s, none⟩⟩

/-- Number of bytes of the object. -/
def Buffer.size (b : Buffer) : Nat :=
  match b.beyond with
  | some _ => 4096
  | none => 2048

/-- The byte at offset `o` of the object: of the sector below 2048, of what
follows it from there on. -/
def Buffer.getD (b : Buffer) (o : Nat) (d : Nat) : Nat :=
  if o < 2048 then b.data.getD o d else (b.beyond.getD []).getD (o - 2048) d

/-- Read of the byte at offset `o`; offsets from the size of the object on are
outside it. -/
def Buffer.byte (b : Buffer) (o : Nat) : Option Nat :=
  if o < b.size then some (b.getD o 0) else none

/-- A `DirectoryRecord*`: a position inside a buffer. -/
structure DirectoryRecord where
  sector : Buffer
  off : Nat
  deriving DecidableEq

namespace DirectoryRecord

/-- The `uint32_t` stored at offset `o`, in the byte order of the SH-2 (big endian). -/
def u32At (s : Buffer) (o : Nat) : Nat :=
  ((s.getD o 0 * 256 + s.getD (o + 1) 0) * 256 + s.getD (o + 2) 0) * 256 + s.getD (o + 3) 0

/-- The field `length`, at offset 0 of the record. -/
def length (r : DirectoryRecord) : Option Nat := r.sector.byte r.off

/-- The field `flags`, at offset 25 of the record. -/
def flags (r : DirectoryRecord) : Option Nat := r.sector.byte (r.off + 25)

/-- The field `identifierLength`, at offset 32 of the record. -/
def identifierLength (r : DirectoryRecord) : Option Nat := r.sector.byte (r.off + 32)

/-- The method `extentLocation()`: the big-endian half `b`, at offset 6. It lies below
`flags` and `identifierLength`, which are read first. -/
def extentLocation (r : DirectoryRecord) : Nat := u32At r.sector (r.off + 6)

/-- The method `extentLength()`: the big-endian half `b`, at offset 14. -/
def extentLength (r : DirectoryRecord) : Nat := u32At r.sector (r.off + 14)

/-- The method `isDirectory()`, on the value of `flags`. -/
def isDirectoryFlag (flags : Nat) : Bool := (flags &&& FLAG_CDBLOCK_DIRECTORY) != 0

/-- The `n` bytes at `identifierPtr()`, which is offset 33 of the record; a
read of them all stays inside the object when they end by its size. -/
def identifier (r : DirectoryRecord) (n : Nat) : Option (List Nat) :=
  if r.off + 33 + n ≤ r.sector.size then
    some ((List.range n).map (fun i => r.sector.getD (r.off + 33 + i) 0))
  else none

/-- The method `nextDir()`: the record `length` bytes further. -/
def nextDir (r : DirectoryRecord) (length : Nat) : DirectoryRecord :=
  ⟨r.sector, r.off + length⟩

end DirectoryRecord

/-- The structure `FilesystemData`: the root sector read from the volume, and
the sector `tempSector` that follows it, which no function of the program
writes. -/
structure FilesystemData where
  rootSector : Sector
  tempSector : Sector
  deriving DecidableEq

/-- The method `root()`: the record at the start of `rootSector`. A read past
the 2048 bytes of `rootSector` reaches `tempSector`. -/
def FilesystemData.root (fsData : FilesystemData) : DirectoryRecord :=
  ⟨⟨fsData.rootSector, some fsData.tempSector⟩, 0⟩

/-- The local `extraLevels`: `extentLength / 2048`, plus one when `extentLength % 2048` is not zero. -/
def extraLevels (extentLength : Nat) : Nat :=
  extentLength / 2048 + (if extentLength % 2048 ≠ 0 then 1 else 0)

/-- The loop `for (uint32_t level = 0; level < n; ++level)`, whose body can fail. -/
def forLevels {σ : Type} (n : Nat) (body : Nat → σ → Outcome σ σ) (st : σ) : Outcome σ σ :=
  (List.range n).foldl
    (fun acc level => match acc with
      | .ok s => body level s
      | .fail f s => .fail f s)
    (.ok st)

/-! ## `navigateDirectory` -/

/-- State of a walk: the user data of the visitor and the addresses passed to
`cd_block_read_data` so far. -/
structure NavState (σ : Type) where
  user : σ
  reads : List Nat
  deriving DecidableEq

/-- A `RecordFunction`: called with the record, the level and the user data. -/
abbrev RecordFunction (σ : Type) := DirectoryRecord → Int → σ → σ

/-- Entry of `navigateDirectory`, up to its `while` loop, which is `loop`. -/
def navigateDirectoryEntry {σ : Type}
    (loop : DirectoryRecord → Int → NavState σ → Outcome (NavState σ) (NavState σ))
    (record : DirectoryRecord) (level : Int) (continueReading : Bool) (st : NavState σ) :
    Outcome (NavState σ) (NavState σ) :=
  match record.length with
  | none => .fail .badRead st
  | some len =>
    if len = 0 then .ok st
    else if continueReading then loop record level st
    else
      let dir := record.nextDir len
      match dir.length with
      | none => .fail .badRead st
      | some len1 =>
        if len1 = 0 then .fail .assertion st
        else loop (dir.nextDir len1) level st

/-- The `while (dir->length != 0)` loop of `navigateDirectory`, from `dir` on. -/
def navigateDirectoryLoop {σ : Type} (dev : CdDevice) (recordFunction : RecordFunction σ) :
    Nat → DirectoryRecord → Int → NavState σ → Outcome (NavState σ) (NavState σ)
  | 0, _, _, st => .fail .fuel st
  | fuel + 1, dir, level, st =>
    match dir.length with
    | none => .fail .badRead st
    | some len =>
      if len = 0 then .ok st
      else
        let st := { st with user := recordFunction dir level st.user }
        match dir.flags with
        | none => .fail .badRead st
        | some flags =>
          let visited :=
            if DirectoryRecord.isDirectoryFlag flags then
              forLevels (extraLevels dir.extentLength)
                (fun level st =>
                  let fad := (dev.LBA2FAD dir.extentLocation + level) % U32
                  let st := { st with reads := st.reads ++ [fad] }
                  if (dev.cd_block_read_data fad).1 ≠ 0 then .fail .assertion st
                  else
                    navigateDirectoryEntry (navigateDirectoryLoop dev recordFunction fuel)
                      ⟨(dev.cd_block_read_data fad).2, 0⟩ ((level : Int) + 1)
                      (decide (level > 0)) st)
                st
            else .ok st
          match visited with
          | .fail f s => .fail f s
          | .ok st => navigateDirectoryLoop dev recordFunction fuel (dir.nextDir len) level st

/-- The function `navigateDirectory`. -/
def navigateDirectory {σ : Type} (dev : CdDevice) (fuel : Nat) (record : DirectoryRecord)
    (level : Int) (recordFunction : RecordFunction σ) (continueReading : Bool)
    (st : NavState σ) : Outcome (NavState σ) (NavState σ) :=
  navigateDirectoryEntry (navigateDirectoryLoop dev recordFunction fuel) record level
    continueReading st

/-- Size of a `FilesystemEntry`: three `uint32_t`. -/
def sizeofFilesystemEntry : Nat := 12

/-- The lambda of `getHeaderTableSize`: `if (!dir->isDirectory()) (*lengthData)++`. -/
def countRecord : RecordFunction Nat := fun dir _ length =>
  match dir.flags with
  | some flags => if DirectoryRecord.isDirectoryFlag flags then length else (length + 1) % U32
  | none => length

/-- The function `getHeaderTableSize`. -/
def getHeaderTableSize (dev : CdDevice) (fuel : Nat) (fsData : FilesystemData) :
    Outcome (NavState Nat) Nat :=
  match navigateDirectory dev fuel fsData.root 0 countRecord false ⟨0, []⟩ with
  | .fail f s => .fail f s
  | .ok st => .ok ((st.user * sizeofFilesystemEntry) % U32)


/-! ## `fillHeaderTableEntry` and `fillHeaderTable` -/

/-- State of the table build: `entry` is the index in `headerTable.entries`
that `*entry` points at, `reads` the addresses passed to `cd_block_read_data`. -/
structure FillState where
  entry : Nat
  headerTable : FilesystemHeaderTable
  reads : List Nat
  deriving DecidableEq

/-- Entry of `fillHeaderTableEntry`, up to its `while` loop, which is `loop`. -/
def fillHeaderTableEntryEntry
    (loop : DirectoryRecord → FillState → Outcome FillState FillState)
    (record : DirectoryRecord) (continueReading : Bool) (st : FillState) :
    Outcome FillState FillState :=
  match record.length with
  | none => .fail .badRead st
  | some len =>
    if len = 0 then .ok st
    else if continueReading then loop record st
    else
      let dir := record.nextDir len
      match dir.length with
      | none => .fail .badRead st
      | some len1 =>
        if len1 = 0 then .fail .assertion st
        else loop (dir.nextDir len1) st

/-- The `else` branch of the loop body of `fillHeaderTableEntry`: the three
stores through `*entry`, the zero length check, and the two increments. -/
def addFileEntry (dir : DirectoryRecord) (hash : Nat) (st : FillState) :
    Outcome FillState FillState :=
  if st.entry < st.headerTable.entries.length then
    let st : FillState :=
      { st with headerTable :=
          { st.headerTable with entries :=
              st.headerTable.entries.set st.entry ⟨hash, dir.extentLocation, dir.extentLength⟩ } }
    if dir.extentLength = 0 then .fail .assertion st
    else
      .ok { st with
              headerTable :=
                { st.headerTable with numEntries := (st.headerTable.numEntries + 1) % U32 }
              entry := st.entry + 1 }
  else .fail .badWrite st

/-- The `while (dir->length != 0)` loop of `fillHeaderTableEntry`, from `dir` on. -/
def fillHeaderTableEntryLoop (dev : CdDevice) :
    Nat → DirectoryRecord → Nat → Nat → FillState → Outcome FillState FillState
  | 0, _, _, _, st => .fail .fuel st
  | fuel + 1, dir, parentHash, parentPrime, st =>
    match dir.length with
    | none => .fail .badRead st
    | some len =>
      if len = 0 then .ok st
      else
        match dir.identifierLength, dir.flags with
        | some identifierLength, some flags =>
          let identifierSize :=
            if DirectoryRecord.isDirectoryFlag flags = false ∧ identifierLength > 2 then
              identifierLength - 2
            else identifierLength
          match dir.identifier identifierSize with
          | none => .fail .badRead st
          | some name =>
            let h := generateHash (name.map charOfByte) parentHash parentPrime HASH_PRIME
            let visited :=
              if DirectoryRecord.isDirectoryFlag flags then
                let hash := (h.1 + (toU32 (HASH_CHAR 47) * h.2) % U32) % U32
                let hash := hash % HASH_CUT_NUMBER
                let lastPrime := (h.2 * HASH_PRIME) % U32
                forLevels (extraLevels dir.extentLength)
                  (fun level st =>
                    let fad := (dev.LBA2FAD dir.extentLocation + level) % U32
                    let st := { st with reads := st.reads ++ [fad] }
                    if (dev.cd_block_read_data fad).1 ≠ 0 then .fail .assertion st
                    else
                      fillHeaderTableEntryEntry
                        (fun r s => fillHeaderTableEntryLoop dev fuel r hash lastPrime s)
                        ⟨(dev.cd_block_read_data fad).2, 0⟩ (decide (level > 0)) st)
                  st
              else addFileEntry dir h.1 st
            match visited with
            | .fail f s => .fail f s
            | .ok st =>
              fillHeaderTableEntryLoop dev fuel (dir.nextDir len) parentHash parentPrime st
        | _, _ => .fail .badRead st

/-- The function `fillHeaderTableEntry`. -/
def fillHeaderTableEntry (dev : CdDevice) (fuel : Nat) (record : DirectoryRecord)
    (parentHash parentPrime : Nat) (continueReading : Bool) (st : FillState) :
    Outcome FillState FillState :=
  fillHeaderTableEntryEntry
    (fun r s => fillHeaderTableEntryLoop dev fuel r parentHash parentPrime s)
    record continueReading st

/-- The function `fillHeaderTable`, given the allocated table. The right bound
of the sort is `numEntries - 1` in `uint32_t`, passed as an `int32_t`. -/
def fillHeaderTable (dev : CdDevice) (fuel : Nat) (fsData : FilesystemData)
    (headerTable : FilesystemHeaderTable) : Outcome FillState FillState :=
  match fillHeaderTableEntry dev fuel fsData.root 0 HASH_PRIME false
      ⟨0, { headerTable with numEntries := 0 }, []⟩ with
  | .fail f s => .fail f s
  | .ok st =>
    match quickSort fuel st.headerTable.entries 0
        (toInt32 ((st.headerTable.numEntries + U32 - 1) % U32)) with
    | .fail f _ => .fail f st
    | .ok entries => .ok { st with headerTable := { st.headerTable with entries := entries } }

/-! ## `getFileContents` -/

/-- State of a file read: the bytes stored so far from the start of `buffer`,
and the addresses passed to `cd_block_read_data`. -/
structure ReadState where
  buffer : List Nat
  reads : List Nat
  deriving DecidableEq

/-- The `while (missingBytes > 0)` loop of `getFileContents`; the result is the
returned status. -/
def getFileContentsLoop (dev : CdDevice) :
    Nat → Nat → Nat → ReadState → Outcome ReadState (Int × ReadState)
  | 0, _, _, st => .fail .fuel st
  | fuel + 1, missingBytes, readingLBA, st =>
    if missingBytes > 0 then
      let fad := dev.LBA2FAD readingLBA
      let ret := (dev.cd_block_read_data fad).1
      let tmpBuffer := (dev.cd_block_read_data fad).2
      let st := { st with reads := st.reads ++ [fad] }
      if ret ≠ 0 then .ok (ret, st)
      else if missingBytes > 2048 then
        getFileContentsLoop dev fuel (missingBytes - 2048) ((readingLBA + 1) % U32)
          { st with buffer := st.buffer ++ tmpBuffer.bytes 2048 }
      else
        getFileContentsLoop dev fuel 0 readingLBA
          { st with buffer := st.buffer ++ tmpBuffer.bytes missingBytes }
    else .ok (0, st)

/-- The function `getFileContents`. -/
def getFileContents (dev : CdDevice) (fuel : Nat) (entry : FilesystemEntry) :
    Outcome ReadState (Int × ReadState) :=
  getFileContentsLoop dev fuel entry.size entry.lba ⟨[], []⟩

end CdBlock

/-! ## File handles (`filesystem.h`, `filesystem.cpp`) -/

open CdBlock

def INVALID_FILE_SIZE : Nat := 4294967295

inductive FilesystemBackend where
  | CDBLOCK
  | USB
  | AUTO
  deriving DecidableEq

/-- The class `File`; `ptr` is `none` for a null pointer and otherwise the
contents of the buffer it points to. -/
structure File where
  backend : FilesystemBackend
  length : Nat
  seekPos : Nat
  ptr : Option (List Nat)
  deriving DecidableEq

/-- The byte link primitives of the platform library, on a link state `κ`. -/
structure UsbCart (κ : Type) where
  usb_cart_byte_send : Nat → κ → κ
  usb_cart_long_send : Nat → κ → κ
  usb_cart_byte_read : κ → Nat × κ
  usb_cart_long_read : κ → Nat × κ

/-- What the handle code uses from outside: the drive, the link, the checksum
`crc_finalize(crc_update(0, buffer, n))` and whether `malloc(n)` returns a
non-null pointer. -/
structure Platform (κ : Type) where
  dev : CdBlock.CdDevice
  usb : UsbCart κ
  crc8 : List Nat → Nat
  malloc : Nat → Bool

/-- State outside the handles: the link and the addresses read from the drive. -/
structure HostState (κ : Type) where
  link : κ
  reads : List Nat
  deriving DecidableEq

def TC_REQUEST_FILE : Nat := 0

def TC_REQUEST_FILE_SIZE : Nat := 1

/-- The function `usbGetFileSize(uint32_t)`. -/
def usbGetFileSize {κ : Type} (usb : UsbCart κ) (filenameHash : Nat) (link : κ) : Nat × κ :=
  let link := usb.usb_cart_byte_send TC_REQUEST_FILE_SIZE link
  let link := usb.usb_cart_long_send filenameHash link
  usb.usb_cart_long_read link

/-- The payload loop of `usbGetFileData`: `buffer[i] = (unsigned char) usb_cart_byte_read()`
for `i` from `i` on, `n` more times. -/
def usbReadPayload {κ : Type} (usb : UsbCart κ) :
    Nat → Nat → List Nat → κ → Outcome κ (List Nat × κ)
  | 0, _, buffer, link => .ok (buffer, link)
  | n + 1, i, buffer, link =>
    let b := (usb.usb_cart_byte_read link).1 % 256
    let link := (usb.usb_cart_byte_read link).2
    if i < buffer.length then usbReadPayload usb n (i + 1) (buffer.set i b) link
    else .fail .badWrite link

/-- The function `usbGetFileData`; the result is the returned size, the buffer and the link. -/
def usbGetFileData {κ : Type} (p : Platform κ) (filename : List Int) (buffer : List Nat)
    (link : κ) : Outcome κ (Nat × List Nat × κ) :=
  let hash := CdBlock.getFilenameHash filename
  let link := p.usb.usb_cart_byte_send TC_REQUEST_FILE link
  let link := p.usb.usb_cart_long_send hash link
  let fileSize := (p.usb.usb_cart_long_read link).1
  let link := (p.usb.usb_cart_long_read link).2
  if fileSize = 0 then .ok (0, buffer, link)
  else
    match usbReadPayload p.usb fileSize 0 buffer link with
    | .fail f s => .fail f s
    | .ok (buffer, link) =>
      let crc := (p.usb.usb_cart_byte_read link).1 % 256
      let link := (p.usb.usb_cart_byte_read link).2
      let calculatedCRC := p.crc8 (buffer.take fileSize) % 256
      let link := p.usb.usb_cart_byte_send (if calculatedCRC ≠ crc then 1 else 0) link
      .ok (fileSize, buffer, link)

/-- The loop `do { getSize = usbGetFileData(...); } while (getSize != length);` of the
constructor of `File`. -/
def usbFetchLoop {κ : Type} (p : Platform κ) (filename : List Int) (length : Nat) :
    Nat → List Nat → κ → Outcome κ (List Nat × κ)
  | 0, _, link => .fail .fuel link
  | fuel + 1, buffer, link =>
    match usbGetFileData p filename buffer link with
    | .fail f s => .fail f s
    | .ok (getSize, buffer, link) =>
      if getSize ≠ length then usbFetchLoop p filename length fuel buffer link
      else .ok (buffer, link)

/-- The constructor `File::File(void*, const char*, FilesystemBackend)`;
`cdHeaderTable` is `*Filesystem::getCdBlockHeaderTable()`. The buffer of the
block device variant holds what `getFileContents` stored; that of the link
variant starts as zeros. -/
def File.new {κ : Type} (p : Platform κ) (fuel : Nat)
    (cdHeaderTable : CdBlock.FilesystemHeaderTable) (filename : List Int)
    (backend : FilesystemBackend) (host : HostState κ) : Outcome (HostState κ) (File × HostState κ) :=
  match backend with
  | .CDBLOCK =>
    match CdBlock.getFileEntry fuel cdHeaderTable (CdBlock.getFilenameHash filename) with
    | .fail f _ => .fail f host
    | .ok none => .fail .assertion host
    | .ok (some i) =>
      match cdHeaderTable.entries[i]? with
      | none => .fail .badRead host
      | some fsEntry =>
        if p.malloc fsEntry.size = false then .fail .assertion host
        else
          match CdBlock.getFileContents p.dev fuel fsEntry with
          | .fail f s => .fail f { host with reads := host.reads ++ s.reads }
          | .ok (stat, s) =>
            if stat ≠ 0 then .fail .assertion { host with reads := host.reads ++ s.reads }
            else
              .ok (⟨.CDBLOCK, fsEntry.size, 0, some s.buffer⟩,
                   { host with reads := host.reads ++ s.reads })
  | .USB =>
    let length := (usbGetFileSize p.usb (CdBlock.getFilenameHash filename) host.link).1
    let host := { host with link := (usbGetFileSize p.usb (CdBlock.getFilenameHash filename) host.link).2 }
    if length = 0 then .fail .assertion host
    else if p.malloc length = false then .fail .assertion host
    else
      match usbFetchLoop p filename length fuel (List.replicate length 0) host.link with
      | .fail f s => .fail f { host with link := s }
      | .ok (buffer, link) => .ok (⟨.USB, length, 0, some buffer⟩, { host with link := link })
  | .AUTO => .fail .assertion host

/-- The static members of the class `Filesystem` that `open` reads. -/
structure Filesystem where
  defaultBackend : FilesystemBackend
  cdHeaderTable : CdBlock.FilesystemHeaderTable
  deriving DecidableEq

/-- The function `Filesystem::open`. -/
def Filesystem.open {κ : Type} (p : Platform κ) (fuel : Nat) (fs : Filesystem)
    (filename : List Int) (backend : FilesystemBackend) (host : HostState κ) :
    Outcome (HostState κ) (File × HostState κ) :=
  let usingBackend := if backend = .AUTO then fs.defaultBackend else backend
  match usingBackend with
  | .CDBLOCK => File.new p fuel fs.cdHeaderTable filename usingBackend host
  | .USB => File.new p fuel fs.cdHeaderTable filename usingBackend host
  | .AUTO => .fail .assertion host

/-! ## The walk as a sequence of events

Both walkers read the same sectors and reach the same records; `walkLoop`
lists these reads and visits in order, together with the fault, if any, that
ends the walk. `Test` builds small volumes. -/

namespace CdBlock

/-- A step of a walk: a sector read, or a record passed to the visitor. `path`
holds the identifiers of the directories the record lies in, outermost first. -/
inductive Event where
  | read (fad : Nat) : Event
  | visit (dir : DirectoryRecord) (level : Int) (path : List (List Nat)) : Event
  deriving DecidableEq

/-- Events of a walk and the fault that ended it, if one did. -/
abbrev Trace := List Event × Option Fault

/-- Sequencing of traces: `k` follows `t` unless `t` ended in a fault. -/
def Trace.andThen (t k : Trace) : Trace :=
  match t.2 with
  | none => (t.1 ++ k.1, k.2)
  | some f => (t.1, some f)

/-- The identifier of a record, all `identifierLength` bytes of it. -/
def DirectoryRecord.name (r : DirectoryRecord) : List Nat :=
  (List.range (r.sector.getD (r.off + 32) 0)).map (fun i => r.sector.getD (r.off + 33 + i) 0)

/-- Trace of the entry of a walker, `loop` being the trace of its `while` loop. -/
def walkEntry (loop : DirectoryRecord → Int → Trace) (record : DirectoryRecord)
    (level : Int) (continueReading : Bool) : Trace :=
  match record.length with
  | none => ([], some .badRead)
  | some len =>
    if len = 0 then ([], none)
    else if continueReading then loop record level
    else
      match (record.nextDir len).length with
      | none => ([], some .badRead)
      | some len1 =>
        if len1 = 0 then ([], some .assertion)
        else loop ((record.nextDir len).nextDir len1) level

/-- Trace of the `for` loop over the sectors of a directory extent. -/
def walkLevels (n : Nat) (body : Nat → Trace) : Trace :=
  (List.range n).foldl (fun acc level => acc.andThen (body level)) ([], none)

/-- Trace of the `while` loop of a walker from `dir` on. -/
def walkLoop (dev : CdDevice) : Nat → DirectoryRecord → Int → List (List Nat) → Trace
  | 0, _, _, _ => ([], some .fuel)
  | fuel + 1, dir, level, path =>
    match dir.length with
    | none => ([], some .badRead)
    | some len =>
      if len = 0 then ([], none)
      else
        Trace.andThen ([Event.visit dir level path], none)
          (match dir.flags with
           | none => ([], some .badRead)
           | some flags =>
             Trace.andThen
               (if DirectoryRecord.isDirectoryFlag flags then
                  walkLevels (extraLevels dir.extentLength)
                    (fun lvl =>
                      let fad := (dev.LBA2FAD dir.extentLocation + lvl) % U32
                      Trace.andThen
                        ([Event.read fad],
                          if (dev.cd_block_read_data fad).1 ≠ 0 then some .assertion else none)
                        (walkEntry (fun r l => walkLoop dev fuel r l (path ++ [dir.name]))
                          ⟨(dev.cd_block_read_data fad).2, 0⟩ ((lvl : Int) + 1)
                          (decide (lvl > 0))))
                else ([], none))
               (walkLoop dev fuel (dir.nextDir len) level path))

/-- Trace of a whole walk from the root sector. -/
def walk (dev : CdDevice) (fuel : Nat) (fsData : FilesystemData) : Trace :=
  walkEntry (fun r l => walkLoop dev fuel r l []) fsData.root 0 false

/-- Run of a state machine over a list of events, stopping at its first fault. -/
def runEvents {σ : Type} (step : σ → Event → Outcome σ σ) : σ → List Event → Outcome σ σ
  | st, [] => .ok st
  | st, e :: es =>
    match step st e with
    | .ok st1 => runEvents step st1 es
    | .fail f s => .fail f s

/-- Run over a trace: the events, then the fault of the trace. -/
def runTrace {σ : Type} (step : σ → Event → Outcome σ σ) (st : σ) (t : Trace) : Outcome σ σ :=
  match runEvents step st t.1 with
  | .ok s =>
    (match t.2 with
     | none => .ok s
     | some f => .fail f s)
  | .fail f s => .fail f s

/-- What `navigateDirectory` does at an event. -/
def navStep {σ : Type} (recordFunction : RecordFunction σ) (st : NavState σ) :
    Event → Outcome (NavState σ) (NavState σ)
  | .read fad => .ok { st with reads := st.reads ++ [fad] }
  | .visit dir level _ => .ok { st with user := recordFunction dir level st.user }

/-- Hash state with which the records of the directory at `path` are folded:
from `(0, HASH_PRIME)`, each directory identifier and then `'/'`. -/
def seedOf (path : List (List Nat)) : Nat × Nat :=
  path.foldl
    (fun s d => hashStep HASH_PRIME (generateHash (d.map charOfByte) s.1 s.2 HASH_PRIME) 47)
    (0, HASH_PRIME)

/-- What `fillHeaderTableEntry` does at an event. -/
def fillStep (st : FillState) : Event → Outcome FillState FillState
  | .read fad => .ok { st with reads := st.reads ++ [fad] }
  | .visit dir _ path =>
    match dir.identifierLength, dir.flags with
    | some identifierLength, some flags =>
      let identifierSize :=
        if DirectoryRecord.isDirectoryFlag flags = false ∧ identifierLength > 2 then
          identifierLength - 2
        else identifierLength
      match dir.identifier identifierSize with
      | none => .fail .badRead st
      | some name =>
        if DirectoryRecord.isDirectoryFlag flags then .ok st
        else
          addFileEntry dir
            (generateHash (name.map charOfByte) (seedOf path).1 (seedOf path).2 HASH_PRIME).1 st
    | _, _ => .fail .badRead st

/-- The path string of a record: the directory identifiers, each followed by
`'/'`, then `name`, as characters. -/
def fullPath (path : List (List Nat)) (name : List Nat) : List Int :=
  ((path.map (fun d => d ++ [47])).flatten ++ name).map charOfByte

/-- The fold of the specification, on unbounded integers:
`hash' = (hash + (character - 31) * multiplier) mod 1000000009` and
`multiplier' = multiplier * 31`. -/
def foldSpec (hash multiplier character : Int) : Int × Int :=
  ((hash + (character - 31) * multiplier) % 1000000009, multiplier * 31)

/-- The `n` sectors from logical block `lba` on, 2048 bytes each, concatenated. -/
def extentBytes (dev : CdDevice) : Nat → Nat → List Nat
  | _, 0 => []
  | lba, n + 1 =>
    (dev.cd_block_read_data (dev.LBA2FAD lba)).2.bytes 2048 ++ extentBytes dev (lba + 1) n

end CdBlock

namespace Test

/-- Four bytes of a `uint32_t`, least significant first. -/
def le32 (x : Nat) : List Nat := [x % 256, x / 256 % 256, x / 65536 % 256, x / 16777216 % 256]

/-- Four bytes of a `uint32_t`, most significant first. -/
def be32 (x : Nat) : List Nat := [x / 16777216 % 256, x / 65536 % 256, x / 256 % 256, x % 256]

/-- Bytes of a directory record with the given flags, extent and identifier. -/
def record (flags location length : Nat) (name : List Nat) : List Nat :=
  [33 + name.length, 0] ++ le32 location ++ be32 location ++ le32 length ++ be32 length
    ++ [0, 0, 0, 0, 0, 0, 0] ++ [flags, 0, 0] ++ [1, 0, 0, 1] ++ [name.length] ++ name

/-- A disc given by its sectors, listed by logical block address; the rest fails to read. -/
def disc (sectors : List (Nat × CdBlock.Sector)) : CdBlock.CdDevice where
  LBA2FAD := fun lba => lba + 150
  cd_block_read_data := fun fad =>
    match sectors.lookup (fad - 150) with
    | some s => (0, s)
    | none => (-1, [])

/-- A root sector with two files whose path strings `0B.TXT` and `OA.TXT` have
the same hash: `0B.TXT;1` at block 20 with 17 bytes, `OA.TXT;1` at block 21
with 9 bytes. -/
def collidingRoot : CdBlock.Sector :=
  record 2 18 2048 [0] ++ record 2 18 2048 [1]
    ++ record 0 20 17 [48, 66, 46, 84, 88, 84, 59, 49]
    ++ record 0 21 9 [79, 65, 46, 84, 88, 84, 59, 49]

/-- A root sector with one file record, `0B.TXT;1` at block 20, of extent length 0. -/
def zeroRoot : CdBlock.Sector :=
  record 2 18 2048 [0] ++ record 2 18 2048 [1]
    ++ record 0 20 0 [48, 66, 46, 84, 88, 84, 59, 49]

/-- The root sector of the demo disc: `TEST_FILE.TXT;1` at block 20 with 17
bytes and the directory `A_FOLDER` at block 19. -/
def demoRoot : CdBlock.Sector :=
  record 2 18 2048 [0] ++ record 2 18 2048 [1]
    ++ record 0 20 17 [84, 69, 83, 84, 95, 70, 73, 76, 69, 46, 84, 88, 84, 59, 49]
    ++ record 2 19 2048 [65, 95, 70, 79, 76, 68, 69, 82]

/-- The sector of `A_FOLDER`: `ANOTHER_TEST_FILE.TXT;1` at block 21 with 9 bytes. -/
def demoFolder : CdBlock.Sector :=
  record 2 19 2048 [0] ++ record 2 18 2048 [1]
    ++ record 0 21 9 [65, 78, 79, 84, 72, 69, 82, 95, 84, 69, 83, 84, 95, 70, 73, 76, 69, 46,
        84, 88, 84, 59, 49]

/-- The demo disc: the two directory sectors and the two file sectors. -/
def demoDisc : CdBlock.CdDevice :=
  disc [(18, demoRoot), (19, demoFolder),
    (20, [104, 101, 108, 108, 111, 32, 119, 111, 114, 108, 100, 32, 49, 50, 51, 52, 53]),
    (21, [49, 50, 51, 52, 53, 54, 55, 56, 57])]

/-- A link that answers every read with the next value of a list, and with 0
once the list is used up; it keeps no record of what was sent. -/
def listLink : UsbCart (List Nat) where
  usb_cart_byte_send := fun _ l => l
  usb_cart_long_send := fun _ l => l
  usb_cart_byte_read := fun l => (l.headD 0, l.tail)
  usb_cart_long_read := fun l => (l.headD 0, l.tail)

/-- A platform on the disc `dev`, with the list link, a checksum that adds the
bytes, and an allocator that never fails. -/
def platform (dev : CdBlock.CdDevice) : Platform (List Nat) where
  dev := dev
  usb := listLink
  crc8 := fun bytes => bytes.sum % 256
  malloc := fun _ => true

end Test

namespace CdBlock

/-- The element at an `int32_t` index of an array, for an index inside it. -/
def entAt (es : List FilesystemEntry) (i : Int) : FilesystemEntry := es.getD i.toNat ⟨0, 0, 0⟩

/-- The hash of the element at an index. -/
def hashAt (es : List FilesystemEntry) (i : Int) : Nat := (entAt es i).filenameHash

/-- The entries at the indices `left..right` ascend by hash. -/
def SortedOn (es : List FilesystemEntry) (left right : Int) : Prop :=
  ∀ i j : Int, left ≤ i → i ≤ j → j ≤ right → hashAt es i ≤ hashAt es j

/-- The array `es1` is `es` with the elements at `left..right` rearranged among
themselves: same length, same elements elsewhere, whatever holds of all
elements in the range still does, and the whole is a permutation. -/
def RearrangedOn (es es1 : List FilesystemEntry) (left right : Int) : Prop :=
  es1.length = es.length
  ∧ (∀ i : Int, 0 ≤ i → (i < left ∨ right < i) → entAt es1 i = entAt es i)
  ∧ (∀ P : FilesystemEntry → Prop,
      (∀ i : Int, left ≤ i → i ≤ right → P (entAt es i)) →
      ∀ i : Int, left ≤ i → i ≤ right → P (entAt es1 i))
  ∧ es1.Perm es


/-- Whether an event is the visit of a record that is not a directory. -/
def Event.isFile : Event → Bool
  | .read _ => false
  | .visit dir _ _ =>
    match dir.flags with
    | some flags => !DirectoryRecord.isDirectoryFlag flags
    | none => false

/-- The identifier of a file record as it is hashed: without its last two
bytes when it has more than two. -/
def DirectoryRecord.fileName (r : DirectoryRecord) : List Nat :=
  (List.range
      (if r.sector.getD (r.off + 32) 0 > 2 then r.sector.getD (r.off + 32) 0 - 2
        else r.sector.getD (r.off + 32) 0)).map
    (fun i => r.sector.getD (r.off + 33 + i) 0)

/-- The table entry of a file record below the directories `path`: the hash of
its path string, and its extent. -/
def entryOf (dir : DirectoryRecord) (path : List (List Nat)) : FilesystemEntry :=
  ⟨getFilenameHash (fullPath path dir.fileName), dir.extentLocation, dir.extentLength⟩

/-- The table entries of the file records among the events, in order. -/
def fileEntries : List Event → List FilesystemEntry
  | [] => []
  | .read _ :: es => fileEntries es
  | .visit dir level path :: es =>
    if Event.isFile (.visit dir level path) then entryOf dir path :: fileEntries es
    else fileEntries es

/-- Invariant of the table build: `numEntries` is the index `*entry` points at,
that index is inside the table or at its end, and no counted entry has size 0. -/
def FillInv (st : FillState) : Prop :=
  st.headerTable.numEntries = st.entry
  ∧ st.entry ≤ st.headerTable.entries.length
  ∧ ∀ i, i < st.entry → (st.headerTable.entries.getD i ⟨0, 0, 0⟩).size ≠ 0

end CdBlock

/-! ## Volume discovery and initialisation -/

namespace CdBlock

def VD_BOOT_RECORD : Nat := 0

def VD_PRIMARY : Nat := 1

def VD_SUPPLEMENTARY : Nat := 2

def VD_PARTITION_DESCRIPTOR : Nat := 3

def VD_SET_TERMINATOR : Nat := 255

/-- Offset of `rootDirectoryRecord` in a `PrimaryVolumeDescriptor`: the packed
members before it take 156 bytes. -/
def rootDirectoryRecordOffset : Nat := 156

/-- State of `readFilesystem`: the filesystem data it fills and the addresses
passed to `cd_block_read_data`. -/
structure VolumeState where
  fsData : FilesystemData
  reads : List Nat
  deriving DecidableEq

/-- The `do ... while (tempSet.type != VD_PRIMARY)` loop of `readFilesystem` and
what follows it; `startFAD` is a `uint8_t`. The result is the returned status. -/
def readFilesystemLoop (dev : CdDevice) :
    Nat → Nat → VolumeState → Outcome VolumeState (Int × VolumeState)
  | 0, _, st => .fail .fuel st
  | fuel + 1, startFAD, st =>
    let cdBlockRet := (dev.cd_block_read_data startFAD).1
    let tempSet := (dev.cd_block_read_data startFAD).2
    let st := { st with reads := st.reads ++ [startFAD] }
    if cdBlockRet ≠ 0 then .ok (cdBlockRet, st)
    else if tempSet.getD 0 0 ≠ VD_PRIMARY then
      readFilesystemLoop dev fuel ((startFAD + 1) % 256) st
    else
      let fad :=
        dev.LBA2FAD (DirectoryRecord.extentLocation ⟨tempSet, rootDirectoryRecordOffset⟩)
      let st : VolumeState :=
        { fsData := ⟨(dev.cd_block_read_data fad).2, st.fsData.tempSector⟩,
          reads := st.reads ++ [fad] }
      if (dev.cd_block_read_data fad).1 ≠ 0 then .fail .assertion st
      else .ok (0, st)

/-- The function `readFilesystem`: the scan starts at `LBA2FAD(16)`, kept in a `uint8_t`. -/
def readFilesystem (dev : CdDevice) (fuel : Nat) (fsData : FilesystemData) :
    Outcome VolumeState (Int × VolumeState) :=
  readFilesystemLoop dev fuel (dev.LBA2FAD 16 % 256) ⟨fsData, []⟩

/-- What the drive answers to the calls of `CdBlock::initialize`. -/
structure CdBlockStartup where
  cd_block_init : Int
  cd_block_cmd_is_auth : Int
  cd_block_bypass_copy_protection : Int

/-- The function `CdBlock::initialize`. -/
def initializeCdBlock (hw : CdBlockStartup) : Int :=
  if hw.cd_block_init ≠ 0 then hw.cd_block_init
  else if hw.cd_block_cmd_is_auth = 0 then
    if hw.cd_block_bypass_copy_protection ≠ 0 then hw.cd_block_bypass_copy_protection
    else 0
  else 0

end CdBlock

/-- The function `Filesystem::initialize`. `cdFilesystemData` is the static
member before the call; the result is that member and the static members
`open` reads. The value `readFilesystem` returns is not used. The allocated
table is taken to hold zeros, and a null result of `malloc` fails the
assertion `headerTable->entries != nullptr` of `fillHeaderTable`. -/
def Filesystem.initializeFilesystem {κ : Type} (p : Platform κ) (hw : CdBlock.CdBlockStartup)
    (fuel : Nat) (cdFilesystemData : CdBlock.FilesystemData) :
    Outcome Unit (CdBlock.FilesystemData × Filesystem) :=
  if CdBlock.initializeCdBlock hw ≠ 0 then .fail .assertion ()
  else
    match CdBlock.readFilesystem p.dev fuel cdFilesystemData with
    | .fail f _ => .fail f ()
    | .ok (_, vs) =>
      match CdBlock.getHeaderTableSize p.dev fuel vs.fsData with
      | .fail f _ => .fail f ()
      | .ok tableSize =>
        if p.malloc tableSize = false then .fail .assertion ()
        else
          match CdBlock.fillHeaderTable p.dev fuel vs.fsData
              ⟨0, List.replicate (tableSize / CdBlock.sizeofFilesystemEntry) ⟨0, 0, 0⟩⟩ with
          | .fail f _ => .fail f ()
          | .ok st => .ok (vs.fsData, ⟨.CDBLOCK, st.headerTable⟩)

/-- The function `Filesystem::getFileSize(uint32_t)`. -/
def Filesystem.getFileSize {κ : Type} (p : Platform κ) (fuel : Nat) (fs : Filesystem)
    (filenameHash : Nat) (host : HostState κ) : Outcome (HostState κ) (Nat × HostState κ) :=
  match fs.defaultBackend with
  | .CDBLOCK =>
    match CdBlock.getFileEntry fuel fs.cdHeaderTable filenameHash with
    | .fail f _ => .fail f host
    | .ok none => .ok (INVALID_FILE_SIZE, host)
    | .ok (some i) =>
      match fs.cdHeaderTable.entries[i]? with
      | none => .fail .badRead host
      | some fsEntry => .ok (fsEntry.size, host)
  | .USB =>
    let size := (usbGetFileSize p.usb filenameHash host.link).1
    let host := { host with link := (usbGetFileSize p.usb filenameHash host.link).2 }
    if size = 0 then .ok (INVALID_FILE_SIZE, host) else .ok (size, host)
  | .AUTO => .fail .assertion host

/-- The function `Filesystem::getFileSize(const char*)`. -/
def Filesystem.getFileSizeOfName {κ : Type} (p : Platform κ) (fuel : Nat) (fs : Filesystem)
    (filename : List Int) (host : HostState κ) : Outcome (HostState κ) (Nat × HostState κ) :=
  Filesystem.getFileSize p fuel fs (CdBlock.getFilenameHash filename) host

/-! ## Operations on a handle -/

/-- The origin `SEEK_SET` of `<stdio.h>`. -/
def SEEK_SET : Nat := 0

/-- The origin `SEEK_CUR` of `<stdio.h>`. -/
def SEEK_CUR : Nat := 1

/-- The origin `SEEK_END` of `<stdio.h>`. -/
def SEEK_END : Nat := 2

/-- The function `File::seek`. -/
def File.seek (f : File) (fromPosition numOfBytes : Nat) : Outcome File File :=
  match f.backend with
  | .CDBLOCK | .USB =>
    if fromPosition = SEEK_SET then .ok { f with seekPos := numOfBytes }
    else if fromPosition = SEEK_CUR then .ok { f with seekPos := (f.seekPos + numOfBytes) % U32 }
    else if fromPosition = SEEK_END then .ok { f with seekPos := (f.length + numOfBytes) % U32 }
    else .ok f
  | .AUTO => .fail .assertion f

/-- The bytes `memcpy` reads for `File::readData`: `len` bytes from offset
`seekPos` of the buffer, when they all lie inside it. A null `ptr` has no bytes. -/
def File.bytesAt (f : File) (len : Nat) : Option (List Nat) :=
  if f.seekPos + len ≤ (f.ptr.getD []).length ∨ len = 0 then
    some (((f.ptr.getD []).drop f.seekPos).take len)
  else none

/-- The function `File::readData`. `dest` is `none` for a null pointer and
otherwise the contents of the destination; the result is the returned value,
the destination and the handle. -/
def File.readData (f : File) (dest : Option (List Nat)) (len : Nat) :
    Outcome File (Nat × List Nat × File) :=
  match f.backend with
  | .CDBLOCK | .USB =>
    match dest with
    | none => .fail .assertion f
    | some d =>
      match f.bytesAt len with
      | none => .fail .badRead f
      | some bytes =>
        if len ≤ d.length then
          .ok (len, bytes ++ d.drop len, { f with seekPos := (f.seekPos + len) % U32 })
        else .fail .badWrite f
  | .AUTO => .fail .assertion f

/-- The function `File::skipData`. -/
def File.skipData (f : File) (len : Nat) : Outcome File File :=
  match f.backend with
  | .CDBLOCK | .USB => .ok { f with seekPos := (f.seekPos + len) % U32 }
  | .AUTO => .fail .assertion f

/-- The function `File::close`; the result is the handle and the buffers passed to `free`. -/
def File.close (f : File) : Outcome File (File × List (List Nat)) :=
  match f.backend with
  | .CDBLOCK | .USB =>
    .ok (⟨f.backend, 0, 0, none⟩,
      match f.ptr with
      | some buffer => [buffer]
      | none => [])
  | .AUTO => .fail .assertion f

/-- The destructor `File::~File`, which calls `close`. -/
def File.destroy (f : File) : Outcome File (File × List (List Nat)) := File.close f

/-- A `File` after `memset(&other, 0, sizeof(File))`; the enumerator of value 0 is `CDBLOCK`. -/
def File.zeroed : File := ⟨.CDBLOCK, 0, 0, none⟩

/-- The operator `File::operator=(File&)`: `memcpy(this, &other, sizeof(File))`, then
`memset(&other, 0, sizeof(File))`. The result is `*this` and `other`, two distinct objects. -/
def File.assign (_this other : File) : File × File := (other, File.zeroed)

/-- The operator `File::operator=(File&&)`, with the same body. -/
def File.assignMove (_this other : File) : File × File := (other, File.zeroed)

/-- The constructor `File(File&& other) = default`: each member is moved, which for
an enumeration, two integers and a pointer copies it. The result is the new
handle and `other`. -/
def File.moveConstruct (other : File) : File × File := (other, other)

namespace Test

/-- A drive that starts up without error. -/
def startup : CdBlock.CdBlockStartup := ⟨0, 1, 0⟩

/-- A primary volume descriptor whose root directory has the given extent. -/
def primaryDescriptor (location length : Nat) : CdBlock.Sector :=
  [1] ++ List.replicate 155 0 ++ record 2 location length [0]

/-- A directory sector with the two leading records and the file `F1;1`, at
block 30 with 5 bytes. -/
def firstSector : CdBlock.Sector :=
  record 2 18 4096 [0] ++ record 2 18 4096 [1] ++ record 0 30 5 [70, 49, 59, 49]

/-- A continuation sector of a directory, with the file `F2;1`, at block 31
with 7 bytes. -/
def secondSector : CdBlock.Sector :=
  record 0 31 7 [70, 50, 59, 49]

/-- A disc whose root directory takes the two sectors 18 and 19. -/
def wideRootDisc : CdBlock.CdDevice :=
  disc [(16, primaryDescriptor 18 4096), (18, firstSector), (19, secondSector)]

/-- The root sector of a disc whose root holds the directory `D`, of two
sectors from block 18 on. -/
def wideDirRoot : CdBlock.Sector :=
  record 2 17 2048 [0] ++ record 2 17 2048 [1] ++ record 2 18 4096 [68]

/-- A disc whose directory `D` takes the two sectors 18 and 19. -/
def wideDirDisc : CdBlock.CdDevice :=
  disc [(16, primaryDescriptor 17 2048), (17, wideDirRoot), (18, firstSector),
    (19, secondSector)]

/-- The root sector of a disc with the directory `A`, at block 19. -/
def nestedRoot : CdBlock.Sector :=
  record 2 18 2048 [0] ++ record 2 18 2048 [1] ++ record 2 19 2048 [65]

/-- The sector of `A`, with the directory `B`, at block 20. -/
def nestedA : CdBlock.Sector :=
  record 2 19 2048 [0] ++ record 2 18 2048 [1] ++ record 2 20 2048 [66]

/-- The sector of `A/B`, with the file `F1;1`. -/
def nestedB : CdBlock.Sector :=
  record 2 20 2048 [0] ++ record 2 19 2048 [1] ++ record 0 30 5 [70, 49, 59, 49]

/-- A disc with the file `A/B/F1`, two directories below the root. -/
def nestedDisc : CdBlock.CdDevice :=
  disc [(16, primaryDescriptor 18 2048), (18, nestedRoot), (19, nestedA), (20, nestedB)]

/-- A visitor that lists the identifier of each record with the level it was given. -/
def recordLevels : CdBlock.RecordFunction (List (List Nat × Int)) :=
  fun dir level seen => seen ++ [(dir.name, level)]

end Test

/-! ## The accesses of `quickSort` -/

namespace CdBlock

/-- The loop `do { l++; } while (entries[l] < pivot);` of `quickSort`, with the
indices of the elements it reads, in order. -/
def scanLeftAcc (entries : List FilesystemEntry) (pivot : FilesystemEntry) :
    Nat → Int → Outcome Unit (Int × List Int)
  | 0, _ => .fail .fuel ()
  | fuel + 1, l =>
    match readAt entries (l + 1) with
    | none => .fail .badRead ()
    | some e =>
      if e.filenameHash < pivot.filenameHash then
        match scanLeftAcc entries pivot fuel (l + 1) with
        | .fail f s => .fail f s
        | .ok (l1, acc) => .ok (l1, (l + 1) :: acc)
      else .ok (l + 1, [l + 1])

/-- The loop `do { r--; } while (entries[r] > pivot);` of `quickSort`, with the
indices of the elements it reads, in order. -/
def scanRightAcc (entries : List FilesystemEntry) (pivot : FilesystemEntry) :
    Nat → Int → Outcome Unit (Int × List Int)
  | 0, _ => .fail .fuel ()
  | fuel + 1, r =>
    match readAt entries (r - 1) with
    | none => .fail .badRead ()
    | some e =>
      if e.filenameHash > pivot.filenameHash then
        match scanRightAcc entries pivot fuel (r - 1) with
        | .fail f s => .fail f s
        | .ok (r1, acc) => .ok (r1, (r - 1) :: acc)
      else .ok (r - 1, [r - 1])

/-- The `for (;;)` loop of `quickSort`, with the indices of the elements it
reads and writes, in order: those of the two scans, then `r`, `l`, `r`, `l`
for the three statements of the swap. -/
def partitionLoopAcc (pivot : FilesystemEntry) :
    Nat → List FilesystemEntry → Int → Int →
      Outcome Unit (List FilesystemEntry × Int × List Int)
  | 0, _, _, _ => .fail .fuel ()
  | fuel + 1, entries, l, r =>
    match scanLeftAcc entries pivot fuel l with
    | .fail f s => .fail f s
    | .ok (l, accL) =>
      match scanRightAcc entries pivot fuel r with
      | .fail f s => .fail f s
      | .ok (r, accR) =>
        if l ≥ r then .ok (entries, r, accL ++ accR)
        else
          match readAt entries r, readAt entries l with
          | some tmp, some el =>
            match partitionLoopAcc pivot fuel ((entries.set r.toNat el).set l.toNat tmp) l r with
            | .fail f s => .fail f s
            | .ok (entries, pivotIndex, acc) =>
              .ok (entries, pivotIndex, accL ++ accR ++ [r, l, r, l] ++ acc)
          | _, _ => .fail .badRead ()

/-- The template `quickSort` at `T = FilesystemEntry`, with the indices of the
elements it reads and writes, in order: the pivot, the partition, and the two
recursive calls. -/
def quickSortAcc :
    Nat → List FilesystemEntry → Int → Int → Outcome Unit (List FilesystemEntry × List Int)
  | 0, _, _, _ => .fail .fuel ()
  | fuel + 1, entries, left, right =>
    if right ≤ left then .ok (entries, [])
    else
      let pivotIndex := left + (right - left).tdiv 2
      match readAt entries pivotIndex with
      | none => .fail .badRead ()
      | some pivot =>
        match partitionLoopAcc pivot fuel entries (left - 1) (right + 1) with
        | .fail f s => .fail f s
        | .ok (entries, split, acc) =>
          match quickSortAcc fuel entries left split with
          | .fail f s => .fail f s
          | .ok (entries, acc1) =>
            match quickSortAcc fuel entries (split + 1) right with
            | .fail f s => .fail f s
            | .ok (entries, acc2) => .ok (entries, pivotIndex :: (acc ++ acc1 ++ acc2))

/-! ## The records of a sector -/

/-- The records from `dir` on, in the order they lie in the sector buffer, up
to the first whose length byte is 0; `n` bounds their number. -/
def recordsFrom : Nat → DirectoryRecord → List DirectoryRecord
  | 0, _ => []
  | n + 1, dir =>
    match dir.length with
    | some len => if len = 0 then [] else dir :: recordsFrom n (dir.nextDir len)
    | none => []

/-- Whether an event is the visit of a record of the directory at `path`. -/
def Event.isVisitAt (path : List (List Nat)) : Event → Bool
  | .read _ => false
  | .visit _ _ p => decide (p = path)

/-- The visits of records of the directory at `path` among the events, in order. -/
def visitsAt (path : List (List Nat)) (events : List Event) : List Event :=
  events.filter (Event.isVisitAt path)

/-- The address passed to `cd_block_read_data` for sector `lvl` of the extent of `dir`. -/
def sectorFAD (dev : CdDevice) (dir : DirectoryRecord) (lvl : Nat) : Nat :=
  (dev.LBA2FAD dir.extentLocation + lvl) % U32

/-- Trace of the scan of sector `lvl` of the extent of the directory `dir`,
which lies in the directory at `path`: the recursive call of the walker on the
sector just read. -/
def sectorTrace (dev : CdDevice) (fuel : Nat) (dir : DirectoryRecord)
    (path : List (List Nat)) (lvl : Nat) : Trace :=
  walkEntry (fun r l => walkLoop dev fuel r l (path ++ [dir.name]))
    ⟨(dev.cd_block_read_data (sectorFAD dev dir lvl)).2, 0⟩ ((lvl : Int) + 1)
    (decide (lvl > 0))

/-- The identifier with its last two bytes removed, as the specification strips
the version suffix of a file identifier. -/
def withoutSuffix (identifier : List Nat) : List Nat :=
  identifier.take (identifier.length - 2)

end CdBlock

namespace Test

/-- A root sector with two files whose identifiers have no version suffix:
`AB` at block 20 with 9 bytes, and `C` at block 21 with 5 bytes. -/
def shortRoot : CdBlock.Sector :=
  record 2 18 2048 [0] ++ record 2 18 2048 [1] ++ record 0 20 9 [65, 66] ++ record 0 21 5 [67]

/-- A volume descriptor set terminator. -/
def terminator : CdBlock.Sector := [255, 67, 68, 48, 48, 49, 1]

/-- A disc with a terminator at block 16 and a primary descriptor after it, at
block 17. -/
def terminatorDisc : CdBlock.CdDevice :=
  disc [(16, terminator), (17, primaryDescriptor 18 2048), (18, demoRoot)]

/-- A disc on which every sector reads as a terminator. -/
def terminatorsOnly : CdBlock.CdDevice where
  LBA2FAD := fun lba => lba + 150
  cd_block_read_data := fun _ => (0, terminator)

/-- A root sector with the two leading records and no other. -/
def emptyRoot : CdBlock.Sector :=
  record 2 18 2048 [0] ++ record 2 18 2048 [1]

end Test

namespace Test

/-- The file record `FILE00nn.X;1` of 45 bytes, at block `20 + n` with 5 bytes. -/
def numberedFile (n : Nat) : List Nat :=
  record 0 (20 + n) 5 [70, 73, 76, 69, 48, 48, 48 + n / 10, 48 + n % 10, 46, 88, 59, 49]

/-- A root sector filled to its last byte: the two leading records, of 34
bytes each, and 44 file records of 45 bytes each. -/
def fullRoot : CdBlock.Sector :=
  record 2 18 2048 [0] ++ record 2 18 2048 [1] ++ (List.range 44).flatMap numberedFile

/-- A root sector filled to its last byte that holds a directory: the two
leading records, the directory `DIRECTORY000` at block 19, and 43 file records. -/
def fullDirRoot : CdBlock.Sector :=
  record 2 18 2048 [0] ++ record 2 18 2048 [1]
    ++ record 2 19 2048 [68, 73, 82, 69, 67, 84, 79, 82, 89, 48, 48, 48]
    ++ (List.range 43).flatMap numberedFile

/-- A disc whose root sector is filled to its last byte and holds a directory,
whose one sector is that of `A_FOLDER` of the demo disc. -/
def fullDirDisc : CdBlock.CdDevice :=
  disc [(16, primaryDescriptor 18 2048), (18, fullDirRoot), (19, demoFolder)]

end Test

namespace Test

/-- Bytes of a directory record of `total` bytes: those of `record`, with
zeros after the identifier up to the length of the record. -/
def paddedRecord (flags location length : Nat) (name : List Nat) (total : Nat) : List Nat :=
  total :: (record flags location length name).tail
    ++ List.replicate (total - (33 + name.length)) 0

/-- A root sector filled to its last byte by few records: the two leading
records, the files `A;1` to `G;1` in records of 255 bytes, at blocks 20 to 26,
and the file `H;1` in a record of 195 bytes that ends at offset 2048. -/
def paddedRoot : CdBlock.Sector :=
  record 2 18 2048 [0] ++ record 2 18 2048 [1]
    ++ (List.range 7).flatMap (fun n => paddedRecord 0 (20 + n) 5 [65 + n, 59, 49] 255)
    ++ paddedRecord 0 27 5 [72, 59, 49] 195

end Test

/-! # Theorems -/

namespace CdBlock

/-! ## Rolling hash -/

theorem toU32_cast (x : Int) : ((toU32 x : Nat) : Int) = x % 4294967296 := by
  unfold toU32
  exact Int.toNat_of_nonneg (Int.emod_nonneg _ (by norm_num))

theorem hashStep_fst_cast (h m : Nat) (c : Int) :
    (((hashStep 31 (h, m) c).1 : Nat) : Int)
      = ((h + (c - 31) * m) % 4294967296) % 1000000009 := by
  simp only [hashStep, U32, HASH_CUT_NUMBER, HASH_CHAR]
  push_cast
  rw [toU32_cast]
  congr 1
  rw [Int.add_emod, Int.emod_emod_of_dvd _ (dvd_refl _), Int.mul_emod,
    Int.emod_emod_of_dvd _ (dvd_refl _), ← Int.mul_emod, ← Int.add_emod]

theorem generateHash_nil (h m f : Nat) : generateHash [] h m f = (h, m) := rfl

theorem generateHash_cons (c : Int) (rest : List Int) (h m f : Nat) :
    generateHash (c :: rest) h m f
      = generateHash rest (hashStep f (h, m) c).1 (hashStep f (h, m) c).2 f := rfl

theorem generateHash_append (a b : List Int) (h m f : Nat) :
    generateHash (a ++ b) h m f
      = generateHash b (generateHash a h m f).1 (generateHash a h m f).2 f := by
  simp [generateHash, List.foldl_append]

theorem generateHash_snoc (a : List Int) (c : Int) (h m f : Nat) :
    generateHash (a ++ [c]) h m f = hashStep f (generateHash a h m f) c := by
  simp [generateHash, List.foldl_append]

theorem charOfByte_slash : charOfByte 47 = 47 := by decide

/-- The hash state of a directory path is the hash state of its path string. -/
theorem seedOf_eq (path : List (List Nat)) :
    seedOf path = generateHash (fullPath path []) 0 HASH_PRIME HASH_PRIME := by
  induction path using List.reverseRecOn with
  | nil => rfl
  | append_singleton ps d ih =>
    have h1 : fullPath (ps ++ [d]) [] = fullPath ps [] ++ (d.map charOfByte ++ [47]) := by
      simp [fullPath, charOfByte_slash]
    rw [h1, generateHash_append, ← ih, ← List.append_nil (d.map charOfByte ++ [47])]
    simp only [List.append_nil]
    rw [generateHash_snoc]
    simp [seedOf, List.foldl_append]

theorem fullPath_split (path : List (List Nat)) (name : List Nat) :
    fullPath path name = fullPath path [] ++ name.map charOfByte := by
  simp [fullPath]

/-- C3. Rolling-hash composition: hashing `a ++ b` from a seed equals hashing
`b` from the hash and last prime that hashing `a` returns; hence the hash the
walk propagates for the record `name` below the directories `path` (each
directory identifier followed by `'/'`, from the seed `(0, 31)`) is
`getFilenameHash` of the full path string. -/
theorem C3_rolling_hash_composition :
    (∀ (a b : List Int) (h m : Nat),
      generateHash (a ++ b) h m 31
        = generateHash b (generateHash a h m 31).1 (generateHash a h m 31).2 31)
    ∧ (∀ (path : List (List Nat)) (name : List Nat),
      (generateHash (name.map charOfByte) (seedOf path).1 (seedOf path).2 HASH_PRIME).1
        = getFilenameHash (fullPath path name)) := by
  refine ⟨fun a b h m => generateHash_append a b h m 31, fun path name => ?_⟩
  rw [getFilenameHash, fullPath_split, generateHash_append, ← seedOf_eq]

/-- C9, as stated, fails: from the multiplier `31^6`, which every name of six
characters reaches, the step on `'A'` differs from the unbounded formula in
both components. -/
theorem C9_counterexample :
    (((hashStep 31 (0, 887503681) 65).1 : Int), ((hashStep 31 (0, 887503681) 65).2 : Int))
        ≠ foldSpec 0 887503681 65
    ∧ ((hashStep 31 (0, 887503681) 65).1 : Int) ≠ (foldSpec 0 887503681 65).1
    ∧ ((hashStep 31 (0, 887503681) 65).2 : Int) ≠ (foldSpec 0 887503681 65).2 := by
  decide

/-- C9, amended. One hash step yields
`hash' = ((hash + (c - 31) * multiplier) mod 2^32) mod 1000000009` and
`multiplier' = (multiplier * 31) mod 2^32`, and `generateHash` applies this
step once per character, left to right. -/
theorem C9_fold_formula (hash multiplier : Nat) (c : Int) (rest : List Int) :
    (((hashStep 31 (hash, multiplier) c).1 : Nat) : Int)
        = ((hash + (c - 31) * multiplier) % 4294967296) % 1000000009
    ∧ (hashStep 31 (hash, multiplier) c).2 = (multiplier * 31) % 4294967296
    ∧ generateHash [] hash multiplier 31 = (hash, multiplier)
    ∧ generateHash (c :: rest) hash multiplier 31
        = generateHash rest (hashStep 31 (hash, multiplier) c).1
            (hashStep 31 (hash, multiplier) c).2 31 :=
  ⟨hashStep_fst_cast hash multiplier c, rfl, rfl, rfl⟩


/-! ## Binary search -/

/-- On a non-empty range inside the array, with fuel for its length, the search
returns, and what it reports lies in the range and carries the target hash. -/
theorem binarySearch_spec (mem : List FilesystemEntry) (s : FilesystemEntry) :
    ∀ (fuel base len : Nat), 0 < len → base + len ≤ mem.length → len ≤ fuel →
      binarySearch mem fuel base len s = .ok none
      ∨ ∃ i e, binarySearch mem fuel base len s = .ok (some i) ∧ base ≤ i ∧ i < base + len
          ∧ mem[i]? = some e ∧ e.filenameHash = s.filenameHash := by
  intro fuel
  induction fuel with
  | zero => intro base len h1 _ h3; omega
  | succ fuel ih =>
    intro base len hpos hlen hfuel
    have hlt : base + len / 2 < mem.length := by
      have : len / 2 < len := Nat.div_lt_self hpos (by norm_num)
      omega
    rw [binarySearch]
    simp only [List.getElem?_eq_getElem hlt]
    by_cases heq : (mem[base + len / 2]).filenameHash = s.filenameHash
    · right
      refine ⟨base + len / 2, mem[base + len / 2], ?_, by omega, ?_, ?_, heq⟩
      · simp [heq]
      · have : len / 2 < len := Nat.div_lt_self hpos (by norm_num)
        omega
      · exact List.getElem?_eq_getElem hlt
    · simp only [heq, if_false]
      by_cases h1 : len > 1
      · simp only [h1, if_true]
        have hp : 0 < len / 2 := Nat.div_pos (by omega) (by norm_num)
        have hq : len / 2 < len := Nat.div_lt_self hpos (by norm_num)
        by_cases hgt : (mem[base + len / 2]).filenameHash > s.filenameHash
        · simp only [hgt, if_true]
          rcases ih base (len / 2) hp (by omega) (by omega) with h | ⟨i, e, h, hb, hi, he, hh⟩
          · exact Or.inl h
          · exact Or.inr ⟨i, e, h, hb, by omega, he, hh⟩
        · simp only [hgt, if_false]
          rcases ih (base + len / 2) (len - len / 2) (by omega) (by omega) (by omega) with
            h | ⟨i, e, h, hb, hi, he, hh⟩
          · exact Or.inl h
          · exact Or.inr ⟨i, e, h, by omega, by omega, he, hh⟩
      · simp [h1]

/-- Whatever the fuel and the range, an entry the search reports is an entry of
the array whose hash is the target. -/
theorem binarySearch_sound (mem : List FilesystemEntry) (s : FilesystemEntry) :
    ∀ (fuel base len i : Nat), binarySearch mem fuel base len s = .ok (some i) →
      ∃ e, mem[i]? = some e ∧ e.filenameHash = s.filenameHash := by
  intro fuel
  induction fuel with
  | zero => intro base len i h; simp [binarySearch] at h
  | succ fuel ih =>
    intro base len i h
    rw [binarySearch] at h
    cases hm : mem[base + len / 2]? with
    | none => simp [hm] at h
    | some pivot =>
      simp only [hm] at h
      by_cases heq : pivot.filenameHash = s.filenameHash
      · simp only [heq, if_true, Outcome.ok.injEq, Option.some.injEq] at h
        subst h
        exact ⟨pivot, hm, heq⟩
      · simp only [heq, if_false] at h
        by_cases h1 : len > 1
        · simp only [h1, if_true] at h
          by_cases hgt : pivot.filenameHash > s.filenameHash
          · simp only [hgt, if_true] at h
            exact ih _ _ _ h
          · simp only [hgt, if_false] at h
            exact ih _ _ _ h
        · simp [h1] at h

/-- A hash that no entry of a non-empty table carries is not found. -/
theorem getFileEntry_absent (fuel : Nat) (headerTable : FilesystemHeaderTable) (target : Nat)
    (hpos : 0 < headerTable.numEntries)
    (hlen : headerTable.numEntries ≤ headerTable.entries.length)
    (hfuel : headerTable.numEntries ≤ fuel)
    (habs : ∀ i e, i < headerTable.numEntries → headerTable.entries[i]? = some e →
      e.filenameHash ≠ target) :
    getFileEntry fuel headerTable target = .ok none := by
  rcases binarySearch_spec headerTable.entries ⟨target, 0, 0⟩ fuel 0 headerTable.numEntries
      hpos (by omega) hfuel with h | ⟨i, e, _, _, hi, he, hh⟩
  · exact h
  · exact absurd hh (habs i e (by omega) he)

/-- C4. Lookup completeness for absentees: on a non-empty header table,
sorted or not, a target hash that no entry carries leaves the result of
`getFileEntry` unset; and any entry `binarySearch` reports has the target hash. -/
theorem C4_absent_not_found :
    (∀ (fuel : Nat) (headerTable : FilesystemHeaderTable) (target : Nat),
      0 < headerTable.numEntries →
      headerTable.numEntries ≤ headerTable.entries.length →
      headerTable.numEntries ≤ fuel →
      (∀ i e, i < headerTable.numEntries → headerTable.entries[i]? = some e →
        e.filenameHash ≠ target) →
      getFileEntry fuel headerTable target = .ok none)
    ∧ (∀ (mem : List FilesystemEntry) (fuel base len : Nat) (s : FilesystemEntry) (i : Nat),
      binarySearch mem fuel base len s = .ok (some i) →
      ∃ e, mem[i]? = some e ∧ e.filenameHash = s.filenameHash) := by
  exact ⟨getFileEntry_absent, fun mem fuel base len s i h => binarySearch_sound mem s fuel base len i h⟩

/-- C4 at a table of three unsorted entries: an absent hash is not found, and
the entry reported for a present hash carries it. -/
theorem C4_absent_not_found_witness :
    getFileEntry 3 ⟨3, [⟨9, 20, 17⟩, ⟨4, 21, 9⟩, ⟨6, 22, 5⟩]⟩ 5 = .ok none
    ∧ ∃ e, [(⟨9, 20, 17⟩ : FilesystemEntry), ⟨4, 21, 9⟩, ⟨6, 22, 5⟩][1]? = some e
        ∧ e.filenameHash = (⟨4, 0, 0⟩ : FilesystemEntry).filenameHash :=
  ⟨C4_absent_not_found.1 3 ⟨3, [⟨9, 20, 17⟩, ⟨4, 21, 9⟩, ⟨6, 22, 5⟩]⟩ 5 (by decide) (by decide)
      (by decide) (by
        intro i e hi he
        have hi3 : i < 3 := hi
        interval_cases i <;> simp at he <;> subst he <;> decide),
    C4_absent_not_found.2 [⟨9, 20, 17⟩, ⟨4, 21, 9⟩, ⟨6, 22, 5⟩] 3 0 3 ⟨4, 0, 0⟩ 1 (by decide)⟩

/-- C5: with `numEntries == 0` the search does not recurse, but it does
evaluate `entries[0]`: on an empty allocation that read is outside the array,
and if the word found there carries the target hash it is reported as found. -/
theorem C5_empty_index_reads_entry (fuel target : Nat) (e : FilesystemEntry)
    (rest : List FilesystemEntry) :
    getFileEntry (fuel + 1) ⟨0, []⟩ target = .fail .badRead ()
    ∧ getFileEntry (fuel + 1) ⟨0, e :: rest⟩ e.filenameHash = .ok (some 0)
    ∧ getFileEntry (fuel + 1) ⟨0, e :: rest⟩ target
        = if e.filenameHash = target then .ok (some 0) else .ok none := by
  refine ⟨rfl, ?_, ?_⟩
  · simp [getFileEntry, binarySearch]
  · simp [getFileEntry, binarySearch]


/-! ## Whole-file read -/

theorem Sector.length_bytes (s : Sector) (n : Nat) : (s.bytes n).length = n := by
  simp [Sector.bytes]

theorem Sector.bytes_take (s : Sector) (m n : Nat) (h : m ≤ n) :
    (s.bytes n).take m = s.bytes m := by
  apply List.ext_getElem
  · simp [Sector.bytes]; omega
  · intro i h1 h2
    simp [Sector.bytes]

theorem extentBytes_length (dev : CdDevice) :
    ∀ (n lba : Nat), (extentBytes dev lba n).length = 2048 * n := by
  intro n
  induction n with
  | zero => intro lba; rfl
  | succ n ih =>
    intro lba
    rw [extentBytes, List.length_append, Sector.length_bytes, ih]
    omega

theorem range_map_shift (f : Nat → Nat) (k : Nat) :
    (List.range (k + 1)).map f = f 0 :: (List.range k).map (fun i => f (i + 1)) := by
  rw [List.range_succ_eq_map, List.map_cons, List.map_map]
  rfl

theorem getFileContentsLoop_spec (dev : CdDevice) :
    ∀ (fuel missingBytes readingLBA : Nat) (st : ReadState),
      (∀ i, i < (missingBytes + 2047) / 2048 →
        readingLBA + i < U32
          ∧ (dev.cd_block_read_data (dev.LBA2FAD (readingLBA + i))).1 = 0) →
      (missingBytes + 2047) / 2048 < fuel →
      getFileContentsLoop dev fuel missingBytes readingLBA st
        = .ok (0, ⟨st.buffer
              ++ (extentBytes dev readingLBA ((missingBytes + 2047) / 2048)).take missingBytes,
            st.reads ++ (List.range ((missingBytes + 2047) / 2048)).map
              (fun i => dev.LBA2FAD (readingLBA + i))⟩) := by
  intro fuel
  induction fuel with
  | zero => intro m l st _ h; omega
  | succ fuel ih =>
    intro m l st hok hfuel
    rw [getFileContentsLoop]
    by_cases hm : m > 0
    · have h0 := hok 0 (by omega)
      simp only [Nat.add_zero] at h0
      simp only [hm, if_true, h0.2, ne_eq, not_true_eq_false, if_false]
      by_cases hbig : m > 2048
      · simp only [hbig, if_true]
        obtain ⟨k, hk⟩ : ∃ k, (m + 2047) / 2048 = k + 1 := ⟨(m + 2047) / 2048 - 1, by omega⟩
        have hk' : (m - 2048 + 2047) / 2048 = k := by omega
        have h1 := hok 1 (by omega)
        have hl : (l + 1) % U32 = l + 1 := Nat.mod_eq_of_lt h1.1
        have htake : (extentBytes dev l (k + 1)).take m
            = (dev.cd_block_read_data (dev.LBA2FAD l)).2.bytes 2048
                ++ (extentBytes dev (l + 1) k).take (m - 2048) := by
          rw [extentBytes, List.take_append_eq_append_take, Sector.length_bytes,
            List.take_of_length_le (by rw [Sector.length_bytes]; omega)]
        have hmap : (List.range (k + 1)).map (fun i => dev.LBA2FAD (l + i))
            = dev.LBA2FAD l :: (List.range k).map (fun i => dev.LBA2FAD (l + 1 + i)) := by
          rw [range_map_shift]
          congr 1
          apply List.map_congr_left
          intro i _
          rw [Nat.add_assoc, Nat.add_comm 1 i]
        rw [hl, ih (m - 2048) (l + 1) _ (by
          intro i hi
          have := hok (i + 1) (by omega)
          rw [show l + 1 + i = l + (i + 1) by omega]
          exact this) (by omega), hk', hk, htake, hmap]
        simp only [List.append_assoc, List.singleton_append]
      · simp only [hbig, if_false]
        have hk : (m + 2047) / 2048 = 1 := by omega
        have he1 : (extentBytes dev l 1).take m
            = (dev.cd_block_read_data (dev.LBA2FAD l)).2.bytes m := by
          rw [extentBytes, extentBytes, List.append_nil, Sector.bytes_take _ _ _ (by omega)]
        have hr1 : List.map (fun i => dev.LBA2FAD (l + i)) (List.range 1) = [dev.LBA2FAD l] := rfl
        rw [ih 0 l _ (by intro i hi; omega) (by omega), hk, he1, hr1]
        show Outcome.ok (0, (⟨(st.buffer ++ _) ++ List.take 0 _, (st.reads ++ _) ++ []⟩ : ReadState))
          = _
        rw [List.take_zero, List.append_nil, List.append_nil]
    · have hm0 : m = 0 := by omega
      subst hm0
      show Outcome.ok (0, st)
        = Outcome.ok (0, (⟨st.buffer ++ List.take 0 _, st.reads ++ []⟩ : ReadState))
      rw [List.take_zero, List.append_nil, List.append_nil]

/-- C6. Whole-file read: when the reads of the sectors `lba`, ..., `lba + n - 1`
with `n = ceil(size / 2048)` all succeed, `getFileContents` returns 0, reads
exactly those sectors in order, and leaves in `buffer[0..size)` the first
`size` bytes of their concatenation. -/
theorem C6_whole_file_read (dev : CdDevice) (fuel : Nat) (entry : FilesystemEntry)
    (hok : ∀ i, i < (entry.size + 2047) / 2048 →
      entry.lba + i < U32
        ∧ (dev.cd_block_read_data (dev.LBA2FAD (entry.lba + i))).1 = 0)
    (hfuel : (entry.size + 2047) / 2048 < fuel) :
    getFileContents dev fuel entry
      = .ok (0, ⟨(extentBytes dev entry.lba ((entry.size + 2047) / 2048)).take entry.size,
          (List.range ((entry.size + 2047) / 2048)).map
            (fun i => dev.LBA2FAD (entry.lba + i))⟩)
    ∧ ((extentBytes dev entry.lba ((entry.size + 2047) / 2048)).take entry.size).length
        = entry.size := by
  constructor
  · rw [getFileContents, getFileContentsLoop_spec dev fuel entry.size entry.lba _ hok hfuel]
    simp
  · rw [List.length_take, extentBytes_length]
    omega


/-! ## Quicksort -/

theorem readAt_eq (es : List FilesystemEntry) (i : Int) (h0 : 0 ≤ i) (h1 : i < es.length) :
    readAt es i = some (entAt es i) := by
  have hlt : i.toNat < es.length := by omega
  simp [readAt, entAt, h0, List.getD_eq_getElem?_getD, List.getElem?_eq_getElem hlt]

theorem entAt_set (es : List FilesystemEntry) (j : Nat) (x : FilesystemEntry) (i : Int)
    (hj : j < es.length) :
    entAt (es.set j x) i = if i.toNat = j then x else entAt es i := by
  unfold entAt
  rw [List.getD_eq_getElem?_getD, List.getD_eq_getElem?_getD, List.getElem?_set]
  by_cases h : j = i.toNat
  · subst h
    simp [hj]
  · have h' : ¬ i.toNat = j := fun e => h e.symm
    simp [h, h']

theorem entAt_swap (es : List FilesystemEntry) (l r i : Int) (hl : 0 ≤ l) (hr : 0 ≤ r)
    (hi : 0 ≤ i) (hll : l < es.length) (hrl : r < es.length) (hne : l ≠ r) :
    entAt ((es.set r.toNat (entAt es l)).set l.toNat (entAt es r)) i
      = if i = l then entAt es r else if i = r then entAt es l else entAt es i := by
  rw [entAt_set _ _ _ _ (by rw [List.length_set]; omega), entAt_set _ _ _ _ (by omega)]
  by_cases h1 : i = l
  · subst h1; simp
  · have h1' : ¬ i.toNat = l.toNat := by omega
    by_cases h2 : i = r
    · subst h2; simp [h1, h1']
    · have h2' : ¬ i.toNat = r.toNat := by omega
      simp [h1, h2, h1', h2']

theorem perm_getD_cons_set (d x : FilesystemEntry) :
    ∀ (xs : List FilesystemEntry) (k : Nat), k < xs.length →
      (xs.getD k d :: xs.set k x).Perm (x :: xs) := by
  intro xs
  induction xs with
  | nil => intro k hk; simp at hk
  | cons y ys ih =>
    intro k hk
    cases k with
    | zero => exact List.Perm.swap x y ys
    | succ k =>
      have hk1 : k < ys.length := by simpa using hk
      have h1 : ((y :: ys).getD (k + 1) d :: (y :: ys).set (k + 1) x)
          = (ys.getD k d :: y :: ys.set k x) := by
        simp [List.getD_cons_succ]
      rw [h1]
      exact (List.Perm.swap y (ys.getD k d) (ys.set k x)).trans
        (((ih k hk1).cons y).trans (List.Perm.swap x y ys))

/-- Exchanging the elements at two indices of a list permutes it. -/
theorem perm_swap_set (d : FilesystemEntry) :
    ∀ (es : List FilesystemEntry) (i j : Nat), i < j → j < es.length →
      ((es.set j (es.getD i d)).set i (es.getD j d)).Perm es := by
  intro es
  induction es with
  | nil => intro i j _ hj; simp at hj
  | cons y ys ih =>
    intro i j hij hj
    cases j with
    | zero => omega
    | succ j =>
      have hj1 : j < ys.length := by simpa using hj
      cases i with
      | zero =>
        have h1 : (((y :: ys).set (j + 1) ((y :: ys).getD 0 d)).set 0 ((y :: ys).getD (j + 1) d))
            = (ys.getD j d :: ys.set j y) := by
          simp [List.getD_cons_succ]
        rw [h1]
        exact perm_getD_cons_set d y ys j hj1
      | succ i =>
        have h1 : (((y :: ys).set (j + 1) ((y :: ys).getD (i + 1) d)).set (i + 1)
              ((y :: ys).getD (j + 1) d))
            = y :: ((ys.set j (ys.getD i d)).set i (ys.getD j d)) := by
          simp [List.getD_cons_succ]
        rw [h1]
        exact (ih i j (by omega) hj1).cons y

theorem scanLeft_spec (es : List FilesystemEntry) (pivot : FilesystemEntry) :
    ∀ (fuel : Nat) (l k : Int), -1 ≤ l → l < k → k < es.length →
      pivot.filenameHash ≤ hashAt es k → (k - l).toNat ≤ fuel →
      ∃ l1, scanLeft es pivot fuel l = .ok l1 ∧ l < l1 ∧ l1 ≤ k
        ∧ (∀ i, l < i → i < l1 → hashAt es i < pivot.filenameHash)
        ∧ pivot.filenameHash ≤ hashAt es l1 := by
  intro fuel
  induction fuel with
  | zero => intro l k _ h1 _ _ h2; omega
  | succ fuel ih =>
    intro l k hl hlk hk hpk hfuel
    rw [scanLeft, readAt_eq es (l + 1) (by omega) (by omega)]
    simp only
    by_cases hlt : (entAt es (l + 1)).filenameHash < pivot.filenameHash
    · simp only [hlt, if_true]
      have hne : l + 1 ≠ k := by
        intro e
        rw [e] at hlt
        exact absurd hpk (Nat.not_le.mpr hlt)
      obtain ⟨l1, h1, h2, h3, h4, h5⟩ := ih (l + 1) k (by omega) (by omega) hk hpk (by omega)
      refine ⟨l1, h1, by omega, h3, ?_, h5⟩
      intro i hi1 hi2
      by_cases hil : i = l + 1
      · rw [hil]; exact hlt
      · exact h4 i (by omega) hi2
    · simp only [hlt, if_false]
      refine ⟨l + 1, rfl, by omega, by omega, ?_, Nat.le_of_not_lt hlt⟩
      intro i hi1 hi2
      omega

theorem scanRight_spec (es : List FilesystemEntry) (pivot : FilesystemEntry) :
    ∀ (fuel : Nat) (r k : Int), 0 ≤ k → k < r → r ≤ es.length →
      hashAt es k ≤ pivot.filenameHash → (r - k).toNat ≤ fuel →
      ∃ r1, scanRight es pivot fuel r = .ok r1 ∧ r1 < r ∧ k ≤ r1
        ∧ (∀ i, r1 < i → i < r → pivot.filenameHash < hashAt es i)
        ∧ hashAt es r1 ≤ pivot.filenameHash := by
  intro fuel
  induction fuel with
  | zero => intro r k _ h1 _ _ h2; omega
  | succ fuel ih =>
    intro r k hk hkr hr hpk hfuel
    rw [scanRight, readAt_eq es (r - 1) (by omega) (by omega)]
    simp only
    by_cases hgt : (entAt es (r - 1)).filenameHash > pivot.filenameHash
    · simp only [hgt, if_true]
      have hne : r - 1 ≠ k := by
        intro e
        rw [e] at hgt
        exact absurd hpk (Nat.not_le.mpr hgt)
      obtain ⟨r1, h1, h2, h3, h4, h5⟩ := ih (r - 1) k hk (by omega) (by omega) hpk (by omega)
      refine ⟨r1, h1, by omega, h3, ?_, h5⟩
      intro i hi1 hi2
      by_cases hir : i = r - 1
      · rw [hir]; exact hgt
      · exact h4 i hi1 (by omega)
    · simp only [hgt, if_false]
      refine ⟨r - 1, rfl, by omega, by omega, ?_, Nat.le_of_not_lt hgt⟩
      intro i hi1 hi2
      omega

/-- The loop of the partition: from a state that satisfies the invariant of
Hoare's scheme it returns a split index `p` with `left ≤ p < right`, the
elements up to `p` at most the pivot and those after `p` at least the pivot. -/
theorem partitionLoop_spec (pivot : FilesystemEntry) (left right : Int) (hleft : 0 ≤ left) :
    ∀ (fuel : Nat) (es : List FilesystemEntry) (l r : Int),
      right < es.length → left - 1 ≤ l → r ≤ right + 1 →
      (∀ i, left ≤ i → i ≤ l → hashAt es i ≤ pivot.filenameHash) →
      (∀ i, r ≤ i → i ≤ right → pivot.filenameHash ≤ hashAt es i) →
      (∃ k, l < k ∧ k ≤ right ∧ pivot.filenameHash ≤ hashAt es k ∧ (r ≤ right ∨ k < right)) →
      (∃ k, left ≤ k ∧ k < r ∧ hashAt es k ≤ pivot.filenameHash) →
      (r - l).toNat + (right - left + 2).toNat ≤ fuel →
      ∃ es1 p, partitionLoop pivot fuel es l r = .ok (es1, p)
        ∧ left ≤ p ∧ p < right ∧ RearrangedOn es es1 left right
        ∧ (∀ i, left ≤ i → i ≤ p → hashAt es1 i ≤ pivot.filenameHash)
        ∧ (∀ i, p < i → i ≤ right → pivot.filenameHash ≤ hashAt es1 i) := by
  intro fuel
  induction fuel with
  | zero => intro es l r _ _ _ _ _ _ _ h; omega
  | succ fuel ih =>
    intro es l r hright hl hr hB hC hD hE hfuel
    obtain ⟨kd, hd1, hd2, hd3, hd4⟩ := hD
    obtain ⟨ke, he1, he2, he3⟩ := hE
    obtain ⟨l1, hsl, hl1, hl2, hl3, hl4⟩ :=
      scanLeft_spec es pivot fuel l kd (by omega) hd1 (by omega) hd3 (by omega)
    obtain ⟨r1, hsr, hr1, hr2, hr3, hr4⟩ :=
      scanRight_spec es pivot fuel r ke (by omega) he2 (by omega) he3 (by omega)
    rw [partitionLoop, hsl]
    simp only [hsr]
    by_cases hge : l1 ≥ r1
    · simp only [hge, if_true]
      refine ⟨es, r1, rfl, by omega, by omega,
        ⟨rfl, fun _ _ _ => rfl, fun _ h => h, List.Perm.refl _⟩, ?_, ?_⟩
      · intro i hi1 hi2
        by_cases hil : i ≤ l
        · exact hB i hi1 hil
        · by_cases hi3 : i < l1
          · exact Nat.le_of_lt (hl3 i (by omega) hi3)
          · have : i = r1 := by omega
            rw [this]; exact hr4
      · intro i hi1 hi2
        by_cases hir : r ≤ i
        · exact hC i hir hi2
        · exact Nat.le_of_lt (hr3 i hi1 (by omega))
    · simp only [hge, if_false]
      have hlr : l1 < r1 := by omega
      rw [readAt_eq es r1 (by omega) (by omega), readAt_eq es l1 (by omega) (by omega)]
      simp only
      have hsw : ∀ i : Int, 0 ≤ i →
          entAt ((es.set r1.toNat (entAt es l1)).set l1.toNat (entAt es r1)) i
            = if i = l1 then entAt es r1 else if i = r1 then entAt es l1 else entAt es i :=
        fun i hi => entAt_swap es l1 r1 i (by omega) (by omega) hi (by omega) (by omega)
          (by omega)
      have hsh : ∀ i : Int, 0 ≤ i →
          hashAt ((es.set r1.toNat (entAt es l1)).set l1.toNat (entAt es r1)) i
            = if i = l1 then hashAt es r1 else if i = r1 then hashAt es l1 else hashAt es i := by
        intro i hi
        unfold hashAt
        rw [hsw i hi]
        split_ifs <;> rfl
      obtain ⟨es1, p, hp, hp1, hp2, ⟨hlen, hout, hpres, hperm⟩, hp3, hp4⟩ :=
        ih ((es.set r1.toNat (entAt es l1)).set l1.toNat (entAt es r1)) l1 r1
          (by rw [List.length_set, List.length_set]; exact hright) (by omega) (by omega)
          (by
            intro i hi1 hi2
            rw [hsh i (by omega)]
            by_cases h1 : i = l1
            · rw [if_pos h1]; exact hr4
            · have h2 : ¬ i = r1 := by omega
              rw [if_neg h1, if_neg h2]
              by_cases hil : i ≤ l
              · exact hB i hi1 hil
              · exact Nat.le_of_lt (hl3 i (by omega) (by omega)))
          (by
            intro i hi1 hi2
            rw [hsh i (by omega)]
            have h1 : ¬ i = l1 := by omega
            by_cases h2 : i = r1
            · rw [if_neg h1, if_pos h2]; exact hl4
            · rw [if_neg h1, if_neg h2]
              by_cases hir : r ≤ i
              · exact hC i hir hi2
              · exact Nat.le_of_lt (hr3 i (by omega) (by omega)))
          ⟨r1, hlr, by omega, by
            rw [hsh r1 (by omega)]
            have h1 : ¬ r1 = l1 := by omega
            rw [if_neg h1, if_pos rfl]; exact hl4, Or.inl (by omega)⟩
          ⟨l1, by omega, hlr, by
            rw [hsh l1 (by omega), if_pos rfl]; exact hr4⟩
          (by omega)
      refine ⟨es1, p, hp, hp1, hp2, ⟨?_, ?_, ?_, ?_⟩, hp3, hp4⟩
      · rw [hlen, List.length_set, List.length_set]
      · intro i hi hio
        rw [hout i hi hio, hsw i hi]
        have h1 : ¬ i = l1 := by omega
        have h2 : ¬ i = r1 := by omega
        rw [if_neg h1, if_neg h2]
      · intro P hP
        apply hpres P
        intro i hi1 hi2
        rw [hsw i (by omega)]
        by_cases h1 : i = l1
        · rw [if_pos h1]; exact hP r1 (by omega) (by omega)
        · by_cases h2 : i = r1
          · rw [if_neg h1, if_pos h2]; exact hP l1 (by omega) (by omega)
          · rw [if_neg h1, if_neg h2]; exact hP i hi1 hi2
      · exact hperm.trans
          (perm_swap_set ⟨0, 0, 0⟩ es l1.toNat r1.toNat (by omega) (by omega))

theorem RearrangedOn.refl (es : List FilesystemEntry) (left right : Int) :
    RearrangedOn es es left right :=
  ⟨rfl, fun _ _ _ => rfl, fun _ h => h, List.Perm.refl _⟩

/-- A rearrangement inside a part of a range is one of the range, and two in a row compose. -/
theorem RearrangedOn.trans_sub {es es1 es2 : List FilesystemEntry} {left right a b c d : Int}
    (hl : 0 ≤ left) (h1 : RearrangedOn es es1 a b) (h2 : RearrangedOn es1 es2 c d)
    (ha : left ≤ a) (hb : b ≤ right) (hc : left ≤ c) (hd : d ≤ right) :
    RearrangedOn es es2 left right := by
  obtain ⟨l1, o1, p1, q1⟩ := h1
  obtain ⟨l2, o2, p2, q2⟩ := h2
  have w1 : ∀ P : FilesystemEntry → Prop,
      (∀ i : Int, left ≤ i → i ≤ right → P (entAt es i)) →
      ∀ i : Int, left ≤ i → i ≤ right → P (entAt es1 i) := by
    intro P hP i hi1 hi2
    by_cases hin : a ≤ i ∧ i ≤ b
    · exact p1 P (fun j hj1 hj2 => hP j (by omega) (by omega)) i hin.1 hin.2
    · rw [o1 i (by omega) (by omega)]
      exact hP i hi1 hi2
  refine ⟨by rw [l2, l1], ?_, ?_, q2.trans q1⟩
  · intro i hi hio
    rw [o2 i hi (by omega), o1 i hi (by omega)]
  · intro P hP i hi1 hi2
    by_cases hin : c ≤ i ∧ i ≤ d
    · exact p2 P (fun j hj1 hj2 => w1 P hP j (by omega) (by omega)) i hin.1 hin.2
    · rw [o2 i (by omega) (by omega)]
      exact w1 P hP i hi1 hi2

/-- With fuel for the length of the range, `quickSort` returns, and the range
is then sorted by hash and holds the elements it held before. -/
theorem quickSort_spec :
    ∀ (fuel : Nat) (es : List FilesystemEntry) (left right : Int),
      0 ≤ left → right < es.length → 2 * (right - left + 1).toNat + 4 ≤ fuel →
      ∃ es1, quickSort fuel es left right = .ok es1
        ∧ RearrangedOn es es1 left right ∧ SortedOn es1 left right := by
  intro fuel
  induction fuel with
  | zero => intro es left right _ _ h; omega
  | succ fuel ih =>
    intro es left right hleft hright hfuel
    rw [quickSort]
    by_cases hle : right ≤ left
    · simp only [hle, if_true]
      refine ⟨es, rfl, RearrangedOn.refl es left right, ?_⟩
      intro i j h1 h2 h3
      have : i = j := by omega
      rw [this]
    · simp only [hle, if_false]
      have hdiv : (right - left).tdiv 2 = (right - left) / 2 :=
        Int.tdiv_eq_ediv (by omega) (by omega)
      rw [hdiv]
      have hp0 : left ≤ left + (right - left) / 2 := by omega
      have hp1 : left + (right - left) / 2 < right := by omega
      rw [readAt_eq es _ (by omega) (by omega)]
      simp only
      obtain ⟨es1, p, hpart, hpl, hpr, hre1, hlow, hhigh⟩ :=
        partitionLoop_spec (entAt es (left + (right - left) / 2)) left right hleft fuel es
          (left - 1) (right + 1) hright (by omega) (by omega)
          (by intro i h1 h2; omega) (by intro i h1 h2; omega)
          ⟨left + (right - left) / 2, by omega, by omega, Nat.le_refl _, Or.inr hp1⟩
          ⟨left + (right - left) / 2, hp0, by omega, Nat.le_refl _⟩ (by omega)
      rw [hpart]
      simp only
      have hlen1 : es1.length = es.length := hre1.1
      obtain ⟨es2, hq2, hre2, hs2⟩ := ih es1 left p hleft (by omega) (by omega)
      rw [hq2]
      simp only
      have hlen2 : es2.length = es1.length := hre2.1
      obtain ⟨es3, hq3, hre3, hs3⟩ := ih es2 (p + 1) right (by omega) (by omega) (by omega)
      refine ⟨es3, hq3, ?_, ?_⟩
      · exact RearrangedOn.trans_sub hleft
          (RearrangedOn.trans_sub hleft hre1 hre2 (le_refl _) (le_refl _) (le_refl _)
            (by omega))
          hre3 (le_refl _) (le_refl _) (by omega) (le_refl _)
      · -- the two sorted halves, separated by the pivot
        have hlow2 : ∀ i, left ≤ i → i ≤ p →
            hashAt es2 i ≤ (entAt es (left + (right - left) / 2)).filenameHash :=
          hre2.2.2.1 (fun e => e.filenameHash ≤ (entAt es (left + (right - left) / 2)).filenameHash)
            hlow
        have hhigh2 : ∀ i, p + 1 ≤ i → i ≤ right →
            (entAt es (left + (right - left) / 2)).filenameHash ≤ hashAt es2 i := by
          intro i h1 h2
          unfold hashAt
          rw [hre2.2.1 i (by omega) (Or.inr (by omega))]
          exact hhigh i (by omega) h2
        have hlow3 : ∀ i, left ≤ i → i ≤ p → hashAt es3 i = hashAt es2 i := by
          intro i h1 h2
          unfold hashAt
          rw [hre3.2.1 i (by omega) (Or.inl (by omega))]
        have hhigh3 : ∀ i, p + 1 ≤ i → i ≤ right →
            (entAt es (left + (right - left) / 2)).filenameHash ≤ hashAt es3 i :=
          hre3.2.2.1 (fun e => (entAt es (left + (right - left) / 2)).filenameHash ≤ e.filenameHash)
            hhigh2
        intro i j h1 h2 h3
        by_cases hj : j ≤ p
        · rw [hlow3 i h1 (by omega), hlow3 j (by omega) hj]
          exact hs2 i j h1 h2 hj
        · by_cases hi : i ≤ p
          · rw [hlow3 i h1 hi]
            exact Nat.le_trans (hlow2 i h1 hi) (hhigh3 j (by omega) h3)
          · exact hs3 i j (by omega) h2 h3

/-! ### More fuel changes no result -/

theorem scanLeft_mono (es : List FilesystemEntry) (pivot : FilesystemEntry) :
    ∀ (fuel fuel1 : Nat) (l x : Int), fuel ≤ fuel1 →
      scanLeft es pivot fuel l = .ok x → scanLeft es pivot fuel1 l = .ok x := by
  intro fuel
  induction fuel with
  | zero => intro fuel1 l x _ h; simp [scanLeft] at h
  | succ fuel ih =>
    intro fuel1 l x hle h
    obtain ⟨g, rfl⟩ : ∃ g, fuel1 = g + 1 := ⟨fuel1 - 1, by omega⟩
    rw [scanLeft] at h ⊢
    cases hr : readAt es (l + 1) with
    | none => rw [hr] at h; simp at h
    | some e =>
      rw [hr] at h
      simp only at h ⊢
      by_cases hlt : e.filenameHash < pivot.filenameHash
      · rw [if_pos hlt] at h ⊢
        exact ih g _ _ (by omega) h
      · rw [if_neg hlt] at h ⊢
        exact h

theorem scanRight_mono (es : List FilesystemEntry) (pivot : FilesystemEntry) :
    ∀ (fuel fuel1 : Nat) (r x : Int), fuel ≤ fuel1 →
      scanRight es pivot fuel r = .ok x → scanRight es pivot fuel1 r = .ok x := by
  intro fuel
  induction fuel with
  | zero => intro fuel1 r x _ h; simp [scanRight] at h
  | succ fuel ih =>
    intro fuel1 r x hle h
    obtain ⟨g, rfl⟩ : ∃ g, fuel1 = g + 1 := ⟨fuel1 - 1, by omega⟩
    rw [scanRight] at h ⊢
    cases hr : readAt es (r - 1) with
    | none => rw [hr] at h; simp at h
    | some e =>
      rw [hr] at h
      simp only at h ⊢
      by_cases hgt : e.filenameHash > pivot.filenameHash
      · rw [if_pos hgt] at h ⊢
        exact ih g _ _ (by omega) h
      · rw [if_neg hgt] at h ⊢
        exact h

theorem partitionLoop_mono (pivot : FilesystemEntry) :
    ∀ (fuel fuel1 : Nat) (es : List FilesystemEntry) (l r : Int)
      (x : List FilesystemEntry × Int), fuel ≤ fuel1 →
      partitionLoop pivot fuel es l r = .ok x → partitionLoop pivot fuel1 es l r = .ok x := by
  intro fuel
  induction fuel with
  | zero => intro fuel1 es l r x _ h; simp [partitionLoop] at h
  | succ fuel ih =>
    intro fuel1 es l r x hle h
    obtain ⟨g, rfl⟩ : ∃ g, fuel1 = g + 1 := ⟨fuel1 - 1, by omega⟩
    rw [partitionLoop] at h ⊢
    cases hsl : scanLeft es pivot fuel l with
    | fail f s => rw [hsl] at h; simp at h
    | ok l1 =>
      rw [hsl] at h
      rw [scanLeft_mono es pivot fuel g l l1 (by omega) hsl]
      simp only at h ⊢
      cases hsr : scanRight es pivot fuel r with
      | fail f s => rw [hsr] at h; simp at h
      | ok r1 =>
        rw [hsr] at h
        rw [scanRight_mono es pivot fuel g r r1 (by omega) hsr]
        simp only at h ⊢
        by_cases hge : l1 ≥ r1
        · rw [if_pos hge] at h ⊢
          exact h
        · rw [if_neg hge] at h ⊢
          cases hr1 : readAt es r1 with
          | none => rw [hr1] at h; simp at h
          | some tmp =>
            cases hl1 : readAt es l1 with
            | none => rw [hr1, hl1] at h; simp at h
            | some el =>
              rw [hr1, hl1] at h
              simp only at h ⊢
              exact ih g _ _ _ _ (by omega) h

theorem quickSort_mono :
    ∀ (fuel fuel1 : Nat) (es : List FilesystemEntry) (left right : Int)
      (x : List FilesystemEntry), fuel ≤ fuel1 →
      quickSort fuel es left right = .ok x → quickSort fuel1 es left right = .ok x := by
  intro fuel
  induction fuel with
  | zero => intro fuel1 es l r x _ h; simp [quickSort] at h
  | succ fuel ih =>
    intro fuel1 es left right x hle h
    obtain ⟨g, rfl⟩ : ∃ g, fuel1 = g + 1 := ⟨fuel1 - 1, by omega⟩
    rw [quickSort] at h ⊢
    by_cases hrl : right ≤ left
    · rw [if_pos hrl] at h ⊢
      exact h
    · rw [if_neg hrl] at h ⊢
      simp only at h ⊢
      cases hp : readAt es (left + (right - left).tdiv 2) with
      | none => rw [hp] at h; simp at h
      | some pivot =>
        rw [hp] at h
        simp only at h ⊢
        cases hpl : partitionLoop pivot fuel es (left - 1) (right + 1) with
        | fail f s => rw [hpl] at h; simp at h
        | ok y =>
          obtain ⟨es1, p⟩ := y
          rw [hpl] at h
          rw [partitionLoop_mono pivot fuel g es _ _ _ (by omega) hpl]
          simp only at h ⊢
          cases hq : quickSort fuel es1 left p with
          | fail f s => rw [hq] at h; simp at h
          | ok es2 =>
            rw [hq] at h
            rw [ih g es1 left p es2 (by omega) hq]
            simp only at h ⊢
            exact ih g _ _ _ _ (by omega) h

/-- Whenever `quickSort` returns on a range inside the array, the range is
sorted by hash and holds the elements it held before. -/
theorem quickSort_partial (fuel : Nat) (es es1 : List FilesystemEntry) (left right : Int)
    (hleft : 0 ≤ left) (hright : right < es.length)
    (h : quickSort fuel es left right = .ok es1) :
    RearrangedOn es es1 left right ∧ SortedOn es1 left right := by
  obtain ⟨es2, h2, hre, hso⟩ :=
    quickSort_spec (max fuel (2 * (right - left + 1).toNat + 4)) es left right hleft hright
      (le_max_right _ _)
  have h3 := quickSort_mono fuel (max fuel (2 * (right - left + 1).toNat + 4)) es left right es1
    (le_max_left _ _) h
  rw [h2] at h3
  cases h3
  exact ⟨hre, hso⟩


/-! ## The walkers as runs over the walk -/

theorem runEvents_append {σ : Type} (step : σ → Event → Outcome σ σ) :
    ∀ (a b : List Event) (st : σ),
      runEvents step st (a ++ b)
        = match runEvents step st a with
          | .ok s => runEvents step s b
          | .fail f s => .fail f s := by
  intro a
  induction a with
  | nil => intro b st; rfl
  | cons e es ih =>
    intro b st
    simp only [List.cons_append, runEvents]
    cases step st e with
    | ok s => exact ih b s
    | fail f s => rfl

theorem runTrace_andThen {σ : Type} (step : σ → Event → Outcome σ σ) (st : σ) (t k : Trace) :
    runTrace step st (t.andThen k)
      = match runTrace step st t with
        | .ok s => runTrace step s k
        | .fail f s => .fail f s := by
  obtain ⟨es, status⟩ := t
  cases status with
  | none =>
    simp only [Trace.andThen, runTrace, runEvents_append]
    cases runEvents step st es with
    | ok s => rfl
    | fail f s => rfl
  | some f =>
    simp only [Trace.andThen, runTrace]
    cases runEvents step st es with
    | ok s => rfl
    | fail f s => rfl

theorem runTrace_nil {σ : Type} (step : σ → Event → Outcome σ σ) (st : σ) :
    runTrace step st ([], none) = .ok st := rfl

theorem runTrace_fault {σ : Type} (step : σ → Event → Outcome σ σ) (st : σ) (f : Fault) :
    runTrace step st ([], some f) = .fail f st := rfl

/-- The `for` loop over the sectors runs over the trace of the loop when its
body runs over the trace of the body. -/
theorem forLevels_eq {σ : Type} (step : σ → Event → Outcome σ σ) (n : Nat)
    (body : Nat → σ → Outcome σ σ) (tbody : Nat → Trace)
    (h : ∀ lvl s, body lvl s = runTrace step s (tbody lvl)) (st : σ) :
    forLevels n body st = runTrace step st (walkLevels n tbody) := by
  unfold forLevels walkLevels
  have key : ∀ (l : List Nat) (acc : Outcome σ σ) (tacc : Trace),
      acc = runTrace step st tacc →
      l.foldl (fun acc level => match acc with
          | .ok s => body level s
          | .fail f s => .fail f s) acc
        = runTrace step st (l.foldl (fun acc level => acc.andThen (tbody level)) tacc) := by
    intro l
    induction l with
    | nil => intro acc tacc hacc; exact hacc
    | cons x xs ih =>
      intro acc tacc hacc
      simp only [List.foldl_cons]
      apply ih
      rw [runTrace_andThen, ← hacc]
      cases acc with
      | ok s => exact h x s
      | fail f s => rfl
  exact key (List.range n) (.ok st) ([], none) rfl

theorem navigateDirectoryEntry_eq {σ : Type} (f : RecordFunction σ)
    (loop : DirectoryRecord → Int → NavState σ → Outcome (NavState σ) (NavState σ))
    (tloop : DirectoryRecord → Int → Trace)
    (h : ∀ r l s, loop r l s = runTrace (navStep f) s (tloop r l))
    (record : DirectoryRecord) (level : Int) (c : Bool) (st : NavState σ) :
    navigateDirectoryEntry loop record level c st
      = runTrace (navStep f) st (walkEntry tloop record level c) := by
  unfold navigateDirectoryEntry walkEntry
  cases record.length with
  | none => rfl
  | some len =>
    simp only
    by_cases h0 : len = 0
    · simp only [h0, if_true]; rfl
    · simp only [h0, if_false]
      cases c with
      | true => simp only [if_true]; exact h _ _ _
      | false =>
        simp only [Bool.false_eq_true, if_false]
        cases (record.nextDir len).length with
        | none => rfl
        | some len1 =>
          simp only
          by_cases h1 : len1 = 0
          · simp only [h1, if_true]; rfl
          · simp only [h1, if_false]; exact h _ _ _

/-- The walker `navigateDirectory` applies its visitor to the visits of the walk, in
order, and makes the reads of the walk. -/
theorem navigateDirectoryLoop_eq {σ : Type} (dev : CdDevice) (f : RecordFunction σ) :
    ∀ (fuel : Nat) (dir : DirectoryRecord) (level : Int) (path : List (List Nat))
      (st : NavState σ),
      navigateDirectoryLoop dev f fuel dir level st
        = runTrace (navStep f) st (walkLoop dev fuel dir level path) := by
  intro fuel
  induction fuel with
  | zero => intro dir level path st; rfl
  | succ fuel ih =>
    intro dir level path st
    rw [navigateDirectoryLoop, walkLoop]
    cases dir.length with
    | none => rfl
    | some len =>
      simp only
      by_cases h0 : len = 0
      · simp only [h0, if_true]; rfl
      · simp only [h0, if_false]
        rw [runTrace_andThen]
        have hv : runTrace (navStep f) st ([Event.visit dir level path], none)
            = .ok { st with user := f dir level st.user } := rfl
        rw [hv]
        simp only
        cases dir.flags with
        | none => rfl
        | some flags =>
          simp only
          rw [runTrace_andThen]
          have hvis : (if DirectoryRecord.isDirectoryFlag flags = true then
                forLevels (extraLevels dir.extentLength)
                  (fun level st =>
                    if (dev.cd_block_read_data
                        ((dev.LBA2FAD dir.extentLocation + level) % U32)).1 ≠ 0 then
                      Outcome.fail Fault.assertion
                        { st with reads := st.reads
                            ++ [(dev.LBA2FAD dir.extentLocation + level) % U32] }
                    else
                      navigateDirectoryEntry (navigateDirectoryLoop dev f fuel)
                        ⟨(dev.cd_block_read_data
                            ((dev.LBA2FAD dir.extentLocation + level) % U32)).2, 0⟩
                        ((level : Int) + 1) (decide (level > 0))
                        { st with reads := st.reads
                            ++ [(dev.LBA2FAD dir.extentLocation + level) % U32] })
                  { st with user := f dir level st.user }
              else Outcome.ok { st with user := f dir level st.user })
              = runTrace (navStep f) { st with user := f dir level st.user }
                  (if DirectoryRecord.isDirectoryFlag flags = true then
                    walkLevels (extraLevels dir.extentLength)
                      (fun lvl =>
                        Trace.andThen
                          ([Event.read ((dev.LBA2FAD dir.extentLocation + lvl) % U32)],
                            if (dev.cd_block_read_data
                                ((dev.LBA2FAD dir.extentLocation + lvl) % U32)).1 ≠ 0 then
                              some Fault.assertion
                            else none)
                          (walkEntry (fun r l => walkLoop dev fuel r l (path ++ [dir.name]))
                            ⟨(dev.cd_block_read_data
                                ((dev.LBA2FAD dir.extentLocation + lvl) % U32)).2, 0⟩
                            ((lvl : Int) + 1) (decide (lvl > 0))))
                  else ([], none)) := by
            by_cases hd : DirectoryRecord.isDirectoryFlag flags = true
            · simp only [hd, if_true]
              apply forLevels_eq
              intro lvl s
              rw [runTrace_andThen]
              by_cases hs : (dev.cd_block_read_data
                  ((dev.LBA2FAD dir.extentLocation + lvl) % U32)).1 ≠ 0
              · rw [if_pos hs, if_pos hs]; rfl
              · rw [if_neg hs, if_neg hs]
                exact navigateDirectoryEntry_eq f _ _
                  (fun r l s => ih r l (path ++ [dir.name]) s) _ _ _ _
            · simp only [hd, if_false]; rfl
          rw [← hvis]
          split
          · rename_i heq; rw [heq]
          · rename_i heq; rw [heq]; exact ih _ _ _ _

theorem runTrace_single {σ : Type} (step : σ → Event → Outcome σ σ) (st : σ) (e : Event) :
    runTrace step st ([e], none) = step st e := by
  simp only [runTrace, runEvents]
  cases step st e with
  | ok s => rfl
  | fail f s => rfl

theorem fillHeaderTableEntryEntry_eq
    (loop : DirectoryRecord → FillState → Outcome FillState FillState)
    (tloop : DirectoryRecord → Int → Trace) (level : Int)
    (h : ∀ r s, loop r s = runTrace fillStep s (tloop r level))
    (record : DirectoryRecord) (c : Bool) (st : FillState) :
    fillHeaderTableEntryEntry loop record c st
      = runTrace fillStep st (walkEntry tloop record level c) := by
  unfold fillHeaderTableEntryEntry walkEntry
  cases record.length with
  | none => rfl
  | some len =>
    simp only
    by_cases h0 : len = 0
    · simp only [h0, if_true]; rfl
    · simp only [h0, if_false]
      cases c with
      | true => simp only [if_true]; exact h _ _
      | false =>
        simp only [Bool.false_eq_true, if_false]
        cases (record.nextDir len).length with
        | none => rfl
        | some len1 =>
          simp only
          by_cases h1 : len1 = 0
          · simp only [h1, if_true]; rfl
          · simp only [h1, if_false]; exact h _ _

theorem DirectoryRecord.identifier_eq_name (dir : DirectoryRecord) (il : Nat) (name : List Nat)
    (h1 : dir.identifierLength = some il) (h2 : dir.identifier il = some name) :
    name = dir.name := by
  unfold DirectoryRecord.identifierLength Buffer.byte at h1
  unfold DirectoryRecord.identifier at h2
  unfold DirectoryRecord.name
  split at h1
  · split at h2
    · simp only [Option.some.injEq] at h1 h2
      rw [h1, ← h2]
    · exact absurd h2 (by simp)
  · exact absurd h1 (by simp)

theorem seedOf_snoc (path : List (List Nat)) (d : List Nat) :
    seedOf (path ++ [d])
      = hashStep HASH_PRIME
          (generateHash (d.map charOfByte) (seedOf path).1 (seedOf path).2 HASH_PRIME) 47 := by
  simp [seedOf, List.foldl_append]

/-- The sector loop of `fillHeaderTableEntry` below a directory runs over the
trace of that loop. -/
theorem fillLevels_eq (dev : CdDevice) (fuel : Nat) (dir : DirectoryRecord)
    (path : List (List Nat)) (hash lastPrime : Nat)
    (hseed : seedOf (path ++ [dir.name]) = (hash, lastPrime))
    (ih : ∀ (r : DirectoryRecord) (l : Int) (p : List (List Nat)) (s : FillState),
      fillHeaderTableEntryLoop dev fuel r (seedOf p).1 (seedOf p).2 s
        = runTrace fillStep s (walkLoop dev fuel r l p))
    (st : FillState) :
    forLevels (extraLevels dir.extentLength)
        (fun level st =>
          if (dev.cd_block_read_data ((dev.LBA2FAD dir.extentLocation + level) % U32)).1 ≠ 0 then
            Outcome.fail Fault.assertion
              { st with reads := st.reads ++ [(dev.LBA2FAD dir.extentLocation + level) % U32] }
          else
            fillHeaderTableEntryEntry
              (fun r s => fillHeaderTableEntryLoop dev fuel r hash lastPrime s)
              ⟨(dev.cd_block_read_data ((dev.LBA2FAD dir.extentLocation + level) % U32)).2, 0⟩
              (decide (level > 0))
              { st with reads := st.reads ++ [(dev.LBA2FAD dir.extentLocation + level) % U32] })
        st
      = runTrace fillStep st
          (walkLevels (extraLevels dir.extentLength)
            (fun lvl =>
              Trace.andThen
                ([Event.read ((dev.LBA2FAD dir.extentLocation + lvl) % U32)],
                  if (dev.cd_block_read_data
                      ((dev.LBA2FAD dir.extentLocation + lvl) % U32)).1 ≠ 0 then
                    some Fault.assertion
                  else none)
                (walkEntry (fun r l => walkLoop dev fuel r l (path ++ [dir.name]))
                  ⟨(dev.cd_block_read_data ((dev.LBA2FAD dir.extentLocation + lvl) % U32)).2, 0⟩
                  ((lvl : Int) + 1) (decide (lvl > 0))))) := by
  apply forLevels_eq
  intro lvl s
  rw [runTrace_andThen]
  by_cases hs : (dev.cd_block_read_data ((dev.LBA2FAD dir.extentLocation + lvl) % U32)).1 ≠ 0
  · rw [if_pos hs, if_pos hs]; rfl
  · rw [if_neg hs, if_neg hs]
    apply fillHeaderTableEntryEntry_eq _ _ ((lvl : Int) + 1)
    intro r s1
    have := ih r ((lvl : Int) + 1) (path ++ [dir.name]) s1
    rw [hseed] at this
    exact this

/-- The walker `fillHeaderTableEntry` performs `fillStep` at the events of the walk, in order. -/
theorem fillHeaderTableEntryLoop_eq (dev : CdDevice) :
    ∀ (fuel : Nat) (dir : DirectoryRecord) (level : Int) (path : List (List Nat))
      (st : FillState),
      fillHeaderTableEntryLoop dev fuel dir (seedOf path).1 (seedOf path).2 st
        = runTrace fillStep st (walkLoop dev fuel dir level path) := by
  intro fuel
  induction fuel with
  | zero => intro dir level path st; rfl
  | succ fuel ih =>
    intro dir level path st
    rw [fillHeaderTableEntryLoop, walkLoop]
    cases dir.length with
    | none => rfl
    | some len =>
      simp only
      by_cases h0 : len = 0
      · simp only [h0, if_true]; rfl
      · simp only [h0, if_false]
        rw [runTrace_andThen, runTrace_single]
        simp only [fillStep]
        cases hil : dir.identifierLength with
        | none => rfl
        | some il =>
          cases hfl : dir.flags with
          | none => rfl
          | some flags =>
            simp only
            cases hid : dir.identifier
                (if DirectoryRecord.isDirectoryFlag flags = false ∧ il > 2 then il - 2
                  else il) with
            | none => rfl
            | some name =>
              simp only [runTrace_andThen]
              by_cases hd : DirectoryRecord.isDirectoryFlag flags = true
              · have hsz : (if DirectoryRecord.isDirectoryFlag flags = false ∧ il > 2 then il - 2
                    else il) = il := by
                  simp [hd]
                rw [hsz] at hid
                have hname := DirectoryRecord.identifier_eq_name dir il name hil hid
                simp only [hd, if_true]
                rw [fillLevels_eq dev fuel dir path _ _ (by rw [seedOf_snoc, ← hname]; rfl) ih]
                split
                · rename_i heq; rw [heq]
                · rename_i heq; rw [heq]; exact ih _ _ _ _
              · simp only [hd, if_false, Bool.false_eq_true, runTrace_nil]
                split
                · rename_i heq; rw [heq]
                · rename_i heq; rw [heq]; exact ih _ _ _ _


/-! ## The table build over the events of the walk -/

/-- The hash of a record identifier from the hash state of its directory is
the hash of the path string. -/
theorem hash_of_path (path : List (List Nat)) (name : List Nat) :
    (generateHash (name.map charOfByte) (seedOf path).1 (seedOf path).2 HASH_PRIME).1
      = getFilenameHash (fullPath path name) := by
  rw [getFilenameHash, fullPath_split, generateHash_append, ← seedOf_eq]

theorem fillStep_visit (st : FillState) (dir : DirectoryRecord) (l : Int)
    (path : List (List Nat)) :
    fillStep st (.visit dir l path) = .fail .badRead st
    ∨ (Event.isFile (.visit dir l path) = false ∧ fillStep st (.visit dir l path) = .ok st)
    ∨ (Event.isFile (.visit dir l path) = true
        ∧ fillStep st (.visit dir l path)
            = addFileEntry dir (entryOf dir path).filenameHash st) := by
  simp only [fillStep, Event.isFile]
  cases hil : dir.identifierLength with
  | none => exact Or.inl rfl
  | some il =>
    cases hfl : dir.flags with
    | none => exact Or.inl rfl
    | some flags =>
      simp only
      cases hid : dir.identifier
          (if DirectoryRecord.isDirectoryFlag flags = false ∧ il > 2 then il - 2 else il) with
      | none => exact Or.inl rfl
      | some name =>
        simp only
        by_cases hd : DirectoryRecord.isDirectoryFlag flags = true
        · right; left
          simp [hd]
        · right; right
          have hd' : DirectoryRecord.isDirectoryFlag flags = false := by
            simpa using hd
          refine ⟨by simp [hd'], ?_⟩
          rw [if_neg hd]
          have hname : name = dir.fileName := by
            have hil2 : dir.sector.getD (dir.off + 32) 0 = il := by
              unfold DirectoryRecord.identifierLength Buffer.byte at hil
              by_cases hb : dir.off + 32 < dir.sector.size
              · rw [if_pos hb] at hil
                exact Option.some.inj hil
              · rw [if_neg hb] at hil
                cases hil
            have hsz : (if DirectoryRecord.isDirectoryFlag flags = false ∧ il > 2 then il - 2
                else il) = (if il > 2 then il - 2 else il) := by
              simp [hd']
            rw [hsz] at hid
            unfold DirectoryRecord.identifier at hid
            unfold DirectoryRecord.fileName
            rw [hil2]
            by_cases hb : dir.off + 33 + (if il > 2 then il - 2 else il) ≤ dir.sector.size
            · rw [if_pos hb] at hid
              exact (Option.some.inj hid).symm
            · rw [if_neg hb] at hid
              cases hid
          rw [hash_of_path, hname]
          rfl

theorem take_succ_set (es : List FilesystemEntry) (i : Nat) (x : FilesystemEntry)
    (h : i < es.length) : (es.set i x).take (i + 1) = es.take i ++ [x] := by
  apply List.ext_getElem?
  intro n
  by_cases hn : n < i
  · rw [List.getElem?_take_of_lt (by omega), List.getElem?_set,
      List.getElem?_append_left (by rw [List.length_take]; omega),
      List.getElem?_take_of_lt hn]
    simp [Nat.ne_of_gt hn]
  · by_cases hn2 : n = i
    · subst hn2
      rw [List.getElem?_take_of_lt (by omega), List.getElem?_set,
        List.getElem?_append_right (by rw [List.length_take]; omega)]
      simp [h, List.length_take, Nat.min_eq_left (Nat.le_of_lt h)]
    · rw [List.getElem?_eq_none (by rw [List.length_take, List.length_set]; omega),
        List.getElem?_eq_none (by
          rw [List.length_append, List.length_take, List.length_singleton]; omega)]

theorem fileEntries_append (a b : List Event) :
    fileEntries (a ++ b) = fileEntries a ++ fileEntries b := by
  induction a with
  | nil => rfl
  | cons e es ih =>
    cases e with
    | read fad => simpa [fileEntries] using ih
    | visit dir l path =>
      simp only [List.cons_append, fileEntries]
      split
      · exact congrArg (List.cons _) ih
      · exact ih

theorem mem_fileEntries (dir : DirectoryRecord) (l : Int) (path : List (List Nat)) :
    ∀ es : List Event, Event.visit dir l path ∈ es →
      Event.isFile (.visit dir l path) = true → entryOf dir path ∈ fileEntries es := by
  intro es
  induction es with
  | nil => intro h; cases h
  | cons e es ih =>
    intro hmem hfile
    rcases List.mem_cons.mp hmem with h | h
    · subst h
      simp [fileEntries, hfile]
    · have := ih h hfile
      cases e with
      | read fad => simpa [fileEntries] using this
      | visit d2 l2 p2 =>
        simp only [fileEntries]
        split
        · exact List.mem_cons_of_mem _ this
        · exact this

/-- One event of the build, from a state that satisfies the invariant: what
the state and the table hold afterwards, whether the step returns or fails. -/
theorem fillStep_inv (st : FillState) (e : Event) (hinv : FillInv st)
    (hU : st.headerTable.entries.length < U32) :
    (∀ s, fillStep st e = .ok s →
      FillInv s ∧ s.headerTable.entries.length = st.headerTable.entries.length
        ∧ s.entry = st.entry + (fileEntries [e]).length
        ∧ s.headerTable.entries.take s.entry
            = st.headerTable.entries.take st.entry ++ fileEntries [e]
        ∧ ∀ x ∈ fileEntries [e], x.size ≠ 0)
    ∧ (∀ f s, fillStep st e = .fail f s →
      FillInv s ∧ s.headerTable.entries.length = st.headerTable.entries.length
        ∧ f ≠ .fuel
        ∧ (f = .badWrite →
            st.headerTable.entries.length < st.entry + (fileEntries [e]).length)) := by
  obtain ⟨hn, hle, hsz⟩ := hinv
  cases e with
  | read fad =>
    constructor
    · intro s h
      cases h
      exact ⟨⟨hn, hle, hsz⟩, rfl, rfl, by simp [fileEntries], by simp [fileEntries]⟩
    · intro f s h
      cases h
  | visit dir l path =>
    rcases fillStep_visit st dir l path with h | ⟨hf, h⟩ | ⟨hf, h⟩
    · rw [h]
      constructor
      · intro s hs; cases hs
      · intro f s hs
        cases hs
        exact ⟨⟨hn, hle, hsz⟩, rfl, by decide, by intro hc; cases hc⟩
    · rw [h]
      constructor
      · intro s hs
        cases hs
        refine ⟨⟨hn, hle, hsz⟩, rfl, by simp [fileEntries, hf], by simp [fileEntries, hf],
          by simp [fileEntries, hf]⟩
      · intro f s hs; cases hs
    · rw [h]
      have hfe : fileEntries [Event.visit dir l path] = [entryOf dir path] := by
        simp [fileEntries, hf]
      rw [hfe]
      unfold addFileEntry
      by_cases hroom : st.entry < st.headerTable.entries.length
      · rw [if_pos hroom]
        by_cases hz : dir.extentLength = 0
        · simp only [hz, if_true]
          constructor
          · intro s hs; cases hs
          · intro f s hs
            cases hs
            refine ⟨⟨hn, by simpa using hle, ?_⟩, by simp, by decide, by intro hc; cases hc⟩
            intro i hi
            have hi' : i < st.entry := hi
            have hne : st.entry ≠ i := by omega
            simp only [List.getD_eq_getElem?_getD, List.getElem?_set_ne hne]
            simpa [List.getD_eq_getElem?_getD] using hsz i hi'
        · simp only [hz, if_false]
          constructor
          · intro s hs
            cases hs
            refine ⟨⟨?_, ?_, ?_⟩, by simp, by simp, ?_, ?_⟩
            · show (st.headerTable.numEntries + 1) % U32 = st.entry + 1
              rw [hn]
              exact Nat.mod_eq_of_lt (by omega)
            · simpa using hroom
            · intro i hi
              by_cases hi2 : i = st.entry
              · subst hi2
                simp only [List.getD_eq_getElem?_getD, List.getElem?_set_self hroom]
                exact hz
              · have hne : st.entry ≠ i := fun e => hi2 e.symm
                simp only [List.getD_eq_getElem?_getD, List.getElem?_set_ne hne]
                have hi3 : i < st.entry := by
                  have : i < st.entry + 1 := hi
                  omega
                simpa [List.getD_eq_getElem?_getD] using hsz i hi3
            · exact take_succ_set _ _ _ hroom
            · intro x hx
              rw [List.mem_singleton] at hx
              subst hx
              exact hz
          · intro f s hs; cases hs
      · rw [if_neg hroom]
        constructor
        · intro s hs; cases hs
        · intro f s hs
          cases hs
          refine ⟨⟨hn, hle, hsz⟩, rfl, by decide, ?_⟩
          intro _
          simp only [List.length_singleton]
          omega

theorem fileEntries_cons (e : Event) (es : List Event) :
    fileEntries (e :: es) = fileEntries [e] ++ fileEntries es :=
  fileEntries_append [e] es

/-- A run of the build over a list of events, from a state that satisfies the
invariant. -/
theorem runEvents_fill :
    ∀ (es : List Event) (st : FillState), FillInv st →
      st.headerTable.entries.length < U32 →
      (∀ s, runEvents fillStep st es = .ok s →
        FillInv s ∧ s.headerTable.entries.length = st.headerTable.entries.length
          ∧ s.entry = st.entry + (fileEntries es).length
          ∧ s.headerTable.entries.take s.entry
              = st.headerTable.entries.take st.entry ++ fileEntries es
          ∧ ∀ x ∈ fileEntries es, x.size ≠ 0)
      ∧ (∀ f s, runEvents fillStep st es = .fail f s →
        FillInv s ∧ s.headerTable.entries.length = st.headerTable.entries.length
          ∧ f ≠ .fuel
          ∧ (f = .badWrite →
              st.headerTable.entries.length < st.entry + (fileEntries es).length)) := by
  intro es
  induction es with
  | nil =>
    intro st hinv hU
    constructor
    · intro s h
      cases h
      exact ⟨hinv, rfl, by simp [fileEntries], by simp [fileEntries], by simp [fileEntries]⟩
    · intro f s h; cases h
  | cons e es ih =>
    intro st hinv hU
    obtain ⟨hok, hfail⟩ := fillStep_inv st e hinv hU
    rw [fileEntries_cons]
    simp only [runEvents]
    cases hstep : fillStep st e with
    | ok s1 =>
      obtain ⟨hinv1, hlen1, hent1, htake1, hsz1⟩ := hok s1 hstep
      obtain ⟨hok2, hfail2⟩ := ih s1 hinv1 (by rw [hlen1]; exact hU)
      simp only
      constructor
      · intro s h
        obtain ⟨hinv2, hlen2, hent2, htake2, hsz2⟩ := hok2 s h
        refine ⟨hinv2, by rw [hlen2, hlen1], ?_, ?_, ?_⟩
        · rw [hent2, hent1, List.length_append]; omega
        · rw [htake2, htake1, List.append_assoc]
        · intro x hx
          rcases List.mem_append.mp hx with hx | hx
          · exact hsz1 x hx
          · exact hsz2 x hx
      · intro f s h
        obtain ⟨hinv2, hlen2, hfu, hbw⟩ := hfail2 f s h
        refine ⟨hinv2, by rw [hlen2, hlen1], hfu, ?_⟩
        intro hf
        have := hbw hf
        rw [hlen1, hent1] at this
        rw [List.length_append]
        omega
    | fail f1 s1 =>
      simp only
      constructor
      · intro s h; cases h
      · intro f s h
        cases h
        obtain ⟨hinv1, hlen1, hfu, hbw⟩ := hfail f1 s1 hstep
        refine ⟨hinv1, hlen1, hfu, ?_⟩
        intro hf
        have := hbw hf
        rw [List.length_append]
        omega

theorem runTrace_ok {σ : Type} (step : σ → Event → Outcome σ σ) (st s : σ) (t : Trace)
    (h : runTrace step st t = .ok s) : t.2 = none ∧ runEvents step st t.1 = .ok s := by
  unfold runTrace at h
  cases hr : runEvents step st t.1 with
  | fail f s1 => rw [hr] at h; cases h
  | ok s1 =>
    rw [hr] at h
    cases ht : t.2 with
    | none => rw [ht] at h; exact ⟨rfl, h⟩
    | some f => rw [ht] at h; cases h

theorem runTrace_fail {σ : Type} (step : σ → Event → Outcome σ σ) (st s : σ) (t : Trace)
    (f : Fault) (h : runTrace step st t = .fail f s) :
    runEvents step st t.1 = .fail f s ∨ (runEvents step st t.1 = .ok s ∧ t.2 = some f) := by
  unfold runTrace at h
  cases hr : runEvents step st t.1 with
  | fail f1 s1 => rw [hr] at h; exact Or.inl h
  | ok s1 =>
    rw [hr] at h
    cases ht : t.2 with
    | none => rw [ht] at h; cases h
    | some f1 =>
      rw [ht] at h
      cases h
      exact Or.inr ⟨rfl, rfl⟩

/-- The call of `fillHeaderTableEntry` in `fillHeaderTable` runs over the walk
of the volume. -/
theorem fillHeaderTableEntry_eq_walk (dev : CdDevice) (fuel : Nat) (fsData : FilesystemData)
    (st : FillState) :
    fillHeaderTableEntry dev fuel fsData.root 0 HASH_PRIME false st
      = runTrace fillStep st (walk dev fuel fsData) := by
  unfold fillHeaderTableEntry walk
  apply fillHeaderTableEntryEntry_eq _ _ 0
  intro r s
  exact fillHeaderTableEntryLoop_eq dev fuel r 0 [] s

/-- The call of `navigateDirectory` in `getHeaderTableSize` runs over the walk
of the volume. -/
theorem navigateDirectory_eq_walk {σ : Type} (dev : CdDevice) (fuel : Nat)
    (fsData : FilesystemData) (f : RecordFunction σ) (st : NavState σ) :
    navigateDirectory dev fuel fsData.root 0 f false st
      = runTrace (navStep f) st (walk dev fuel fsData) := by
  unfold navigateDirectory walk
  apply navigateDirectoryEntry_eq f
  intro r l s
  exact navigateDirectoryLoop_eq dev f fuel r l [] s

theorem toInt32_pred (k : Nat) (hk : k ≤ 2147483648) :
    toInt32 ((k + U32 - 1) % U32) = (k : Int) - 1 := by
  unfold toInt32 U32
  by_cases h0 : k = 0
  · subst h0
    decide
  · have h1 : (k + 4294967296 - 1) % 4294967296 = k - 1 := by omega
    rw [h1]
    have h2 : (k - 1) % 4294967296 = k - 1 := by omega
    rw [h2, if_pos (by omega)]
    omega

/-- After a rearrangement of the first `k` elements, these are a permutation
of what they were. -/
theorem RearrangedOn.take_perm {es es1 : List FilesystemEntry} {k : Nat}
    (h : RearrangedOn es es1 0 ((k : Int) - 1)) : (es1.take k).Perm (es.take k) := by
  obtain ⟨hlen, hout, _, hperm⟩ := h
  have hdrop : es1.drop k = es.drop k := by
    apply List.ext_getElem?
    intro n
    rw [List.getElem?_drop, List.getElem?_drop]
    have h1 := hout ((k + n : Nat) : Int) (by omega) (Or.inr (by omega))
    unfold entAt at h1
    simp only [Int.toNat_ofNat, List.getD_eq_getElem?_getD] at h1
    by_cases hb : k + n < es.length
    · have hb1 : k + n < es1.length := by omega
      rw [List.getElem?_eq_getElem hb, List.getElem?_eq_getElem hb1] at h1 ⊢
      simpa using h1
    · rw [List.getElem?_eq_none (by omega), List.getElem?_eq_none (by omega)]
  have h2 : (es1.take k ++ es.drop k).Perm (es.take k ++ es.drop k) := by
    rw [← hdrop, List.take_append_drop, hdrop, List.take_append_drop]
    exact hperm
  exact (List.perm_append_right_iff _).mp h2

/-- What a completed `fillHeaderTable` leaves, for a table that fits the
32-bit address space: the walk ended without fault, `numEntries` is the number
of file records of the walk, the first `numEntries` entries are sorted by hash
and are a permutation of the entries of those records, none of size 0. -/
theorem fillHeaderTable_ok (dev : CdDevice) (fuel : Nat) (fsData : FilesystemData)
    (table : FilesystemHeaderTable) (st : FillState)
    (hU : table.entries.length * sizeofFilesystemEntry ≤ U32)
    (h : fillHeaderTable dev fuel fsData table = .ok st) :
    (walk dev fuel fsData).2 = none
    ∧ st.headerTable.numEntries = (fileEntries (walk dev fuel fsData).1).length
    ∧ st.entry = st.headerTable.numEntries
    ∧ st.headerTable.numEntries ≤ st.headerTable.entries.length
    ∧ st.headerTable.entries.length = table.entries.length
    ∧ SortedOn st.headerTable.entries 0 ((st.headerTable.numEntries : Int) - 1)
    ∧ (st.headerTable.entries.take st.headerTable.numEntries).Perm
        (fileEntries (walk dev fuel fsData).1)
    ∧ ∀ x ∈ fileEntries (walk dev fuel fsData).1, x.size ≠ 0 := by
  unfold fillHeaderTable at h
  rw [fillHeaderTableEntry_eq_walk] at h
  have hU' : table.entries.length < U32 := by
    unfold sizeofFilesystemEntry U32 at hU; unfold U32; omega
  cases hrun : runTrace fillStep ⟨0, { table with numEntries := 0 }, []⟩ (walk dev fuel fsData)
    with
  | fail f s => rw [hrun] at h; cases h
  | ok s1 =>
    rw [hrun] at h
    simp only at h
    obtain ⟨hnone, hev⟩ := runTrace_ok _ _ _ _ hrun
    obtain ⟨⟨hn, hle, hsz⟩, hlen, hent, htake, hnz⟩ :=
      (runEvents_fill _ ⟨0, { table with numEntries := 0 }, []⟩
        ⟨rfl, Nat.zero_le _, fun i hi => absurd hi (Nat.not_lt_zero i)⟩ hU').1 s1 hev
    simp only [Nat.zero_add, List.take_zero, List.nil_append] at hent htake hlen
    have hk : s1.headerTable.numEntries ≤ 2147483648 := by
      rw [hn]
      unfold sizeofFilesystemEntry U32 at hU
      omega
    rw [toInt32_pred _ hk] at h
    cases hq : quickSort fuel s1.headerTable.entries 0 ((s1.headerTable.numEntries : Int) - 1)
      with
    | fail f s => rw [hq] at h; cases h
    | ok es2 =>
      rw [hq] at h
      cases h
      obtain ⟨hre, hso⟩ := quickSort_partial fuel _ _ 0 _ (le_refl _) (by omega) hq
      refine ⟨hnone, by rw [hn, hent], hn.symm, ?_, ?_, hso, ?_, hnz⟩
      · show s1.headerTable.numEntries ≤ es2.length
        rw [hre.1, hn]; exact hle
      · show es2.length = table.entries.length
        rw [hre.1, hlen]
      · show (es2.take s1.headerTable.numEntries).Perm _
        have := hre.take_perm
        rw [hn, htake] at this
        rw [hn]
        exact this


/-! ## Lookup in the sorted index -/

/-- On a sorted non-empty range, a search that reports nothing has met no
entry with the target hash. -/
theorem binarySearch_none_absent (mem : List FilesystemEntry) (s : FilesystemEntry) :
    ∀ (fuel base len : Nat), 0 < len → base + len ≤ mem.length →
      (∀ i j, base ≤ i → i ≤ j → j < base + len →
        (mem.getD i ⟨0, 0, 0⟩).filenameHash ≤ (mem.getD j ⟨0, 0, 0⟩).filenameHash) →
      binarySearch mem fuel base len s = .ok none →
      ∀ j, base ≤ j → j < base + len →
        (mem.getD j ⟨0, 0, 0⟩).filenameHash ≠ s.filenameHash := by
  intro fuel
  induction fuel with
  | zero => intro base len _ _ _ h; simp [binarySearch] at h
  | succ fuel ih =>
    intro base len hpos hlen hsorted h j hj1 hj2
    have hq : len / 2 < len := Nat.div_lt_self hpos (by norm_num)
    have hlt : base + len / 2 < mem.length := by omega
    rw [binarySearch] at h
    simp only [List.getElem?_eq_getElem hlt] at h
    have hpiv : mem.getD (base + len / 2) ⟨0, 0, 0⟩ = mem[base + len / 2] := by
      simp [List.getD_eq_getElem?_getD, List.getElem?_eq_getElem hlt]
    by_cases heq : (mem[base + len / 2]).filenameHash = s.filenameHash
    · rw [if_pos heq] at h; cases h
    · rw [if_neg heq] at h
      by_cases h1 : len > 1
      · rw [if_pos h1] at h
        have hp : 0 < len / 2 := Nat.div_pos (by omega) (by norm_num)
        by_cases hgt : (mem[base + len / 2]).filenameHash > s.filenameHash
        · rw [if_pos hgt] at h
          by_cases hjl : j < base + len / 2
          · exact ih base (len / 2) hp (by omega)
              (fun a b ha hab hb => hsorted a b ha hab (by omega)) h j hj1 hjl
          · have := hsorted (base + len / 2) j (by omega) (by omega) hj2
            rw [hpiv] at this
            omega
        · rw [if_neg hgt] at h
          by_cases hjl : j < base + len / 2
          · have := hsorted j (base + len / 2) hj1 (by omega) (by omega)
            rw [hpiv] at this
            omega
          · exact ih (base + len / 2) (len - len / 2) (by omega) (by omega)
              (fun a b ha hab hb => hsorted a b (by omega) hab (by omega)) h j (by omega)
              (by omega)
      · have hj : j = base + len / 2 := by omega
        rw [hj, hpiv]
        exact heq

/-- On a table whose first `numEntries` entries are sorted by hash, a hash that
one of them carries is found, at an entry that carries it. -/
theorem getFileEntry_found (fuel : Nat) (t : FilesystemHeaderTable) (target : Nat)
    (hlen : t.numEntries ≤ t.entries.length) (hfuel : t.numEntries ≤ fuel)
    (hsorted : SortedOn t.entries 0 ((t.numEntries : Int) - 1))
    (hex : ∃ j, j < t.numEntries ∧ (t.entries.getD j ⟨0, 0, 0⟩).filenameHash = target) :
    ∃ i e, getFileEntry fuel t target = .ok (some i) ∧ i < t.numEntries
      ∧ t.entries[i]? = some e ∧ e.filenameHash = target := by
  obtain ⟨j, hj, hjt⟩ := hex
  have hpos : 0 < t.numEntries := by omega
  rcases binarySearch_spec t.entries ⟨target, 0, 0⟩ fuel 0 t.numEntries hpos (by omega) hfuel
    with h | ⟨i, e, h, _, hi, he, hh⟩
  · exfalso
    refine binarySearch_none_absent t.entries ⟨target, 0, 0⟩ fuel 0 t.numEntries hpos
      (by omega) ?_ h j (Nat.zero_le _) (by omega) hjt
    intro a b _ hab hb
    have := hsorted (a : Int) (b : Int) (by omega) (by omega) (by omega)
    simpa [hashAt, entAt] using this
  · exact ⟨i, e, h, by omega, he, hh⟩

/-! ## The count of `getHeaderTableSize` -/

theorem countRecord_eq (dir : DirectoryRecord) (l l1 : Int) (path : List (List Nat)) (n : Nat) :
    countRecord dir l n
      = if Event.isFile (.visit dir l1 path) = true then (n + 1) % U32 else n := by
  unfold countRecord Event.isFile
  split
  · rename_i flags hfl
    by_cases hd : DirectoryRecord.isDirectoryFlag flags = true
    · simp [hfl, hd]
    · simp [hfl, hd]
  · rename_i hfl
    simp [hfl]

theorem runEvents_count :
    ∀ (es : List Event) (st : NavState Nat), st.user < U32 →
      ∃ s, runEvents (navStep countRecord) st es = .ok s
        ∧ s.user = (st.user + (fileEntries es).length) % U32 := by
  intro es
  induction es with
  | nil =>
    intro st hst
    exact ⟨st, rfl, by simp [fileEntries, Nat.mod_eq_of_lt hst]⟩
  | cons e es ih =>
    intro st hst
    cases e with
    | read fad =>
      obtain ⟨s, h1, h2⟩ := ih { st with reads := st.reads ++ [fad] } hst
      exact ⟨s, h1, by simpa [fileEntries] using h2⟩
    | visit dir l path =>
      simp only [runEvents, navStep, fileEntries]
      rw [countRecord_eq dir l l path]
      by_cases hf : Event.isFile (.visit dir l path) = true
      · rw [if_pos hf, if_pos hf]
        obtain ⟨s, h1, h2⟩ := ih { st with user := (st.user + 1) % U32 }
          (Nat.mod_lt _ (by decide))
        refine ⟨s, h1, ?_⟩
        rw [h2]
        simp only [List.length_cons, U32]
        omega
      · rw [if_neg hf, if_neg hf]
        exact ih { st with user := st.user } hst

/-- What `getHeaderTableSize` returns: the walk ended without fault, and the
size is the number of file records, times 12, in `uint32_t`. -/
theorem getHeaderTableSize_ok (dev : CdDevice) (fuel : Nat) (fsData : FilesystemData)
    (sz : Nat) (h : getHeaderTableSize dev fuel fsData = .ok sz) :
    (walk dev fuel fsData).2 = none
    ∧ sz = ((fileEntries (walk dev fuel fsData).1).length % U32 * sizeofFilesystemEntry)
        % U32 := by
  unfold getHeaderTableSize at h
  rw [navigateDirectory_eq_walk] at h
  cases hrun : runTrace (navStep countRecord) ⟨0, []⟩ (walk dev fuel fsData) with
  | fail f s => rw [hrun] at h; cases h
  | ok s1 =>
    rw [hrun] at h
    cases h
    obtain ⟨hnone, hev⟩ := runTrace_ok _ _ _ _ hrun
    obtain ⟨s, h1, h2⟩ := runEvents_count (walk dev fuel fsData).1 ⟨0, []⟩ (by decide)
    rw [hev] at h1
    cases h1
    refine ⟨hnone, ?_⟩
    rw [h2]
    simp

/-! ### The sort stores nothing outside the array -/

theorem scanLeft_fault (es : List FilesystemEntry) (pivot : FilesystemEntry) :
    ∀ (fuel : Nat) (l : Int) (f : Fault) (s : Unit),
      scanLeft es pivot fuel l = .fail f s → f ≠ .badWrite := by
  intro fuel
  induction fuel with
  | zero => intro l f s h; simp only [scanLeft] at h; cases h; decide
  | succ fuel ih =>
    intro l f s h
    rw [scanLeft] at h
    cases hr : readAt es (l + 1) with
    | none => rw [hr] at h; cases h; decide
    | some e =>
      rw [hr] at h
      simp only at h
      by_cases hlt : e.filenameHash < pivot.filenameHash
      · rw [if_pos hlt] at h; exact ih _ _ _ h
      · rw [if_neg hlt] at h; cases h

theorem scanRight_fault (es : List FilesystemEntry) (pivot : FilesystemEntry) :
    ∀ (fuel : Nat) (r : Int) (f : Fault) (s : Unit),
      scanRight es pivot fuel r = .fail f s → f ≠ .badWrite := by
  intro fuel
  induction fuel with
  | zero => intro r f s h; simp only [scanRight] at h; cases h; decide
  | succ fuel ih =>
    intro r f s h
    rw [scanRight] at h
    cases hr : readAt es (r - 1) with
    | none => rw [hr] at h; cases h; decide
    | some e =>
      rw [hr] at h
      simp only at h
      by_cases hgt : e.filenameHash > pivot.filenameHash
      · rw [if_pos hgt] at h; exact ih _ _ _ h
      · rw [if_neg hgt] at h; cases h

theorem partitionLoop_fault (pivot : FilesystemEntry) :
    ∀ (fuel : Nat) (es : List FilesystemEntry) (l r : Int) (f : Fault) (s : Unit),
      partitionLoop pivot fuel es l r = .fail f s → f ≠ .badWrite := by
  intro fuel
  induction fuel with
  | zero => intro es l r f s h; simp only [partitionLoop] at h; cases h; decide
  | succ fuel ih =>
    intro es l r f s h
    rw [partitionLoop] at h
    cases hsl : scanLeft es pivot fuel l with
    | fail f1 s1 => rw [hsl] at h; cases h; exact scanLeft_fault es pivot fuel l _ _ hsl
    | ok l1 =>
      rw [hsl] at h
      simp only at h
      cases hsr : scanRight es pivot fuel r with
      | fail f1 s1 => rw [hsr] at h; cases h; exact scanRight_fault es pivot fuel r _ _ hsr
      | ok r1 =>
        rw [hsr] at h
        simp only at h
        by_cases hge : l1 ≥ r1
        · rw [if_pos hge] at h; cases h
        · rw [if_neg hge] at h
          cases hr1 : readAt es r1 with
          | none => rw [hr1] at h; cases h; decide
          | some tmp =>
            cases hl1 : readAt es l1 with
            | none => rw [hr1, hl1] at h; cases h; decide
            | some el =>
              rw [hr1, hl1] at h
              exact ih _ _ _ _ _ h

theorem quickSort_fault :
    ∀ (fuel : Nat) (es : List FilesystemEntry) (left right : Int) (f : Fault) (s : Unit),
      quickSort fuel es left right = .fail f s → f ≠ .badWrite := by
  intro fuel
  induction fuel with
  | zero => intro es l r f s h; simp only [quickSort] at h; cases h; decide
  | succ fuel ih =>
    intro es left right f s h
    rw [quickSort] at h
    by_cases hrl : right ≤ left
    · rw [if_pos hrl] at h; cases h
    · rw [if_neg hrl] at h
      simp only at h
      cases hp : readAt es (left + (right - left).tdiv 2) with
      | none => rw [hp] at h; cases h; decide
      | some pivot =>
        rw [hp] at h
        simp only at h
        cases hpl : partitionLoop pivot fuel es (left - 1) (right + 1) with
        | fail f1 s1 =>
          rw [hpl] at h; cases h
          exact partitionLoop_fault pivot fuel es _ _ _ _ hpl
        | ok y =>
          obtain ⟨es1, p⟩ := y
          rw [hpl] at h
          simp only at h
          cases hq : quickSort fuel es1 left p with
          | fail f1 s1 => rw [hq] at h; cases h; exact ih _ _ _ _ _ hq
          | ok es2 =>
            rw [hq] at h
            exact ih _ _ _ _ _ h

/-! ### The walk ends in no store -/

theorem andThen_status_ne (t k : Trace) (h1 : t.2 ≠ some .badWrite) (h2 : k.2 ≠ some .badWrite) :
    (t.andThen k).2 ≠ some .badWrite := by
  unfold Trace.andThen
  cases ht : t.2 with
  | none => exact h2
  | some f =>
    rw [ht] at h1
    exact h1

theorem walkLevels_status_ne (n : Nat) (body : Nat → Trace)
    (h : ∀ lvl, (body lvl).2 ≠ some .badWrite) : (walkLevels n body).2 ≠ some .badWrite := by
  unfold walkLevels
  have key : ∀ (l : List Nat) (acc : Trace), acc.2 ≠ some .badWrite →
      (l.foldl (fun acc level => acc.andThen (body level)) acc).2 ≠ some .badWrite := by
    intro l
    induction l with
    | nil => intro acc hacc; exact hacc
    | cons x xs ih =>
      intro acc hacc
      exact ih _ (andThen_status_ne _ _ hacc (h x))
  exact key _ _ (by simp)

theorem walkEntry_status_ne (loop : DirectoryRecord → Int → Trace)
    (h : ∀ r l, (loop r l).2 ≠ some .badWrite) (record : DirectoryRecord) (level : Int)
    (c : Bool) : (walkEntry loop record level c).2 ≠ some .badWrite := by
  unfold walkEntry
  cases record.length with
  | none => simp
  | some len =>
    simp only
    by_cases h0 : len = 0
    · simp [h0]
    · simp only [h0, if_false]
      cases c with
      | true => simpa using h _ _
      | false =>
        simp only [Bool.false_eq_true, if_false]
        cases (record.nextDir len).length with
        | none => simp
        | some len1 =>
          simp only
          by_cases h1 : len1 = 0
          · simp [h1]
          · simp only [h1, if_false]; exact h _ _

theorem walkLoop_status_ne (dev : CdDevice) :
    ∀ (fuel : Nat) (dir : DirectoryRecord) (level : Int) (path : List (List Nat)),
      (walkLoop dev fuel dir level path).2 ≠ some .badWrite := by
  intro fuel
  induction fuel with
  | zero => intro dir level path; simp [walkLoop]
  | succ fuel ih =>
    intro dir level path
    rw [walkLoop]
    cases dir.length with
    | none => simp
    | some len =>
      simp only
      by_cases h0 : len = 0
      · simp [h0]
      · simp only [h0, if_false]
        apply andThen_status_ne _ _ (by simp)
        cases dir.flags with
        | none => simp
        | some flags =>
          simp only
          apply andThen_status_ne _ _ _ (ih _ _ _)
          by_cases hd : DirectoryRecord.isDirectoryFlag flags = true
          · rw [if_pos hd]
            apply walkLevels_status_ne
            intro lvl
            apply andThen_status_ne
            · by_cases hs : (dev.cd_block_read_data
                  ((dev.LBA2FAD dir.extentLocation + lvl) % U32)).1 ≠ 0
              · simp [hs]
              · simp [hs]
            · exact walkEntry_status_ne _ (fun r l => ih r l _) _ _ _
          · rw [if_neg hd]
            simp

theorem walk_fault_ne_badWrite (dev : CdDevice) (fuel : Nat) (fsData : FilesystemData)
    (h : (walk dev fuel fsData).2 = some .badWrite) : False :=
  walkEntry_status_ne _ (fun r l => walkLoop_status_ne dev fuel r l []) _ _ _ h

/-- What a failed `fillHeaderTable` leaves, for a table that fits the 32-bit
address space: the invariant of the build, and no store past the table when
the table has room for the file records of the walk. -/
theorem fillHeaderTable_fail (dev : CdDevice) (fuel : Nat) (fsData : FilesystemData)
    (table : FilesystemHeaderTable) (f : Fault) (s : FillState)
    (hU : table.entries.length * sizeofFilesystemEntry ≤ U32)
    (h : fillHeaderTable dev fuel fsData table = .fail f s) :
    FillInv s
    ∧ (f = .badWrite → table.entries.length < (fileEntries (walk dev fuel fsData).1).length) := by
  unfold fillHeaderTable at h
  rw [fillHeaderTableEntry_eq_walk] at h
  have hU' : table.entries.length < U32 := by
    unfold sizeofFilesystemEntry U32 at hU; unfold U32; omega
  have hrunEv := runEvents_fill (walk dev fuel fsData).1
    ⟨0, { table with numEntries := 0 }, []⟩
    ⟨rfl, Nat.zero_le _, fun i hi => absurd hi (Nat.not_lt_zero i)⟩ hU'
  cases hrun : runTrace fillStep ⟨0, { table with numEntries := 0 }, []⟩ (walk dev fuel fsData)
    with
  | fail f1 s1 =>
    rw [hrun] at h
    cases h
    rcases runTrace_fail _ _ _ _ _ hrun with hev | ⟨hev, hst⟩
    · obtain ⟨hinv, _, _, hbw⟩ := hrunEv.2 f s hev
      exact ⟨hinv, fun hf => by simpa using hbw hf⟩
    · obtain ⟨hinv, _, _, _, _⟩ := hrunEv.1 s hev
      refine ⟨hinv, fun hf => ?_⟩
      subst hf
      exfalso
      -- the walk itself ends in no store
      exact walk_fault_ne_badWrite dev fuel fsData hst
  | ok s1 =>
    rw [hrun] at h
    simp only at h
    obtain ⟨_, hev⟩ := runTrace_ok _ _ _ _ hrun
    obtain ⟨hinv, _, _, _, _⟩ := hrunEv.1 s1 hev
    cases hq : quickSort fuel s1.headerTable.entries 0
        (toInt32 ((s1.headerTable.numEntries + U32 - 1) % U32)) with
    | ok es2 => rw [hq] at h; cases h
    | fail f2 s2 =>
      rw [hq] at h
      cases h
      exact ⟨hinv, fun hf => absurd hf (quickSort_fault _ _ _ _ _ _ hq)⟩

end CdBlock

/-! ## Opening a missing name -/

/-- With the block device variant, a name whose hash is in no entry of the
(non-empty) index makes the constructor of `File` fail its assertion. -/
theorem File.new_cdblock_missing {κ : Type} (p : Platform κ) (fuel : Nat)
    (t : CdBlock.FilesystemHeaderTable) (filename : List Int) (host : HostState κ)
    (hpos : 0 < t.numEntries) (hlen : t.numEntries ≤ t.entries.length)
    (hfuel : t.numEntries ≤ fuel)
    (habs : ∀ i e, i < t.numEntries → t.entries[i]? = some e →
      e.filenameHash ≠ CdBlock.getFilenameHash filename) :
    File.new p fuel t filename .CDBLOCK host = .fail .assertion host := by
  have h := CdBlock.getFileEntry_absent fuel t (CdBlock.getFilenameHash filename) hpos hlen hfuel habs
  simp only [File.new, h]

/-- With the link variant, a reported length of 0 makes the constructor of
`File` fail its assertion, after the size query. -/
theorem File.new_usb_missing {κ : Type} (p : Platform κ) (fuel : Nat)
    (t : CdBlock.FilesystemHeaderTable) (filename : List Int) (host : HostState κ)
    (h0 : (usbGetFileSize p.usb (CdBlock.getFilenameHash filename) host.link).1 = 0) :
    File.new p fuel t filename .USB host
      = .fail .assertion
          { host with
            link := (usbGetFileSize p.usb (CdBlock.getFilenameHash filename) host.link).2 } := by
  simp only [File.new, h0, if_true]

/-- C10, as stated, fails: opening a name that is not in a one-entry index
ends in the assertion failure and returns nothing to the caller. -/
theorem C10_counterexample :
    Filesystem.open (Test.platform (Test.disc [])) 1 ⟨.CDBLOCK, ⟨1, [⟨93623103, 20, 17⟩]⟩⟩
        [78, 79] .AUTO ⟨[], []⟩
      = .fail .assertion ⟨[], []⟩ := by
  decide

/-- C10, amended. For a filename whose hash is not in the (non-empty) index
with the block device variant, or for which the link reports length 0 with
the link variant, `Filesystem::open` does not return: the constructor of the
handle fails its assertion. -/
theorem C10_open_missing_aborts {κ : Type} (p : Platform κ) (fuel : Nat) (fs : Filesystem)
    (filename : List Int) (backend : FilesystemBackend) (host : HostState κ) :
    ((if backend = .AUTO then fs.defaultBackend else backend) = .CDBLOCK →
      0 < fs.cdHeaderTable.numEntries →
      fs.cdHeaderTable.numEntries ≤ fs.cdHeaderTable.entries.length →
      fs.cdHeaderTable.numEntries ≤ fuel →
      (∀ i e, i < fs.cdHeaderTable.numEntries → fs.cdHeaderTable.entries[i]? = some e →
        e.filenameHash ≠ CdBlock.getFilenameHash filename) →
      Filesystem.open p fuel fs filename backend host = .fail .assertion host)
    ∧ ((if backend = .AUTO then fs.defaultBackend else backend) = .USB →
      (usbGetFileSize p.usb (CdBlock.getFilenameHash filename) host.link).1 = 0 →
      Filesystem.open p fuel fs filename backend host
        = .fail .assertion
            { host with
              link := (usbGetFileSize p.usb (CdBlock.getFilenameHash filename) host.link).2 }) := by
  constructor
  · intro hb hpos hlen hfuel habs
    simp only [Filesystem.open, hb]
    exact File.new_cdblock_missing p fuel _ filename host hpos hlen hfuel habs
  · intro hb h0
    simp only [Filesystem.open, hb]
    exact File.new_usb_missing p fuel _ filename host h0

set_option maxRecDepth 100000

namespace CdBlock

/-! ## The index after the build -/

theorem SortedOn.adjacent {es : List FilesystemEntry} {n : Nat}
    (h : SortedOn es 0 ((n : Int) - 1)) (i : Nat) (a b : FilesystemEntry) (hi : i + 1 < n)
    (ha : es[i]? = some a) (hb : es[i + 1]? = some b) : a.filenameHash ≤ b.filenameHash := by
  have := h (i : Int) ((i + 1 : Nat) : Int) (by omega) (by omega) (by omega)
  simpa [hashAt, entAt, List.getD_eq_getElem?_getD, ha, hb] using this

/-- C2. Index sortedness: after `fillHeaderTable` returns, on a table that fits
the 32-bit address space, adjacent entries below `numEntries` ascend by hash;
and `quickSort` over `[0, n - 1]` returns an array ascending by hash for
every input array. -/
theorem C2_index_sorted :
    (∀ (dev : CdDevice) (fuel : Nat) (fsData : FilesystemData) (table : FilesystemHeaderTable)
        (st : FillState),
      table.entries.length * sizeofFilesystemEntry ≤ U32 →
      fillHeaderTable dev fuel fsData table = .ok st →
      ∀ i a b, i + 1 < st.headerTable.numEntries →
        st.headerTable.entries[i]? = some a → st.headerTable.entries[i + 1]? = some b →
        a.filenameHash ≤ b.filenameHash)
    ∧ (∀ (entries : List FilesystemEntry) (n fuel : Nat),
      n ≤ entries.length → 2 * n + 4 ≤ fuel →
      ∃ out, quickSort fuel entries 0 ((n : Int) - 1) = .ok out
        ∧ out.length = entries.length
        ∧ ∀ i a b, i + 1 < n → out[i]? = some a → out[i + 1]? = some b →
            a.filenameHash ≤ b.filenameHash) := by
  constructor
  · intro dev fuel fsData table st hU h i a b hi ha hb
    obtain ⟨_, _, _, _, _, hso, _, _⟩ := fillHeaderTable_ok dev fuel fsData table st hU h
    exact hso.adjacent i a b hi ha hb
  · intro entries n fuel hn hfuel
    obtain ⟨out, h, hre, hso⟩ :=
      quickSort_spec fuel entries 0 ((n : Int) - 1) (le_refl _) (by omega) (by omega)
    exact ⟨out, h, hre.1, fun i a b hi ha hb => hso.adjacent i a b hi ha hb⟩

/-- C2 on the demo disc, and on an array of four entries. -/
theorem C2_index_sorted_witness :
    (∀ i a b, i + 1 < 2 →
        [(⟨93623103, 20, 17⟩ : FilesystemEntry), ⟨158458433, 21, 9⟩][i]? = some a →
        [(⟨93623103, 20, 17⟩ : FilesystemEntry), ⟨158458433, 21, 9⟩][i + 1]? = some b →
        a.filenameHash ≤ b.filenameHash)
    ∧ ∃ out, quickSort 12 [⟨5, 20, 1⟩, ⟨3, 21, 1⟩, ⟨9, 22, 1⟩, ⟨1, 23, 1⟩] 0 (((4 : Nat) : Int) - 1)
          = .ok out
        ∧ out.length = [(⟨5, 20, 1⟩ : FilesystemEntry), ⟨3, 21, 1⟩, ⟨9, 22, 1⟩, ⟨1, 23, 1⟩].length
        ∧ ∀ i a b, i + 1 < 4 → out[i]? = some a → out[i + 1]? = some b →
            a.filenameHash ≤ b.filenameHash :=
  ⟨C2_index_sorted.1 Test.demoDisc 5 ⟨Test.demoRoot, []⟩ ⟨0, [⟨0, 0, 0⟩, ⟨0, 0, 0⟩]⟩
      ⟨2, ⟨2, [⟨93623103, 20, 17⟩, ⟨158458433, 21, 9⟩]⟩, [169]⟩ (by decide) (by decide),
    C2_index_sorted.2 [⟨5, 20, 1⟩, ⟨3, 21, 1⟩, ⟨9, 22, 1⟩, ⟨1, 23, 1⟩] 4 12 (by decide)
      (by decide)⟩

/-- C1, as stated, fails: `0B.TXT` and `OA.TXT` have the same hash, the build
completes, the walk reaches the record of `OA.TXT;1` (extent at block 21), and
the lookup of the hash of `OA.TXT` yields the entry with `lba` 20. -/
theorem C1_counterexample :
    fillHeaderTable (Test.disc []) 5 ⟨Test.collidingRoot, []⟩ ⟨0, [⟨0, 0, 0⟩, ⟨0, 0, 0⟩]⟩
        = .ok ⟨2, ⟨2, [⟨474344075, 21, 9⟩, ⟨474344075, 20, 17⟩]⟩, []⟩
    ∧ Event.visit ⟨⟨Test.collidingRoot, some []⟩, 109⟩ 0 []
        ∈ (walk (Test.disc []) 5 ⟨Test.collidingRoot, []⟩).1
    ∧ Event.isFile (.visit ⟨⟨Test.collidingRoot, some []⟩, 109⟩ 0 []) = true
    ∧ fullPath [] (DirectoryRecord.fileName ⟨⟨Test.collidingRoot, some []⟩, 109⟩)
        = [79, 65, 46, 84, 88, 84]
    ∧ DirectoryRecord.extentLocation ⟨⟨Test.collidingRoot, some []⟩, 109⟩ = 21
    ∧ getFileEntry 2 ⟨2, [⟨474344075, 21, 9⟩, ⟨474344075, 20, 17⟩]⟩
        (getFilenameHash [79, 65, 46, 84, 88, 84]) = .ok (some 1)
    ∧ ([(⟨474344075, 21, 9⟩ : FilesystemEntry), ⟨474344075, 20, 17⟩][1]?).map (·.lba)
        = some 20 := by
  decide

/-- C1, amended. On every volume on which `fillHeaderTable` completes (the
table fitting the 32-bit address space), for every file record the walk
reaches, with path string `p`, `getFileEntry` on `getFilenameHash p` yields an
entry below `numEntries` that carries this hash and is the entry of a file
record of the walk; its `lba` and `size` are the extent location and length of
the record whenever no file record of the walk with another entry has the
same hash. -/
theorem C1_lookup_correct (dev : CdDevice) (fuel : Nat) (fsData : FilesystemData)
    (table : FilesystemHeaderTable) (st : FillState)
    (hU : table.entries.length * sizeofFilesystemEntry ≤ U32)
    (h : fillHeaderTable dev fuel fsData table = .ok st)
    (dir : DirectoryRecord) (l : Int) (path : List (List Nat))
    (hmem : Event.visit dir l path ∈ (walk dev fuel fsData).1)
    (hfile : Event.isFile (.visit dir l path) = true)
    (fuel1 : Nat) (hfuel : st.headerTable.numEntries ≤ fuel1) :
    ∃ i e, getFileEntry fuel1 st.headerTable (getFilenameHash (fullPath path dir.fileName))
          = .ok (some i)
      ∧ i < st.headerTable.numEntries
      ∧ st.headerTable.entries[i]? = some e
      ∧ e.filenameHash = getFilenameHash (fullPath path dir.fileName)
      ∧ e ∈ fileEntries (walk dev fuel fsData).1
      ∧ ((∀ x ∈ fileEntries (walk dev fuel fsData).1,
            x.filenameHash = getFilenameHash (fullPath path dir.fileName) →
            x = entryOf dir path) →
          e.lba = dir.extentLocation ∧ e.size = dir.extentLength) := by
  obtain ⟨_, _, _, hle, _, hso, hperm, _⟩ := fillHeaderTable_ok dev fuel fsData table st hU h
  have hin : entryOf dir path ∈ st.headerTable.entries.take st.headerTable.numEntries :=
    hperm.symm.subset (mem_fileEntries dir l path _ hmem hfile)
  obtain ⟨j, hj⟩ := List.getElem?_of_mem hin
  have hjlt : j < st.headerTable.numEntries := by
    by_contra hc
    rw [List.getElem?_eq_none (by rw [List.length_take]; omega)] at hj
    cases hj
  rw [List.getElem?_take_of_lt hjlt] at hj
  obtain ⟨i, e, hget, hi, he, hh⟩ :=
    getFileEntry_found fuel1 st.headerTable (getFilenameHash (fullPath path dir.fileName)) hle
      hfuel hso ⟨j, hjlt, by simp [List.getD_eq_getElem?_getD, hj, entryOf]⟩
  have hein : e ∈ fileEntries (walk dev fuel fsData).1 := by
    apply hperm.subset
    apply List.getElem?_mem (n := i)
    rw [List.getElem?_take_of_lt hi]
    exact he
  refine ⟨i, e, hget, hi, he, hh, hein, ?_⟩
  intro huniq
  rw [huniq e hein hh]
  exact ⟨rfl, rfl⟩

/-- C1 on the demo disc: the lookup of `A_FOLDER/ANOTHER_TEST_FILE.TXT`; and
on a root sector filled to its last byte, where the scan ends at the first byte
of `tempSector`: the lookup of `H`, whose record ends at offset 2048. -/
theorem C1_lookup_correct_witness :
    (∃ i e, getFileEntry 2 ⟨2, [⟨93623103, 20, 17⟩, ⟨158458433, 21, 9⟩]⟩
          (getFilenameHash (fullPath [[65, 95, 70, 79, 76, 68, 69, 82]]
            (DirectoryRecord.fileName ⟨Test.demoFolder, 68⟩)))
          = .ok (some i)
      ∧ i < 2
      ∧ [(⟨93623103, 20, 17⟩ : FilesystemEntry), ⟨158458433, 21, 9⟩][i]? = some e
      ∧ e.filenameHash = getFilenameHash (fullPath [[65, 95, 70, 79, 76, 68, 69, 82]]
            (DirectoryRecord.fileName ⟨Test.demoFolder, 68⟩))
      ∧ e ∈ fileEntries (walk Test.demoDisc 5 ⟨Test.demoRoot, []⟩).1
      ∧ ((∀ x ∈ fileEntries (walk Test.demoDisc 5 ⟨Test.demoRoot, []⟩).1,
            x.filenameHash = getFilenameHash (fullPath [[65, 95, 70, 79, 76, 68, 69, 82]]
              (DirectoryRecord.fileName ⟨Test.demoFolder, 68⟩)) →
            x = entryOf ⟨Test.demoFolder, 68⟩ [[65, 95, 70, 79, 76, 68, 69, 82]]) →
          e.lba = DirectoryRecord.extentLocation ⟨Test.demoFolder, 68⟩
            ∧ e.size = DirectoryRecord.extentLength ⟨Test.demoFolder, 68⟩))
    ∧ (∃ i e, getFileEntry 8
            ⟨8, [⟨1054, 20, 5⟩, ⟨1085, 21, 5⟩, ⟨1116, 22, 5⟩, ⟨1147, 23, 5⟩, ⟨1178, 24, 5⟩,
              ⟨1209, 25, 5⟩, ⟨1240, 26, 5⟩, ⟨1271, 27, 5⟩]⟩
            (getFilenameHash (fullPath []
              (DirectoryRecord.fileName ⟨⟨Test.paddedRoot, some []⟩, 1853⟩)))
          = .ok (some i)
      ∧ i < 8
      ∧ [(⟨1054, 20, 5⟩ : FilesystemEntry), ⟨1085, 21, 5⟩, ⟨1116, 22, 5⟩, ⟨1147, 23, 5⟩,
            ⟨1178, 24, 5⟩, ⟨1209, 25, 5⟩, ⟨1240, 26, 5⟩, ⟨1271, 27, 5⟩][i]? = some e
      ∧ e.filenameHash = getFilenameHash (fullPath []
            (DirectoryRecord.fileName ⟨⟨Test.paddedRoot, some []⟩, 1853⟩))
      ∧ e ∈ fileEntries (walk (Test.disc []) 30 ⟨Test.paddedRoot, []⟩).1
      ∧ ((∀ x ∈ fileEntries (walk (Test.disc []) 30 ⟨Test.paddedRoot, []⟩).1,
            x.filenameHash = getFilenameHash (fullPath []
              (DirectoryRecord.fileName ⟨⟨Test.paddedRoot, some []⟩, 1853⟩)) →
            x = entryOf ⟨⟨Test.paddedRoot, some []⟩, 1853⟩ []) →
          e.lba = DirectoryRecord.extentLocation ⟨⟨Test.paddedRoot, some []⟩, 1853⟩
            ∧ e.size = DirectoryRecord.extentLength ⟨⟨Test.paddedRoot, some []⟩, 1853⟩)) :=
  ⟨C1_lookup_correct Test.demoDisc 5 ⟨Test.demoRoot, []⟩ ⟨0, [⟨0, 0, 0⟩, ⟨0, 0, 0⟩]⟩
      ⟨2, ⟨2, [⟨93623103, 20, 17⟩, ⟨158458433, 21, 9⟩]⟩, [169]⟩ (by decide) (by decide)
      ⟨Test.demoFolder, 68⟩ 1 [[65, 95, 70, 79, 76, 68, 69, 82]] (by decide) (by decide) 2
      (by decide),
    C1_lookup_correct (Test.disc []) 30 ⟨Test.paddedRoot, []⟩
      ⟨0, [⟨0, 0, 0⟩, ⟨0, 0, 0⟩, ⟨0, 0, 0⟩, ⟨0, 0, 0⟩, ⟨0, 0, 0⟩, ⟨0, 0, 0⟩, ⟨0, 0, 0⟩,
        ⟨0, 0, 0⟩]⟩
      ⟨8, ⟨8, [⟨1054, 20, 5⟩, ⟨1085, 21, 5⟩, ⟨1116, 22, 5⟩, ⟨1147, 23, 5⟩, ⟨1178, 24, 5⟩,
        ⟨1209, 25, 5⟩, ⟨1240, 26, 5⟩, ⟨1271, 27, 5⟩]⟩, []⟩ (by decide) (by decide)
      ⟨⟨Test.paddedRoot, some []⟩, 1853⟩ 0 [] (by decide!) (by decide) 8 (by decide)⟩

/-! ## Size of the index -/

/-- C7, as stated, fails: on a volume whose only file record has extent length
0, `getHeaderTableSize` returns 12, while `fillHeaderTable` stops at its
assertion with `numEntries` 0. -/
theorem C7_counterexample :
    getHeaderTableSize (Test.disc []) 5 ⟨Test.zeroRoot, []⟩ = .ok 12
    ∧ fillHeaderTable (Test.disc []) 5 ⟨Test.zeroRoot, []⟩ ⟨0, [⟨0, 0, 0⟩]⟩
        = .fail .assertion ⟨0, ⟨0, [⟨474344075, 20, 0⟩]⟩, []⟩ := by
  decide

/-- C7, amended. `getHeaderTableSize` returns 12 times the number of file
records the walk visits, in `uint32_t`; on every volume on which
`fillHeaderTable` completes it has written exactly that many entries, and
`numEntries * 12` is the returned size; and on every volume, completed or
not, it stores nothing past a buffer of that size when the size did not wrap. -/
theorem C7_index_size (dev : CdDevice) (fuel : Nat) (fsData : FilesystemData) :
    (∀ sz, getHeaderTableSize dev fuel fsData = .ok sz →
      sz = ((fileEntries (walk dev fuel fsData).1).length % U32 * sizeofFilesystemEntry) % U32
      ∧ ((fileEntries (walk dev fuel fsData).1).length * sizeofFilesystemEntry < U32 →
          sz = (fileEntries (walk dev fuel fsData).1).length * sizeofFilesystemEntry))
    ∧ (∀ (table : FilesystemHeaderTable) (st : FillState),
      table.entries.length * sizeofFilesystemEntry ≤ U32 →
      fillHeaderTable dev fuel fsData table = .ok st →
      st.headerTable.numEntries = (fileEntries (walk dev fuel fsData).1).length
      ∧ st.entry = (fileEntries (walk dev fuel fsData).1).length
      ∧ ∀ sz, getHeaderTableSize dev fuel fsData = .ok sz →
          st.headerTable.numEntries * sizeofFilesystemEntry = sz)
    ∧ (∀ (table : FilesystemHeaderTable) (sz : Nat) (f : Fault) (s : FillState),
      getHeaderTableSize dev fuel fsData = .ok sz →
      (fileEntries (walk dev fuel fsData).1).length * sizeofFilesystemEntry < U32 →
      table.entries.length * sizeofFilesystemEntry = sz →
      fillHeaderTable dev fuel fsData table = .fail f s → f ≠ .badWrite) := by
  have hsize : ∀ sz, getHeaderTableSize dev fuel fsData = .ok sz →
      (fileEntries (walk dev fuel fsData).1).length * sizeofFilesystemEntry < U32 →
      sz = (fileEntries (walk dev fuel fsData).1).length * sizeofFilesystemEntry := by
    intro sz h hlt
    rw [(getHeaderTableSize_ok dev fuel fsData sz h).2]
    unfold sizeofFilesystemEntry U32 at hlt ⊢
    omega
  refine ⟨fun sz h => ⟨(getHeaderTableSize_ok dev fuel fsData sz h).2, hsize sz h⟩, ?_, ?_⟩
  · intro table st hU h
    obtain ⟨_, hn, hent, hle, hlen, _, _, _⟩ := fillHeaderTable_ok dev fuel fsData table st hU h
    refine ⟨hn, by rw [hent, hn], ?_⟩
    intro sz hsz
    rw [hn]
    refine (hsize sz hsz ?_).symm
    rw [← hn]
    have : st.headerTable.numEntries * sizeofFilesystemEntry
        ≤ table.entries.length * sizeofFilesystemEntry :=
      Nat.mul_le_mul_right _ (by rw [← hlen]; exact hle)
    unfold sizeofFilesystemEntry U32 at *
    omega
  · intro table sz f s hsz hlt htab h hf
    have hsz2 := hsize sz hsz hlt
    have hU : table.entries.length * sizeofFilesystemEntry ≤ U32 := by
      rw [htab, hsz2]; exact Nat.le_of_lt hlt
    have := (fillHeaderTable_fail dev fuel fsData table f s hU h).2 hf
    rw [hsz2] at htab
    unfold sizeofFilesystemEntry at htab
    omega

/-- C7 on the demo disc, on a root sector whose only file record has extent
length 0, and on root sectors filled to their last byte, where the scan ends
at the first byte of `tempSector`: 44 file records give the size 528. -/
theorem C7_index_size_witness :
    (24 = ((fileEntries (walk Test.demoDisc 5 ⟨Test.demoRoot, []⟩).1).length % U32
          * sizeofFilesystemEntry) % U32
      ∧ ((fileEntries (walk Test.demoDisc 5 ⟨Test.demoRoot, []⟩).1).length * sizeofFilesystemEntry
            < U32 →
          24 = (fileEntries (walk Test.demoDisc 5 ⟨Test.demoRoot, []⟩).1).length
            * sizeofFilesystemEntry))
    ∧ (2 = (fileEntries (walk Test.demoDisc 5 ⟨Test.demoRoot, []⟩).1).length
      ∧ 2 = (fileEntries (walk Test.demoDisc 5 ⟨Test.demoRoot, []⟩).1).length
      ∧ ∀ sz, getHeaderTableSize Test.demoDisc 5 ⟨Test.demoRoot, []⟩ = .ok sz →
          2 * sizeofFilesystemEntry = sz)
    ∧ Fault.assertion ≠ Fault.badWrite
    ∧ Test.fullRoot.length = 2048
    ∧ DirectoryRecord.length ⟨⟨Test.fullRoot, some []⟩, 2048⟩ = some 0
    ∧ getHeaderTableSize (Test.disc []) 50 ⟨Test.fullRoot, []⟩ = .ok 528
    ∧ (528 = ((fileEntries (walk (Test.disc []) 50 ⟨Test.fullRoot, []⟩).1).length % U32
          * sizeofFilesystemEntry) % U32
      ∧ ((fileEntries (walk (Test.disc []) 50 ⟨Test.fullRoot, []⟩).1).length
            * sizeofFilesystemEntry < U32 →
          528 = (fileEntries (walk (Test.disc []) 50 ⟨Test.fullRoot, []⟩).1).length
            * sizeofFilesystemEntry))
    ∧ (8 = (fileEntries (walk (Test.disc []) 30 ⟨Test.paddedRoot, []⟩).1).length
      ∧ 8 = (fileEntries (walk (Test.disc []) 30 ⟨Test.paddedRoot, []⟩).1).length
      ∧ ∀ sz, getHeaderTableSize (Test.disc []) 30 ⟨Test.paddedRoot, []⟩ = .ok sz →
          8 * sizeofFilesystemEntry = sz) :=
  ⟨(C7_index_size Test.demoDisc 5 ⟨Test.demoRoot, []⟩).1 24 (by decide),
    (C7_index_size Test.demoDisc 5 ⟨Test.demoRoot, []⟩).2.1 ⟨0, [⟨0, 0, 0⟩, ⟨0, 0, 0⟩]⟩
      ⟨2, ⟨2, [⟨93623103, 20, 17⟩, ⟨158458433, 21, 9⟩]⟩, [169]⟩ (by decide) (by decide),
    (C7_index_size (Test.disc []) 5 ⟨Test.zeroRoot, []⟩).2.2 ⟨0, [⟨0, 0, 0⟩]⟩ 12 .assertion
      ⟨0, ⟨0, [⟨474344075, 20, 0⟩]⟩, []⟩ (by decide) (by decide) (by decide) (by decide),
    rfl, by decide, by decide,
    (C7_index_size (Test.disc []) 50 ⟨Test.fullRoot, []⟩).1 528 (by decide),
    (C7_index_size (Test.disc []) 30 ⟨Test.paddedRoot, []⟩).2.1
      ⟨0, [⟨0, 0, 0⟩, ⟨0, 0, 0⟩, ⟨0, 0, 0⟩, ⟨0, 0, 0⟩, ⟨0, 0, 0⟩, ⟨0, 0, 0⟩, ⟨0, 0, 0⟩,
        ⟨0, 0, 0⟩]⟩
      ⟨8, ⟨8, [⟨1054, 20, 5⟩, ⟨1085, 21, 5⟩, ⟨1116, 22, 5⟩, ⟨1147, 23, 5⟩, ⟨1178, 24, 5⟩,
        ⟨1209, 25, 5⟩, ⟨1240, 26, 5⟩, ⟨1271, 27, 5⟩]⟩, []⟩ (by decide) (by decide)⟩

/-! ## Files of length zero -/

/-- A file record of extent length 0 among the events stops the build before
the events are used up, with a fault of the program and not of the budget. -/
theorem fillHeaderTable_zero (dev : CdDevice) (fuel : Nat) (fsData : FilesystemData)
    (table : FilesystemHeaderTable)
    (hU : table.entries.length * sizeofFilesystemEntry ≤ U32)
    (dir : DirectoryRecord) (l : Int) (path : List (List Nat))
    (hmem : Event.visit dir l path ∈ (walk dev fuel fsData).1)
    (hfile : Event.isFile (.visit dir l path) = true) (hz : dir.extentLength = 0) :
    ∃ f s, fillHeaderTable dev fuel fsData table = .fail f s ∧ f ≠ .fuel := by
  have hU1 : table.entries.length < U32 := by
    unfold sizeofFilesystemEntry U32 at hU; unfold U32; omega
  have hrunEv := runEvents_fill (walk dev fuel fsData).1
    ⟨0, { table with numEntries := 0 }, []⟩
    ⟨rfl, Nat.zero_le _, fun i hi => absurd hi (Nat.not_lt_zero i)⟩ hU1
  cases hev : runEvents fillStep ⟨0, { table with numEntries := 0 }, []⟩
      (walk dev fuel fsData).1 with
  | ok s1 =>
    exfalso
    obtain ⟨_, _, _, _, hnz⟩ := hrunEv.1 s1 hev
    exact hnz _ (mem_fileEntries dir l path _ hmem hfile) hz
  | fail f s =>
    obtain ⟨_, _, hfu, _⟩ := hrunEv.2 f s hev
    refine ⟨f, s, ?_, hfu⟩
    unfold fillHeaderTable
    rw [fillHeaderTableEntry_eq_walk]
    simp only [runTrace, hev]

/-- C8. Zero-length rejection: when the walk of a volume reaches a file record
with extent length 0, `fillHeaderTable` does not return; the loop that stands
at such a record fails its assertion, after the stores and before the
increment of `numEntries`; and no entry that a stopped build has counted has
size 0. -/
theorem C8_zero_length_aborts (dev : CdDevice) (fuel : Nat) (fsData : FilesystemData)
    (table : FilesystemHeaderTable)
    (hU : table.entries.length * sizeofFilesystemEntry ≤ U32) :
    (∀ (dir : DirectoryRecord) (l : Int) (path : List (List Nat)),
      Event.visit dir l path ∈ (walk dev fuel fsData).1 →
      Event.isFile (.visit dir l path) = true → dir.extentLength = 0 →
      ∃ f s, fillHeaderTable dev fuel fsData table = .fail f s ∧ f ≠ .fuel)
    ∧ (∀ (dir : DirectoryRecord) (parentHash parentPrime len il flags : Nat) (name : List Nat)
        (st : FillState) (fuel1 : Nat),
      dir.length = some len → len ≠ 0 → dir.identifierLength = some il →
      dir.flags = some flags → DirectoryRecord.isDirectoryFlag flags = false →
      dir.identifier (if il > 2 then il - 2 else il) = some name →
      dir.extentLength = 0 → st.entry < st.headerTable.entries.length →
      fillHeaderTableEntryLoop dev (fuel1 + 1) dir parentHash parentPrime st
        = .fail .assertion
            ⟨st.entry,
              ⟨st.headerTable.numEntries,
                st.headerTable.entries.set st.entry
                  ⟨(generateHash (name.map charOfByte) parentHash parentPrime HASH_PRIME).1,
                    dir.extentLocation, 0⟩⟩,
              st.reads⟩)
    ∧ (∀ (f : Fault) (s : FillState), fillHeaderTable dev fuel fsData table = .fail f s →
      ∀ i e, i < s.headerTable.numEntries → s.headerTable.entries[i]? = some e →
        e.size ≠ 0) := by
  refine ⟨?_, ?_, ?_⟩
  · intro dir l path hmem hfile hz
    exact fillHeaderTable_zero dev fuel fsData table hU dir l path hmem hfile hz
  · intro dir parentHash parentPrime len il flags name st fuel1 hlen hl0 hil hfl hnd hid hz hroom
    rw [fillHeaderTableEntryLoop, hlen]
    simp only [hl0, if_false, hil, hfl, hnd, true_and, hid, Bool.false_eq_true, addFileEntry,
      hroom, if_true, hz]
  · intro f s h i e hi he
    obtain ⟨⟨hn, _, hsz⟩, _⟩ := fillHeaderTable_fail dev fuel fsData table f s hU h
    have := hsz i (by rw [← hn]; exact hi)
    simpa [List.getD_eq_getElem?_getD, he] using this

/-- C8 on a root sector whose only file record has extent length 0. -/
theorem C8_zero_length_aborts_witness :
    (∃ f s, fillHeaderTable (Test.disc []) 5 ⟨Test.zeroRoot, []⟩ ⟨0, [⟨0, 0, 0⟩]⟩ = .fail f s
      ∧ f ≠ .fuel)
    ∧ fillHeaderTableEntryLoop (Test.disc []) (4 + 1) ⟨⟨Test.zeroRoot, some []⟩, 68⟩ 0 HASH_PRIME
          ⟨0, ⟨0, [⟨0, 0, 0⟩]⟩, []⟩
        = .fail .assertion ⟨0, ⟨0, [⟨474344075, 20, 0⟩]⟩, []⟩
    ∧ ∀ i e, i < 0 → [(⟨474344075, 20, 0⟩ : FilesystemEntry)][i]? = some e → e.size ≠ 0 :=
  ⟨(C8_zero_length_aborts (Test.disc []) 5 ⟨Test.zeroRoot, []⟩ ⟨0, [⟨0, 0, 0⟩]⟩ (by decide)).1
      ⟨⟨Test.zeroRoot, some []⟩, 68⟩ 0 [] (by decide) (by decide) (by decide),
    (C8_zero_length_aborts (Test.disc []) 5 ⟨Test.zeroRoot, []⟩ ⟨0, [⟨0, 0, 0⟩]⟩ (by decide)).2.1
      ⟨⟨Test.zeroRoot, some []⟩, 68⟩ 0 HASH_PRIME 41 8 0 [48, 66, 46, 84, 88, 84] ⟨0, ⟨0, [⟨0, 0, 0⟩]⟩, []⟩ 4
      (by decide) (by decide) (by decide) (by decide) (by decide) (by decide) (by decide)
      (by decide),
    (C8_zero_length_aborts (Test.disc []) 5 ⟨Test.zeroRoot, []⟩ ⟨0, [⟨0, 0, 0⟩]⟩ (by decide)).2.2
      .assertion ⟨0, ⟨0, [⟨474344075, 20, 0⟩]⟩, []⟩ (by decide)⟩

end CdBlock

/-- C6 on the demo disc: the 17 bytes of `TEST_FILE.TXT` at block 20. -/
theorem CdBlock.C6_whole_file_read_witness :
    CdBlock.getFileContents Test.demoDisc 2 ⟨0, 20, 17⟩
      = .ok (0, ⟨[104, 101, 108, 108, 111, 32, 119, 111, 114, 108, 100, 32, 49, 50, 51, 52, 53],
          [170]⟩)
    ∧ ((CdBlock.extentBytes Test.demoDisc 20 ((17 + 2047) / 2048)).take 17).length = 17 :=
  CdBlock.C6_whole_file_read Test.demoDisc 2 ⟨0, 20, 17⟩
    (by
      intro i hi
      have hi1 : i < 1 := hi
      have hi0 : i = 0 := by omega
      subst hi0
      decide)
    (by decide)

/-- C10 on a one-entry index and a name that is not in it, and on a link that
reports length 0. -/
theorem C10_open_missing_aborts_witness :
    Filesystem.open (Test.platform (Test.disc [])) 1 ⟨.CDBLOCK, ⟨1, [⟨93623103, 20, 17⟩]⟩⟩
        [78, 79] .AUTO ⟨[], []⟩
      = .fail .assertion ⟨[], []⟩
    ∧ Filesystem.open (Test.platform (Test.disc [])) 1 ⟨.CDBLOCK, ⟨1, [⟨93623103, 20, 17⟩]⟩⟩
        [78, 79] .USB ⟨[0, 7], []⟩
      = .fail .assertion ⟨[7], []⟩ :=
  ⟨(C10_open_missing_aborts (Test.platform (Test.disc [])) 1
      ⟨.CDBLOCK, ⟨1, [⟨93623103, 20, 17⟩]⟩⟩ [78, 79] .AUTO ⟨[], []⟩).1
      (by decide) (by decide) (by decide) (by decide)
      (by
        intro i e hi he
        have hi1 : i < 1 := hi
        have hi0 : i = 0 := by omega
        subst hi0
        have he1 : e = ⟨93623103, 20, 17⟩ := (Option.some.inj he).symm
        subst he1
        decide),
    (C10_open_missing_aborts (Test.platform (Test.disc [])) 1
      ⟨.CDBLOCK, ⟨1, [⟨93623103, 20, 17⟩]⟩⟩ [78, 79] .USB ⟨[0, 7], []⟩).2
      (by decide) (by decide)⟩

/-! ## Operations on a handle -/

/-- C13. Seek semantics: on a handle of the block device or link variant,
`seek(SEEK_SET, n)` sets the cursor to `n`, `seek(SEEK_CUR, n)` to
`cursor + n` and `seek(SEEK_END, n)` to `length + n`, both modulo `2^32`; any
other origin leaves the handle as it is; and in every case the call returns
with backend, length and buffer unchanged. -/
theorem C13_seek_semantics (f : File) (origin n : Nat)
    (hb : f.backend = .CDBLOCK ∨ f.backend = .USB) :
    f.seek SEEK_SET n = .ok { f with seekPos := n }
    ∧ f.seek SEEK_CUR n = .ok { f with seekPos := (f.seekPos + n) % CdBlock.U32 }
    ∧ f.seek SEEK_END n = .ok { f with seekPos := (f.length + n) % CdBlock.U32 }
    ∧ (origin ≠ SEEK_SET → origin ≠ SEEK_CUR → origin ≠ SEEK_END → f.seek origin n = .ok f)
    ∧ ∃ g, f.seek origin n = .ok g ∧ g.backend = f.backend ∧ g.length = f.length
        ∧ g.ptr = f.ptr := by
  have hset : f.seek SEEK_SET n = .ok { f with seekPos := n } := by
    rcases hb with hb | hb <;> simp [File.seek, hb, SEEK_SET]
  have hcur : f.seek SEEK_CUR n = .ok { f with seekPos := (f.seekPos + n) % CdBlock.U32 } := by
    rcases hb with hb | hb <;> simp [File.seek, hb, SEEK_SET, SEEK_CUR]
  have hend : f.seek SEEK_END n = .ok { f with seekPos := (f.length + n) % CdBlock.U32 } := by
    rcases hb with hb | hb <;> simp [File.seek, hb, SEEK_SET, SEEK_CUR, SEEK_END]
  have hother : origin ≠ SEEK_SET → origin ≠ SEEK_CUR → origin ≠ SEEK_END →
      f.seek origin n = .ok f := by
    intro h0 h1 h2
    rcases hb with hb | hb <;> simp [File.seek, hb, h0, h1, h2]
  refine ⟨hset, hcur, hend, hother, ?_⟩
  by_cases h0 : origin = SEEK_SET
  · subst h0
    exact ⟨_, hset, rfl, rfl, rfl⟩
  · by_cases h1 : origin = SEEK_CUR
    · subst h1
      exact ⟨_, hcur, rfl, rfl, rfl⟩
    · by_cases h2 : origin = SEEK_END
      · subst h2
        exact ⟨_, hend, rfl, rfl, rfl⟩
      · exact ⟨_, hother h0 h1 h2, rfl, rfl, rfl⟩

/-- C13 on a handle of 17 bytes with the cursor at 4. -/
theorem C13_seek_semantics_witness :
    (⟨.CDBLOCK, 17, 4, some [1, 2, 3]⟩ : File).seek SEEK_SET 4294967295
        = .ok { (⟨.CDBLOCK, 17, 4, some [1, 2, 3]⟩ : File) with seekPos := 4294967295 }
    ∧ (⟨.CDBLOCK, 17, 4, some [1, 2, 3]⟩ : File).seek SEEK_CUR 4294967295
        = .ok { (⟨.CDBLOCK, 17, 4, some [1, 2, 3]⟩ : File) with
                seekPos := (4 + 4294967295) % CdBlock.U32 }
    ∧ (⟨.CDBLOCK, 17, 4, some [1, 2, 3]⟩ : File).seek SEEK_END 4294967295
        = .ok { (⟨.CDBLOCK, 17, 4, some [1, 2, 3]⟩ : File) with
                seekPos := (17 + 4294967295) % CdBlock.U32 }
    ∧ (7 ≠ SEEK_SET → 7 ≠ SEEK_CUR → 7 ≠ SEEK_END →
        (⟨.CDBLOCK, 17, 4, some [1, 2, 3]⟩ : File).seek 7 4294967295
          = .ok ⟨.CDBLOCK, 17, 4, some [1, 2, 3]⟩)
    ∧ ∃ g, (⟨.CDBLOCK, 17, 4, some [1, 2, 3]⟩ : File).seek 7 4294967295 = .ok g
        ∧ g.backend = .CDBLOCK ∧ g.length = 17 ∧ g.ptr = some [1, 2, 3] :=
  C13_seek_semantics ⟨.CDBLOCK, 17, 4, some [1, 2, 3]⟩ 7 4294967295 (Or.inl rfl)

/-- C14. Read advances the cursor: on a handle of the block device or link
variant whose buffer holds the bytes `cursor .. cursor + len`, `readData`
returns `len`, stores these bytes at the start of the destination, and leaves
the cursor at `cursor + len` modulo `2^32` with length and buffer unchanged;
`skipData(len)` leaves the same handle and stores nothing. -/
theorem C14_read_advances (f : File) (buffer dest : List Nat) (len : Nat)
    (hb : f.backend = .CDBLOCK ∨ f.backend = .USB) (hp : f.ptr = some buffer)
    (hin : f.seekPos + len ≤ buffer.length) (hd : len ≤ dest.length) :
    f.readData (some dest) len
        = .ok (len, (buffer.drop f.seekPos).take len ++ dest.drop len,
            { f with seekPos := (f.seekPos + len) % CdBlock.U32 })
    ∧ ((buffer.drop f.seekPos).take len).length = len
    ∧ ((buffer.drop f.seekPos).take len ++ dest.drop len).length = dest.length
    ∧ f.skipData len = .ok { f with seekPos := (f.seekPos + len) % CdBlock.U32 } := by
  have hbytes : f.bytesAt len = some ((buffer.drop f.seekPos).take len) := by
    simp [File.bytesAt, hp, hin]
  have hlen : ((buffer.drop f.seekPos).take len).length = len := by
    rw [List.length_take, List.length_drop]
    omega
  refine ⟨?_, hlen, ?_, ?_⟩
  · rcases hb with hb | hb <;> simp [File.readData, hb, hbytes, hd]
  · rw [List.length_append, hlen, List.length_drop]
    omega
  · rcases hb with hb | hb <;> simp [File.skipData, hb]

/-- C14 on a handle of five bytes with the cursor at 1, reading three. -/
theorem C14_read_advances_witness :
    (⟨.USB, 5, 1, some [10, 20, 30, 40, 50]⟩ : File).readData (some [0, 0, 0, 0]) 3
        = .ok (3, ([10, 20, 30, 40, 50].drop 1).take 3 ++ [0, 0, 0, 0].drop 3,
            { (⟨.USB, 5, 1, some [10, 20, 30, 40, 50]⟩ : File) with
              seekPos := (1 + 3) % CdBlock.U32 })
    ∧ (([10, 20, 30, 40, 50].drop 1).take 3).length = 3
    ∧ (([10, 20, 30, 40, 50].drop 1).take 3 ++ [0, 0, 0, 0].drop 3).length
        = [0, 0, 0, 0].length
    ∧ (⟨.USB, 5, 1, some [10, 20, 30, 40, 50]⟩ : File).skipData 3
        = .ok { (⟨.USB, 5, 1, some [10, 20, 30, 40, 50]⟩ : File) with
                seekPos := (1 + 3) % CdBlock.U32 } :=
  C14_read_advances ⟨.USB, 5, 1, some [10, 20, 30, 40, 50]⟩ [10, 20, 30, 40, 50] [0, 0, 0, 0] 3
    (Or.inr rfl) rfl (by decide) (by decide)

/-- C15. Close resets the handle: on a handle of the block device or link
variant, `close` returns with a null buffer, length 0 and cursor 0, passes to
`free` the buffer if there was one and nothing else, and a second `close`
changes nothing and frees nothing; the destructor is `close`. -/
theorem C15_close_resets (f : File) (hb : f.backend = .CDBLOCK ∨ f.backend = .USB) :
    ∃ g freed, f.close = .ok (g, freed)
      ∧ g.ptr = none ∧ g.length = 0 ∧ g.seekPos = 0 ∧ g.backend = f.backend
      ∧ freed = (match f.ptr with
          | some buffer => [buffer]
          | none => [])
      ∧ freed.length ≤ 1
      ∧ g.close = .ok (g, [])
      ∧ f.destroy = f.close := by
  rcases hb with hb | hb
  all_goals
    refine ⟨⟨f.backend, 0, 0, none⟩, _, by simp [File.close, hb], rfl, rfl, rfl, rfl, rfl, ?_,
      by simp [File.close, hb], rfl⟩
    cases f.ptr <;> simp

/-- C15 on an open handle of three bytes. -/
theorem C15_close_resets_witness :
    ∃ g freed, (⟨.CDBLOCK, 3, 2, some [7, 8, 9]⟩ : File).close = .ok (g, freed)
      ∧ g.ptr = none ∧ g.length = 0 ∧ g.seekPos = 0 ∧ g.backend = .CDBLOCK
      ∧ freed = (match (some [7, 8, 9] : Option (List Nat)) with
          | some buffer => [buffer]
          | none => [])
      ∧ freed.length ≤ 1
      ∧ g.close = .ok (g, [])
      ∧ (⟨.CDBLOCK, 3, 2, some [7, 8, 9]⟩ : File).destroy
          = (⟨.CDBLOCK, 3, 2, some [7, 8, 9]⟩ : File).close :=
  C15_close_resets ⟨.CDBLOCK, 3, 2, some [7, 8, 9]⟩ (Or.inl rfl)

/-- C16, where the code departs from it: the two assignment operators leave
the source zeroed, so that destroying both handles frees the buffer once; the
defaulted move constructor copies the members and leaves the source as it was,
so that destroying both handles frees the same buffer twice. -/
theorem C16_move_construct_keeps_source (this f : File) (length seekPos : Nat)
    (buffer : List Nat) :
    File.assignMove this f = (f, File.zeroed)
    ∧ File.assign this f = (f, File.zeroed)
    ∧ File.destroy (File.assignMove this ⟨.USB, length, seekPos, some buffer⟩).1
        = .ok (⟨.USB, 0, 0, none⟩, [buffer])
    ∧ File.destroy (File.assignMove this ⟨.USB, length, seekPos, some buffer⟩).2
        = .ok (File.zeroed, [])
    ∧ File.moveConstruct f = (f, f)
    ∧ File.destroy (File.moveConstruct ⟨.USB, length, seekPos, some buffer⟩).1
        = .ok (⟨.USB, 0, 0, none⟩, [buffer])
    ∧ File.destroy (File.moveConstruct ⟨.USB, length, seekPos, some buffer⟩).2
        = .ok (⟨.USB, 0, 0, none⟩, [buffer]) :=
  ⟨rfl, rfl, rfl, rfl, rfl, rfl, rfl⟩

/-- C17. Backend resolution: `open(name, AUTO)` is `open(name, defaultBackend)`;
`open(name, b)` for `b` other than `AUTO` constructs the handle with `b`,
whatever the default; when the resolved backend is `AUTO` the call fails its
assertion; and `readData`, `skipData`, `seek` and `close` on a handle tagged
`AUTO` fail their assertion. -/
theorem C17_backend_resolution {κ : Type} (p : Platform κ) (fuel : Nat) (fs : Filesystem)
    (filename : List Int) (host : HostState κ) :
    Filesystem.open p fuel fs filename .AUTO host
        = Filesystem.open p fuel fs filename fs.defaultBackend host
    ∧ (∀ (b d : FilesystemBackend), b ≠ .AUTO →
        Filesystem.open p fuel fs filename b host
          = File.new p fuel fs.cdHeaderTable filename b host
        ∧ Filesystem.open p fuel ⟨d, fs.cdHeaderTable⟩ filename b host
          = Filesystem.open p fuel fs filename b host)
    ∧ (∀ b : FilesystemBackend, (if b = .AUTO then fs.defaultBackend else b) = .AUTO →
        Filesystem.open p fuel fs filename b host = .fail .assertion host)
    ∧ (∀ (f : File) (dest : Option (List Nat)) (len origin n : Nat), f.backend = .AUTO →
        f.readData dest len = .fail .assertion f ∧ f.skipData len = .fail .assertion f
        ∧ f.seek origin n = .fail .assertion f ∧ f.close = .fail .assertion f) := by
  refine ⟨?_, ?_, ?_, ?_⟩
  · cases hd : fs.defaultBackend <;> simp [Filesystem.open, hd]
  · intro b d hb
    cases b with
    | AUTO => exact absurd rfl hb
    | CDBLOCK => exact ⟨by simp [Filesystem.open], by simp [Filesystem.open]⟩
    | USB => exact ⟨by simp [Filesystem.open], by simp [Filesystem.open]⟩
  · intro b hb
    simp only [Filesystem.open, hb]
  · intro f dest len origin n hb
    exact ⟨by simp [File.readData, hb], by simp [File.skipData, hb], by simp [File.seek, hb],
      by simp [File.close, hb]⟩

/-- C17 with the default left at `AUTO`, and on a handle tagged `AUTO`. -/
theorem C17_backend_resolution_witness :
    (Filesystem.open (Test.platform (Test.disc [])) 1 ⟨.AUTO, ⟨1, [⟨93623103, 20, 17⟩]⟩⟩
          [78, 79] .USB ⟨[0, 7], []⟩
        = File.new (Test.platform (Test.disc [])) 1 ⟨1, [⟨93623103, 20, 17⟩]⟩ [78, 79] .USB
            ⟨[0, 7], []⟩
      ∧ Filesystem.open (Test.platform (Test.disc [])) 1
          ⟨.CDBLOCK, ⟨1, [⟨93623103, 20, 17⟩]⟩⟩ [78, 79] .USB ⟨[0, 7], []⟩
        = Filesystem.open (Test.platform (Test.disc [])) 1 ⟨.AUTO, ⟨1, [⟨93623103, 20, 17⟩]⟩⟩
            [78, 79] .USB ⟨[0, 7], []⟩)
    ∧ Filesystem.open (Test.platform (Test.disc [])) 1 ⟨.AUTO, ⟨1, [⟨93623103, 20, 17⟩]⟩⟩
          [78, 79] .AUTO ⟨[0, 7], []⟩
        = .fail .assertion ⟨[0, 7], []⟩
    ∧ ((⟨.AUTO, 3, 0, some [1, 2, 3]⟩ : File).readData (some [0, 0]) 2
          = .fail .assertion ⟨.AUTO, 3, 0, some [1, 2, 3]⟩
      ∧ (⟨.AUTO, 3, 0, some [1, 2, 3]⟩ : File).skipData 2
          = .fail .assertion ⟨.AUTO, 3, 0, some [1, 2, 3]⟩
      ∧ (⟨.AUTO, 3, 0, some [1, 2, 3]⟩ : File).seek 0 2
          = .fail .assertion ⟨.AUTO, 3, 0, some [1, 2, 3]⟩
      ∧ (⟨.AUTO, 3, 0, some [1, 2, 3]⟩ : File).close
          = .fail .assertion ⟨.AUTO, 3, 0, some [1, 2, 3]⟩) :=
  ⟨(C17_backend_resolution (Test.platform (Test.disc [])) 1
        ⟨.AUTO, ⟨1, [⟨93623103, 20, 17⟩]⟩⟩ [78, 79] ⟨[0, 7], []⟩).2.1 .USB .CDBLOCK
      (by decide),
    (C17_backend_resolution (Test.platform (Test.disc [])) 1
        ⟨.AUTO, ⟨1, [⟨93623103, 20, 17⟩]⟩⟩ [78, 79] ⟨[0, 7], []⟩).2.2.1 .AUTO (by decide),
    (C17_backend_resolution (Test.platform (Test.disc [])) 1
        ⟨.AUTO, ⟨1, [⟨93623103, 20, 17⟩]⟩⟩ [78, 79] ⟨[0, 7], []⟩).2.2.2
      ⟨.AUTO, 3, 0, some [1, 2, 3]⟩ (some [0, 0]) 2 0 2 rfl⟩

/-! ## The size query -/

namespace CdBlock

/-- A table whose first `n` hashes ascend pairwise is sorted on `0..n-1`. -/
theorem sortedOn_of_pairwise (es : List FilesystemEntry) (n : Nat) (hlen : n ≤ es.length)
    (h : ((es.take n).map (·.filenameHash)).Pairwise (· ≤ ·)) :
    SortedOn es 0 ((n : Int) - 1) := by
  intro i j hi hij hj
  obtain ⟨a, rfl⟩ := Int.eq_ofNat_of_zero_le hi
  obtain ⟨b, rfl⟩ := Int.eq_ofNat_of_zero_le (le_trans hi hij)
  have hab : a ≤ b := by omega
  have hb : b < n := by omega
  rcases Nat.eq_or_lt_of_le hab with rfl | hlt
  · exact le_refl _
  · rw [List.pairwise_iff_getElem] at h
    have hl : ((es.take n).map (·.filenameHash)).length = n := by
      rw [List.length_map, List.length_take]
      omega
    have := h a b (by omega) (by omega) hlt
    simp only [List.getElem_map, List.getElem_take] at this
    simp only [hashAt, entAt, Int.toNat_ofNat]
    rw [List.getD_eq_getElem _ _ (by omega), List.getD_eq_getElem _ _ (by omega)]
    exact this

end CdBlock

/-- C11. The sentinel of `getFileSize`: with the block device as default, on
an index whose first `numEntries > 0` entries are sorted by hash, for every
hash `h`, `getFileSize(h)` returns the size of an entry of the index with hash
`h` when there is one, and `INVALID_FILE_SIZE` when there is none;
`getFileSize(name)` is `getFileSize(getFilenameHash(name))`. -/
theorem C11_getFileSize_sentinel {κ : Type} (p : Platform κ) (fuel : Nat) (fs : Filesystem)
    (h : Nat) (host : HostState κ)
    (hd : fs.defaultBackend = .CDBLOCK)
    (hpos : 0 < fs.cdHeaderTable.numEntries)
    (hlen : fs.cdHeaderTable.numEntries ≤ fs.cdHeaderTable.entries.length)
    (hsorted : ((fs.cdHeaderTable.entries.take fs.cdHeaderTable.numEntries).map
      (·.filenameHash)).Pairwise (· ≤ ·))
    (hfuel : fs.cdHeaderTable.numEntries ≤ fuel) :
    ((∃ e ∈ fs.cdHeaderTable.entries.take fs.cdHeaderTable.numEntries, e.filenameHash = h) →
      ∃ e ∈ fs.cdHeaderTable.entries.take fs.cdHeaderTable.numEntries,
        e.filenameHash = h ∧ Filesystem.getFileSize p fuel fs h host = .ok (e.size, host))
    ∧ ((∀ e ∈ fs.cdHeaderTable.entries.take fs.cdHeaderTable.numEntries, e.filenameHash ≠ h) →
      Filesystem.getFileSize p fuel fs h host = .ok (INVALID_FILE_SIZE, host))
    ∧ ∀ filename : List Int, Filesystem.getFileSizeOfName p fuel fs filename host
        = Filesystem.getFileSize p fuel fs (CdBlock.getFilenameHash filename) host := by
  refine ⟨?_, ?_, fun _ => rfl⟩
  · rintro ⟨e, he, heh⟩
    obtain ⟨j, hj⟩ := List.getElem?_of_mem he
    have hjlt : j < fs.cdHeaderTable.numEntries := by
      by_contra hcon
      rw [List.getElem?_eq_none (by rw [List.length_take]; omega)] at hj
      cases hj
    rw [List.getElem?_take_of_lt hjlt] at hj
    obtain ⟨i, e1, hget, hi, he1, hh⟩ :=
      CdBlock.getFileEntry_found fuel fs.cdHeaderTable h hlen hfuel
        (CdBlock.sortedOn_of_pairwise _ _ hlen hsorted)
        ⟨j, hjlt, by simp [List.getD_eq_getElem?_getD, hj, heh]⟩
    refine ⟨e1, ?_, hh, ?_⟩
    · apply List.getElem?_mem (n := i)
      rw [List.getElem?_take_of_lt hi]
      exact he1
    · simp only [Filesystem.getFileSize, hd, hget, he1]
  · intro habs
    have hnone := CdBlock.getFileEntry_absent fuel fs.cdHeaderTable h hpos hlen hfuel
      (fun i e hi he => habs e (by
        apply List.getElem?_mem (n := i)
        rw [List.getElem?_take_of_lt hi]
        exact he))
    simp only [Filesystem.getFileSize, hd, hnone]

/-- C11 on the index of the demo disc: the size of `TESTFILE.TXT` and of the
file in the folder, and the sentinel for a hash between the two. -/
theorem C11_getFileSize_sentinel_witness :
    ((∃ e ∈ [(⟨93623103, 20, 17⟩ : CdBlock.FilesystemEntry), ⟨158458433, 21, 9⟩].take 2,
        e.filenameHash = 158458433) →
      ∃ e ∈ [(⟨93623103, 20, 17⟩ : CdBlock.FilesystemEntry), ⟨158458433, 21, 9⟩].take 2,
        e.filenameHash = 158458433
        ∧ Filesystem.getFileSize (Test.platform Test.demoDisc) 2
            ⟨.CDBLOCK, ⟨2, [⟨93623103, 20, 17⟩, ⟨158458433, 21, 9⟩]⟩⟩ 158458433 ⟨[], []⟩
          = .ok (e.size, ⟨[], []⟩))
    ∧ ((∀ e ∈ [(⟨93623103, 20, 17⟩ : CdBlock.FilesystemEntry), ⟨158458433, 21, 9⟩].take 2,
        e.filenameHash ≠ 100000000) →
      Filesystem.getFileSize (Test.platform Test.demoDisc) 2
          ⟨.CDBLOCK, ⟨2, [⟨93623103, 20, 17⟩, ⟨158458433, 21, 9⟩]⟩⟩ 100000000 ⟨[], []⟩
        = .ok (INVALID_FILE_SIZE, ⟨[], []⟩)) :=
  ⟨(C11_getFileSize_sentinel (Test.platform Test.demoDisc) 2
      ⟨.CDBLOCK, ⟨2, [⟨93623103, 20, 17⟩, ⟨158458433, 21, 9⟩]⟩⟩ 158458433 ⟨[], []⟩ rfl
      (by decide) (by decide) (by decide) (by decide)).1,
    (C11_getFileSize_sentinel (Test.platform Test.demoDisc) 2
      ⟨.CDBLOCK, ⟨2, [⟨93623103, 20, 17⟩, ⟨158458433, 21, 9⟩]⟩⟩ 100000000 ⟨[], []⟩ rfl
      (by decide) (by decide) (by decide) (by decide)).2.1⟩

/-! ## The transfer over the link -/

/-- The payload loop writes past the buffer when the reported length exceeds
its size. -/
theorem usbReadPayload_overflow {κ : Type} (usb : UsbCart κ) (n i : Nat) (buffer : List Nat)
    (link : κ) (hi : i ≤ buffer.length) (h : buffer.length < i + n) :
    ∃ s, usbReadPayload usb n i buffer link = .fail .badWrite s := by
  induction n generalizing i buffer link with
  | zero => omega
  | succ n ih =>
    simp only [usbReadPayload]
    by_cases hlt : i < buffer.length
    · rw [if_pos hlt]
      exact ih (i + 1) _ _ (by rw [List.length_set]; omega) (by rw [List.length_set]; omega)
    · rw [if_neg hlt]
      exact ⟨_, rfl⟩

namespace CdBlock

/-- A failed first read ends `readFilesystem` with the status of the read, the
root sector not read. -/
theorem readFilesystem_read_fails (dev : CdDevice) (fuel : Nat) (fsData : FilesystemData)
    (h : (dev.cd_block_read_data (dev.LBA2FAD 16 % 256)).1 ≠ 0) :
    readFilesystem dev (fuel + 1) fsData
      = .ok ((dev.cd_block_read_data (dev.LBA2FAD 16 % 256)).1,
          ⟨fsData, [dev.LBA2FAD 16 % 256]⟩) := by
  simp only [readFilesystem, readFilesystemLoop]
  rw [if_pos h]
  rfl

end CdBlock

/-- After a failed read in `readFilesystem`, `Filesystem::initialize` goes on
with the root sector as it was: it returns whatever the sizing and the build
on the unread root sector give. -/
theorem initializeFilesystem_read_fails {κ : Type} (p : Platform κ)
    (hw : CdBlock.CdBlockStartup) (fuel : Nat) (fsData : CdBlock.FilesystemData)
    (hinit : CdBlock.initializeCdBlock hw = 0)
    (h : (p.dev.cd_block_read_data (p.dev.LBA2FAD 16 % 256)).1 ≠ 0) :
    Filesystem.initializeFilesystem p hw (fuel + 1) fsData
      = match CdBlock.getHeaderTableSize p.dev (fuel + 1) fsData with
        | .fail f _ => .fail f ()
        | .ok tableSize =>
          if p.malloc tableSize = false then .fail .assertion ()
          else match CdBlock.fillHeaderTable p.dev (fuel + 1) fsData
                ⟨0, List.replicate (tableSize / CdBlock.sizeofFilesystemEntry) ⟨0, 0, 0⟩⟩ with
            | .fail f _ => .fail f ()
            | .ok st => .ok (fsData, ⟨.CDBLOCK, st.headerTable⟩) := by
  simp only [Filesystem.initializeFilesystem, hinit, CdBlock.readFilesystem_read_fails _ _ _ h]
  rfl

/-- C12, where the code departs from it: on a drive whose read of the first
descriptor sector (frame 166) fails, `readFilesystem` returns the status -1
of the read with the root sector unread, and `Filesystem::initialize`, which
does not look at this status, sizes and builds the index from the unread root
sector and returns: with an empty index when that sector holds the zeros of
static storage (and `malloc(0)` gives a block), with an index of the one file
of that sector when it holds what an earlier initialisation read. -/
theorem C12_failed_read_goes_on :
    CdBlock.readFilesystem (Test.disc []) 6 ⟨[], []⟩ = .ok (-1, ⟨⟨[], []⟩, [166]⟩)
    ∧ CdBlock.initializeCdBlock Test.startup = 0
    ∧ CdBlock.getHeaderTableSize (Test.disc []) 6 ⟨[], []⟩ = .ok 0
    ∧ Filesystem.initializeFilesystem (Test.platform (Test.disc [])) Test.startup 6 ⟨[], []⟩
        = .ok (⟨[], []⟩, ⟨.CDBLOCK, ⟨0, []⟩⟩)
    ∧ CdBlock.readFilesystem (Test.disc []) 6 ⟨Test.firstSector, []⟩
        = .ok (-1, ⟨⟨Test.firstSector, []⟩, [166]⟩)
    ∧ CdBlock.getHeaderTableSize (Test.disc []) 6 ⟨Test.firstSector, []⟩ = .ok 12
    ∧ Filesystem.initializeFilesystem (Test.platform (Test.disc [])) Test.startup 6
          ⟨Test.firstSector, []⟩
        = .ok (⟨Test.firstSector, []⟩,
            ⟨.CDBLOCK, ⟨1, [⟨CdBlock.getFilenameHash [70, 49], 30, 5⟩]⟩⟩) := by
  decide

/-- C19, where the code departs from it: the level given for the records of a
directory is the number of the sector of the directory's extent that was just
read, plus one. On a disc with `A/B/F1` started at depth 0, the file `F1;1`,
two directories below the root, is visited with level 1; started at depth 5,
`B` and `F1;1` are visited with level 1; and on a disc whose directory `D`
takes two sectors, `F1;1` in the first is visited with level 1 and `F2;1` in
the second with level 2. -/
theorem C19_level_is_sector_number :
    CdBlock.navigateDirectory Test.nestedDisc 6 ⟨⟨Test.nestedRoot, some []⟩, 0⟩ 0 Test.recordLevels false
        ⟨[], []⟩
      = .ok ⟨[([65], 0), ([66], 1), ([70, 49, 59, 49], 1)], [169, 170]⟩
    ∧ CdBlock.navigateDirectory Test.nestedDisc 6 ⟨⟨Test.nestedRoot, some []⟩, 0⟩ 5 Test.recordLevels false
        ⟨[], []⟩
      = .ok ⟨[([65], 5), ([66], 1), ([70, 49, 59, 49], 1)], [169, 170]⟩
    ∧ CdBlock.navigateDirectory Test.wideDirDisc 6 ⟨⟨Test.wideDirRoot, some []⟩, 0⟩ 0 Test.recordLevels
        false ⟨[], []⟩
      = .ok ⟨[([68], 0), ([70, 49, 59, 49], 1), ([70, 50, 59, 49], 2)], [168, 169]⟩ := by
  refine ⟨?_, ?_, ?_⟩ <;> decide

/-- C20, where the code departs from it: on a disc whose root directory takes
the two sectors 18 and 19 (extent length 4096), `readFilesystem` reads the
descriptor and the first root sector only (frames 166 and 168), both walkers
then scan this one sector without a read, and the file `F2;1` of the second
sector is neither counted nor indexed; the same two sectors as the extent of a
directory `D` below the root are both read and both files are indexed. -/
theorem C20_root_first_sector_only :
    CdBlock.readFilesystem Test.wideRootDisc 6 ⟨[], []⟩
      = .ok (0, ⟨⟨Test.firstSector, []⟩, [166, 168]⟩)
    ∧ CdBlock.DirectoryRecord.extentLocation ⟨⟨Test.firstSector, some []⟩, 0⟩ = 18
    ∧ CdBlock.extraLevels (CdBlock.DirectoryRecord.extentLength ⟨⟨Test.firstSector, some []⟩, 0⟩) = 2
    ∧ (Test.wideRootDisc.cd_block_read_data (Test.wideRootDisc.LBA2FAD 19)).2
        = Test.secondSector
    ∧ CdBlock.navigateDirectory Test.wideRootDisc 6 ⟨⟨Test.firstSector, some []⟩, 0⟩ 0 Test.recordLevels
        false ⟨[], []⟩
      = .ok ⟨[([70, 49, 59, 49], 0)], []⟩
    ∧ CdBlock.getHeaderTableSize Test.wideRootDisc 6 ⟨Test.firstSector, []⟩ = .ok 12
    ∧ CdBlock.fillHeaderTable Test.wideRootDisc 6 ⟨Test.firstSector, []⟩ ⟨0, [⟨0, 0, 0⟩]⟩
      = .ok ⟨1, ⟨1, [⟨CdBlock.getFilenameHash [70, 49], 30, 5⟩]⟩, []⟩
    ∧ Filesystem.initializeFilesystem (Test.platform Test.wideRootDisc) Test.startup 6 ⟨[], []⟩
      = .ok (⟨Test.firstSector, []⟩, ⟨.CDBLOCK, ⟨1, [⟨CdBlock.getFilenameHash [70, 49], 30, 5⟩]⟩⟩)
    ∧ CdBlock.getFileEntry 1 ⟨1, [⟨CdBlock.getFilenameHash [70, 49], 30, 5⟩]⟩
        (CdBlock.getFilenameHash [70, 50]) = .ok none
    ∧ Filesystem.initializeFilesystem (Test.platform Test.wideDirDisc) Test.startup 6 ⟨[], []⟩
      = .ok (⟨Test.wideDirRoot, []⟩,
          ⟨.CDBLOCK, ⟨2, [⟨CdBlock.getFilenameHash [68, 47, 70, 49], 30, 5⟩,
            ⟨CdBlock.getFilenameHash [68, 47, 70, 50], 31, 7⟩]⟩⟩) := by
  decide

/-! ## The sort: what it moves and what it touches -/

namespace CdBlock

/-- A rearrangement on a range leaves the elements outside the range in place. -/
theorem RearrangedOn.getElem?_outside {es es1 : List FilesystemEntry} {left right : Int}
    (h : RearrangedOn es es1 left right) (i : Nat) (hi : (i : Int) < left ∨ right < (i : Int)) :
    es1[i]? = es[i]? := by
  obtain ⟨hlen, hout, _, _⟩ := h
  have h1 := hout (i : Int) (by omega) hi
  unfold entAt at h1
  simp only [Int.toNat_ofNat, List.getD_eq_getElem?_getD] at h1
  by_cases hb : i < es.length
  · have hb1 : i < es1.length := by omega
    rw [List.getElem?_eq_getElem hb, List.getElem?_eq_getElem hb1] at h1 ⊢
    simpa using h1
  · rw [List.getElem?_eq_none (by omega), List.getElem?_eq_none (by omega)]

/-- A rearrangement on a range inside the array permutes the elements of the range. -/
theorem RearrangedOn.slice_perm {es es1 : List FilesystemEntry} {a n : Nat}
    (h : RearrangedOn es es1 (a : Int) ((a : Int) + n - 1)) :
    ((es1.drop a).take n).Perm ((es.drop a).take n) := by
  have htake : es1.take a = es.take a := by
    apply List.ext_getElem?
    intro k
    rw [List.getElem?_take, List.getElem?_take]
    split
    · exact h.getElem?_outside k (Or.inl (by omega))
    · rfl
  have hdrop : es1.drop (a + n) = es.drop (a + n) := by
    apply List.ext_getElem?
    intro k
    rw [List.getElem?_drop, List.getElem?_drop]
    exact h.getElem?_outside (a + n + k) (Or.inr (by push_cast; omega))
  have hsplit : ∀ l : List FilesystemEntry,
      l = l.take a ++ ((l.drop a).take n ++ l.drop (a + n)) := by
    intro l
    have h1 : (l.drop a).take n ++ l.drop (a + n) = l.drop a := by
      rw [← List.drop_drop, List.take_append_drop]
    rw [h1, List.take_append_drop]
  have hperm : es1.Perm es := h.2.2.2
  rw [hsplit es1, hsplit es, htake, hdrop] at hperm
  exact (List.perm_append_right_iff _).mp ((List.perm_append_left_iff _).mp hperm)

end CdBlock

/-- C25. The sort is a permutation: for every array and every range
`left..right` inside it, `quickSort` returns (given fuel for the size of the
range) an array of the same length in which the entries at `left..right`, each
with its own `lba` and `size`, are a permutation of those that were there, and
the entries outside the range are where they were. -/
theorem C25_sort_permutation (fuel : Nat) (es : List CdBlock.FilesystemEntry) (left right : Int)
    (hleft : 0 ≤ left) (hlr : left ≤ right) (hright : right < es.length)
    (hfuel : 2 * (right - left + 1).toNat + 4 ≤ fuel) :
    ∃ es1, CdBlock.quickSort fuel es left right = .ok es1
      ∧ es1.length = es.length
      ∧ ((es1.drop left.toNat).take (right - left + 1).toNat).Perm
          ((es.drop left.toNat).take (right - left + 1).toNat)
      ∧ ∀ i : Nat, ((i : Int) < left ∨ right < (i : Int)) → es1[i]? = es[i]? := by
  obtain ⟨es1, hq, hre, _⟩ := CdBlock.quickSort_spec fuel es left right hleft hright hfuel
  refine ⟨es1, hq, hre.1, ?_, fun i hi => hre.getElem?_outside i hi⟩
  apply CdBlock.RearrangedOn.slice_perm
  have h1 : ((left.toNat : Nat) : Int) = left := Int.toNat_of_nonneg hleft
  have h2 : left + ((right - left + 1).toNat : Nat) - 1 = right := by
    omega
  rw [h1, h2]
  exact hre

/-- C25 on an array of five entries, two of them with the same hash, sorted on
the range `1..3`. -/
theorem C25_sort_permutation_witness :
    ∃ es1, CdBlock.quickSort 20 [⟨5, 20, 1⟩, ⟨3, 21, 2⟩, ⟨9, 22, 3⟩, ⟨3, 23, 4⟩, ⟨1, 24, 5⟩] 1 3
        = .ok es1
      ∧ es1.length
          = [(⟨5, 20, 1⟩ : CdBlock.FilesystemEntry), ⟨3, 21, 2⟩, ⟨9, 22, 3⟩, ⟨3, 23, 4⟩,
              ⟨1, 24, 5⟩].length
      ∧ ((es1.drop (1 : Int).toNat).take ((3 : Int) - 1 + 1).toNat).Perm
          (([(⟨5, 20, 1⟩ : CdBlock.FilesystemEntry), ⟨3, 21, 2⟩, ⟨9, 22, 3⟩, ⟨3, 23, 4⟩,
              ⟨1, 24, 5⟩].drop (1 : Int).toNat).take ((3 : Int) - 1 + 1).toNat)
      ∧ ∀ i : Nat, ((i : Int) < 1 ∨ 3 < (i : Int)) →
          es1[i]? = [(⟨5, 20, 1⟩ : CdBlock.FilesystemEntry), ⟨3, 21, 2⟩, ⟨9, 22, 3⟩,
            ⟨3, 23, 4⟩, ⟨1, 24, 5⟩][i]? :=
  C25_sort_permutation 20 [⟨5, 20, 1⟩, ⟨3, 21, 2⟩, ⟨9, 22, 3⟩, ⟨3, 23, 4⟩, ⟨1, 24, 5⟩] 1 3
    (by decide) (by decide) (by decide) (by decide)

/-! ## The accesses of the sort -/

namespace CdBlock

/-- The left scan with its accesses: they are the indices after `l` up to the result. -/
theorem scanLeftAcc_of (es : List FilesystemEntry) (pivot : FilesystemEntry) :
    ∀ (fuel : Nat) (l l1 : Int), scanLeft es pivot fuel l = .ok l1 →
      ∃ acc, scanLeftAcc es pivot fuel l = .ok (l1, acc) ∧ l < l1
        ∧ ∀ i ∈ acc, l < i ∧ i ≤ l1 := by
  intro fuel
  induction fuel with
  | zero => intro l l1 h; cases h
  | succ fuel ih =>
    intro l l1 h
    rw [scanLeft] at h
    rw [scanLeftAcc]
    cases hr : readAt es (l + 1) with
    | none => rw [hr] at h; cases h
    | some e =>
      rw [hr] at h
      simp only at h ⊢
      by_cases hlt : e.filenameHash < pivot.filenameHash
      · rw [if_pos hlt] at h
        rw [if_pos hlt]
        obtain ⟨acc, hacc, hl, hb⟩ := ih (l + 1) l1 h
        rw [hacc]
        refine ⟨(l + 1) :: acc, rfl, by omega, ?_⟩
        intro i hi
        rcases List.mem_cons.mp hi with rfl | hi
        · omega
        · have := hb i hi
          omega
      · rw [if_neg hlt] at h
        rw [if_neg hlt]
        cases h
        refine ⟨[l + 1], rfl, by omega, ?_⟩
        intro i hi
        rw [List.mem_singleton] at hi
        omega

/-- The right scan with its accesses: they are the indices before `r` down to the result. -/
theorem scanRightAcc_of (es : List FilesystemEntry) (pivot : FilesystemEntry) :
    ∀ (fuel : Nat) (r r1 : Int), scanRight es pivot fuel r = .ok r1 →
      ∃ acc, scanRightAcc es pivot fuel r = .ok (r1, acc) ∧ r1 < r
        ∧ ∀ i ∈ acc, r1 ≤ i ∧ i < r := by
  intro fuel
  induction fuel with
  | zero => intro r r1 h; cases h
  | succ fuel ih =>
    intro r r1 h
    rw [scanRight] at h
    rw [scanRightAcc]
    cases hr : readAt es (r - 1) with
    | none => rw [hr] at h; cases h
    | some e =>
      rw [hr] at h
      simp only at h ⊢
      by_cases hgt : e.filenameHash > pivot.filenameHash
      · rw [if_pos hgt] at h
        rw [if_pos hgt]
        obtain ⟨acc, hacc, hl, hb⟩ := ih (r - 1) r1 h
        rw [hacc]
        refine ⟨(r - 1) :: acc, rfl, by omega, ?_⟩
        intro i hi
        rcases List.mem_cons.mp hi with rfl | hi
        · omega
        · have := hb i hi
          omega
      · rw [if_neg hgt] at h
        rw [if_neg hgt]
        cases h
        refine ⟨[r - 1], rfl, by omega, ?_⟩
        intro i hi
        rw [List.mem_singleton] at hi
        omega

/-- The loop of the partition with its accesses: from a state that satisfies
the invariant of Hoare's scheme it returns what `partitionLoop` returns, and
every index it reads or writes lies in `left..right`. -/
theorem partitionLoopAcc_spec (pivot : FilesystemEntry) (left right : Int) (hleft : 0 ≤ left) :
    ∀ (fuel : Nat) (es : List FilesystemEntry) (l r : Int),
      right < es.length → left - 1 ≤ l → r ≤ right + 1 →
      (∀ i, left ≤ i → i ≤ l → hashAt es i ≤ pivot.filenameHash) →
      (∀ i, r ≤ i → i ≤ right → pivot.filenameHash ≤ hashAt es i) →
      (∃ k, l < k ∧ k ≤ right ∧ pivot.filenameHash ≤ hashAt es k ∧ (r ≤ right ∨ k < right)) →
      (∃ k, left ≤ k ∧ k < r ∧ hashAt es k ≤ pivot.filenameHash) →
      (r - l).toNat + (right - left + 2).toNat ≤ fuel →
      ∃ es1 p acc, partitionLoopAcc pivot fuel es l r = .ok (es1, p, acc)
        ∧ partitionLoop pivot fuel es l r = .ok (es1, p)
        ∧ ∀ i ∈ acc, left ≤ i ∧ i ≤ right := by
  intro fuel
  induction fuel with
  | zero => intro es l r _ _ _ _ _ _ _ h; omega
  | succ fuel ih =>
    intro es l r hright hl hr hB hC hD hE hfuel
    obtain ⟨kd, hd1, hd2, hd3, hd4⟩ := hD
    obtain ⟨ke, he1, he2, he3⟩ := hE
    obtain ⟨l1, hsl, hl1, hl2, hl3, hl4⟩ :=
      scanLeft_spec es pivot fuel l kd (by omega) hd1 (by omega) hd3 (by omega)
    obtain ⟨r1, hsr, hr1, hr2, hr3, hr4⟩ :=
      scanRight_spec es pivot fuel r ke (by omega) he2 (by omega) he3 (by omega)
    obtain ⟨accL, hal, _, hbl⟩ := scanLeftAcc_of es pivot fuel l l1 hsl
    obtain ⟨accR, har, _, hbr⟩ := scanRightAcc_of es pivot fuel r r1 hsr
    have hinL : ∀ i ∈ accL, left ≤ i ∧ i ≤ right := by
      intro i hi
      have := hbl i hi
      omega
    have hinR : ∀ i ∈ accR, left ≤ i ∧ i ≤ right := by
      intro i hi
      have := hbr i hi
      omega
    rw [partitionLoopAcc, partitionLoop, hal, hsl]
    simp only [har, hsr]
    by_cases hge : l1 ≥ r1
    · simp only [hge, if_true]
      refine ⟨es, r1, accL ++ accR, rfl, rfl, ?_⟩
      intro i hi
      rcases List.mem_append.mp hi with hi | hi
      · exact hinL i hi
      · exact hinR i hi
    · simp only [hge, if_false]
      have hlr : l1 < r1 := by omega
      rw [readAt_eq es r1 (by omega) (by omega), readAt_eq es l1 (by omega) (by omega)]
      simp only
      have hsw : ∀ i : Int, 0 ≤ i →
          entAt ((es.set r1.toNat (entAt es l1)).set l1.toNat (entAt es r1)) i
            = if i = l1 then entAt es r1 else if i = r1 then entAt es l1 else entAt es i :=
        fun i hi => entAt_swap es l1 r1 i (by omega) (by omega) hi (by omega) (by omega)
          (by omega)
      have hsh : ∀ i : Int, 0 ≤ i →
          hashAt ((es.set r1.toNat (entAt es l1)).set l1.toNat (entAt es r1)) i
            = if i = l1 then hashAt es r1 else if i = r1 then hashAt es l1 else hashAt es i := by
        intro i hi
        unfold hashAt
        rw [hsw i hi]
        split_ifs <;> rfl
      obtain ⟨es1, p, acc, hp, hq, hb⟩ :=
        ih ((es.set r1.toNat (entAt es l1)).set l1.toNat (entAt es r1)) l1 r1
          (by rw [List.length_set, List.length_set]; exact hright) (by omega) (by omega)
          (by
            intro i hi1 hi2
            rw [hsh i (by omega)]
            by_cases h1 : i = l1
            · rw [if_pos h1]; exact hr4
            · have h2 : ¬ i = r1 := by omega
              rw [if_neg h1, if_neg h2]
              by_cases hil : i ≤ l
              · exact hB i hi1 hil
              · exact Nat.le_of_lt (hl3 i (by omega) (by omega)))
          (by
            intro i hi1 hi2
            rw [hsh i (by omega)]
            have h1 : ¬ i = l1 := by omega
            by_cases h2 : i = r1
            · rw [if_neg h1, if_pos h2]; exact hl4
            · rw [if_neg h1, if_neg h2]
              by_cases hir : r ≤ i
              · exact hC i hir hi2
              · exact Nat.le_of_lt (hr3 i (by omega) (by omega)))
          ⟨r1, hlr, by omega, by
            rw [hsh r1 (by omega)]
            have h1 : ¬ r1 = l1 := by omega
            rw [if_neg h1, if_pos rfl]; exact hl4, Or.inl (by omega)⟩
          ⟨l1, by omega, hlr, by
            rw [hsh l1 (by omega), if_pos rfl]; exact hr4⟩
          (by omega)
      rw [hp, hq]
      refine ⟨es1, p, accL ++ accR ++ [r1, l1, r1, l1] ++ acc, rfl, rfl, ?_⟩
      intro i hi
      rcases List.mem_append.mp hi with hi | hi
      · rcases List.mem_append.mp hi with hi | hi
        · rcases List.mem_append.mp hi with hi | hi
          · exact hinL i hi
          · exact hinR i hi
        · simp only [List.mem_cons, List.mem_singleton, List.not_mem_nil, or_false] at hi
          omega
      · exact hb i hi

/-- With fuel for the length of the range, `quickSort` with its accesses
returns what `quickSort` returns, and every index it reads or writes lies in
`left..right`. -/
theorem quickSortAcc_spec :
    ∀ (fuel : Nat) (es : List FilesystemEntry) (left right : Int),
      0 ≤ left → right < es.length → 2 * (right - left + 1).toNat + 4 ≤ fuel →
      ∃ es1 acc, quickSortAcc fuel es left right = .ok (es1, acc)
        ∧ quickSort fuel es left right = .ok es1
        ∧ ∀ i ∈ acc, left ≤ i ∧ i ≤ right := by
  intro fuel
  induction fuel with
  | zero => intro es left right _ _ h; omega
  | succ fuel ih =>
    intro es left right hleft hright hfuel
    rw [quickSortAcc, quickSort]
    by_cases hle : right ≤ left
    · simp only [hle, if_true]
      exact ⟨es, [], rfl, rfl, fun i hi => absurd hi (List.not_mem_nil i)⟩
    · simp only [hle, if_false]
      have hdiv : (right - left).tdiv 2 = (right - left) / 2 :=
        Int.tdiv_eq_ediv (by omega) (by omega)
      rw [hdiv]
      have hp0 : left ≤ left + (right - left) / 2 := by omega
      have hp1 : left + (right - left) / 2 < right := by omega
      rw [readAt_eq es _ (by omega) (by omega)]
      simp only
      obtain ⟨es1, p, hpart, hpl, hpr, hre1, _, _⟩ :=
        partitionLoop_spec (entAt es (left + (right - left) / 2)) left right hleft fuel es
          (left - 1) (right + 1) hright (by omega) (by omega)
          (by intro i h1 h2; omega) (by intro i h1 h2; omega)
          ⟨left + (right - left) / 2, by omega, by omega, Nat.le_refl _, Or.inr hp1⟩
          ⟨left + (right - left) / 2, hp0, by omega, Nat.le_refl _⟩ (by omega)
      obtain ⟨es1', p', acc, hpartA, hpart', hb⟩ :=
        partitionLoopAcc_spec (entAt es (left + (right - left) / 2)) left right hleft fuel es
          (left - 1) (right + 1) hright (by omega) (by omega)
          (by intro i h1 h2; omega) (by intro i h1 h2; omega)
          ⟨left + (right - left) / 2, by omega, by omega, Nat.le_refl _, Or.inr hp1⟩
          ⟨left + (right - left) / 2, hp0, by omega, Nat.le_refl _⟩ (by omega)
      rw [hpart] at hpart'
      simp only [Outcome.ok.injEq, Prod.mk.injEq] at hpart'
      obtain ⟨rfl, rfl⟩ := hpart'
      rw [hpartA, hpart]
      simp only
      have hlen1 : es1.length = es.length := hre1.1
      obtain ⟨es2, acc1, hqA2, hq2, hb2⟩ := ih es1 left p hleft (by omega) (by omega)
      obtain ⟨es2', hq2', hre2, _⟩ :=
        quickSort_spec fuel es1 left p hleft (by omega) (by omega)
      rw [hq2] at hq2'
      simp only [Outcome.ok.injEq] at hq2'
      subst hq2'
      rw [hqA2, hq2]
      simp only
      have hlen2 : es2.length = es1.length := hre2.1
      obtain ⟨es3, acc2, hqA3, hq3, hb3⟩ :=
        ih es2 (p + 1) right (by omega) (by omega) (by omega)
      rw [hqA3, hq3]
      refine ⟨es3, _, rfl, rfl, ?_⟩
      intro i hi
      rcases List.mem_cons.mp hi with rfl | hi
      · omega
      · rcases List.mem_append.mp hi with hi | hi
        · rcases List.mem_append.mp hi with hi | hi
          · exact hb i hi
          · have := hb2 i hi
            omega
        · have := hb3 i hi
          omega

end CdBlock

/-- C26. The sort stays in bounds and terminates: for every array, duplicated
hashes included, and every range `left..right` inside it, `quickSort` returns
(the recursion ends within a fuel of twice the size of the range plus four),
every element it reads or writes has its index in `left..right`, and when the
range has more than one element the split index of the partition, on which it
recurses with `left..split` and `split+1..right`, satisfies
`left ≤ split < right`. -/
theorem C26_sort_in_bounds (fuel : Nat) (es : List CdBlock.FilesystemEntry) (left right : Int)
    (hleft : 0 ≤ left) (hright : right < es.length)
    (hfuel : 2 * (right - left + 1).toNat + 4 ≤ fuel) :
    ∃ es1 acc, CdBlock.quickSortAcc fuel es left right = .ok (es1, acc)
      ∧ CdBlock.quickSort fuel es left right = .ok es1
      ∧ (∀ i ∈ acc, left ≤ i ∧ i ≤ right)
      ∧ (left < right →
          ∃ es2 split acc2,
            CdBlock.partitionLoopAcc (CdBlock.entAt es (left + (right - left) / 2)) (fuel - 1)
                es (left - 1) (right + 1) = .ok (es2, split, acc2)
            ∧ left ≤ split ∧ split < right
            ∧ CdBlock.quickSort fuel es left right
              = match CdBlock.quickSort (fuel - 1) es2 left split with
                | .fail f s => .fail f s
                | .ok es3 => CdBlock.quickSort (fuel - 1) es3 (split + 1) right) := by
  obtain ⟨es1, acc, hA, hq, hb⟩ := CdBlock.quickSortAcc_spec fuel es left right hleft hright hfuel
  refine ⟨es1, acc, hA, hq, hb, ?_⟩
  intro hlt
  obtain ⟨n, rfl⟩ : ∃ n, fuel = n + 1 := ⟨fuel - 1, by omega⟩
  have hp0 : left ≤ left + (right - left) / 2 := by omega
  have hp1 : left + (right - left) / 2 < right := by omega
  obtain ⟨es2, p, hpart, hpl, hpr, _, _, _⟩ :=
    CdBlock.partitionLoop_spec (CdBlock.entAt es (left + (right - left) / 2)) left right hleft n
      es (left - 1) (right + 1) hright (by omega) (by omega)
      (by intro i h1 h2; omega) (by intro i h1 h2; omega)
      ⟨left + (right - left) / 2, by omega, by omega, Nat.le_refl _, Or.inr hp1⟩
      ⟨left + (right - left) / 2, hp0, by omega, Nat.le_refl _⟩ (by omega)
  obtain ⟨es2', p', acc2, hpartA, hpart', _⟩ :=
    CdBlock.partitionLoopAcc_spec (CdBlock.entAt es (left + (right - left) / 2)) left right hleft
      n es (left - 1) (right + 1) hright (by omega) (by omega)
      (by intro i h1 h2; omega) (by intro i h1 h2; omega)
      ⟨left + (right - left) / 2, by omega, by omega, Nat.le_refl _, Or.inr hp1⟩
      ⟨left + (right - left) / 2, hp0, by omega, Nat.le_refl _⟩ (by omega)
  rw [hpart] at hpart'
  simp only [CdBlock.Outcome.ok.injEq, Prod.mk.injEq] at hpart'
  obtain ⟨rfl, rfl⟩ := hpart'
  refine ⟨es2, p, acc2, hpartA, hpl, hpr, ?_⟩
  have hdiv : (right - left).tdiv 2 = (right - left) / 2 :=
    Int.tdiv_eq_ediv (by omega) (by omega)
  have hle : ¬ right ≤ left := by omega
  simp only [Nat.add_sub_cancel]
  rw [CdBlock.quickSort]
  simp only [hle, if_false]
  rw [hdiv, CdBlock.readAt_eq es _ (by omega) (by omega)]
  simp only [hpart]

/-- C26 on an array of five entries, two of them with the same hash, sorted on
the range `1..3`. -/
theorem C26_sort_in_bounds_witness :
    ∃ es1 acc,
      CdBlock.quickSortAcc 20 [⟨5, 20, 1⟩, ⟨3, 21, 2⟩, ⟨9, 22, 3⟩, ⟨3, 23, 4⟩, ⟨1, 24, 5⟩] 1 3
        = .ok (es1, acc)
      ∧ CdBlock.quickSort 20 [⟨5, 20, 1⟩, ⟨3, 21, 2⟩, ⟨9, 22, 3⟩, ⟨3, 23, 4⟩, ⟨1, 24, 5⟩] 1 3
        = .ok es1
      ∧ (∀ i ∈ acc, (1 : Int) ≤ i ∧ i ≤ 3)
      ∧ ((1 : Int) < 3 →
          ∃ es2 split acc2,
            CdBlock.partitionLoopAcc
                (CdBlock.entAt [⟨5, 20, 1⟩, ⟨3, 21, 2⟩, ⟨9, 22, 3⟩, ⟨3, 23, 4⟩, ⟨1, 24, 5⟩]
                  (1 + (3 - 1) / 2))
                (20 - 1) [⟨5, 20, 1⟩, ⟨3, 21, 2⟩, ⟨9, 22, 3⟩, ⟨3, 23, 4⟩, ⟨1, 24, 5⟩] (1 - 1)
                (3 + 1) = .ok (es2, split, acc2)
            ∧ 1 ≤ split ∧ split < 3
            ∧ CdBlock.quickSort 20 [⟨5, 20, 1⟩, ⟨3, 21, 2⟩, ⟨9, 22, 3⟩, ⟨3, 23, 4⟩, ⟨1, 24, 5⟩]
                1 3
              = match CdBlock.quickSort (20 - 1) es2 1 split with
                | .fail f s => .fail f s
                | .ok es3 => CdBlock.quickSort (20 - 1) es3 (split + 1) 3) :=
  C26_sort_in_bounds 20 [⟨5, 20, 1⟩, ⟨3, 21, 2⟩, ⟨9, 22, 3⟩, ⟨3, 23, 4⟩, ⟨1, 24, 5⟩] 1 3
    (by decide) (by decide) (by decide)

/-- C23. The sort over an empty index is a no-op: when the walk of
`fillHeaderTable` returns with `numEntries` 0, the right bound
`numEntries - 1`, computed in `uint32_t` and passed as `int32_t`, is -1,
`quickSort(entries, 0, -1)` returns the array as it is without an access to
an element, and `fillHeaderTable` returns the state the walk left, with
`numEntries` 0. -/
theorem C23_empty_sort_noop (dev : CdBlock.CdDevice) (fuel : Nat)
    (fsData : CdBlock.FilesystemData) (headerTable : CdBlock.FilesystemHeaderTable)
    (st : CdBlock.FillState) (hfuel : 0 < fuel)
    (hwalk : CdBlock.fillHeaderTableEntry dev fuel fsData.root 0 CdBlock.HASH_PRIME false
      ⟨0, { headerTable with numEntries := 0 }, []⟩ = .ok st)
    (hzero : st.headerTable.numEntries = 0) :
    CdBlock.toInt32 ((st.headerTable.numEntries + CdBlock.U32 - 1) % CdBlock.U32) = -1
    ∧ CdBlock.quickSortAcc fuel st.headerTable.entries 0
        (CdBlock.toInt32 ((st.headerTable.numEntries + CdBlock.U32 - 1) % CdBlock.U32))
      = .ok (st.headerTable.entries, [])
    ∧ CdBlock.quickSort fuel st.headerTable.entries 0
        (CdBlock.toInt32 ((st.headerTable.numEntries + CdBlock.U32 - 1) % CdBlock.U32))
      = .ok st.headerTable.entries
    ∧ CdBlock.fillHeaderTable dev fuel fsData headerTable = .ok st
    ∧ st.headerTable.numEntries = 0 := by
  have hb : CdBlock.toInt32 ((st.headerTable.numEntries + CdBlock.U32 - 1) % CdBlock.U32) = -1 := by
    rw [hzero]
    exact CdBlock.toInt32_pred 0 (by omega)
  have hle : (-1 : Int) ≤ 0 := by omega
  have hacc : ∀ n, 0 < n → CdBlock.quickSortAcc n st.headerTable.entries 0 (-1)
      = .ok (st.headerTable.entries, []) := by
    intro n hn
    cases n with
    | zero => omega
    | succ n => rw [CdBlock.quickSortAcc, if_pos hle]
  have hq : ∀ n, 0 < n → CdBlock.quickSort n st.headerTable.entries 0 (-1)
      = .ok st.headerTable.entries := by
    intro n hn
    cases n with
    | zero => omega
    | succ n => rw [CdBlock.quickSort, if_pos hle]
  refine ⟨hb, ?_, ?_, ?_, hzero⟩
  · rw [hb]
    exact hacc fuel hfuel
  · rw [hb]
    exact hq fuel hfuel
  · unfold CdBlock.fillHeaderTable
    rw [hwalk]
    simp only [hb, hq fuel hfuel]

/-- C23 on a volume whose root holds its two leading records only, with an
allocation of no entry. -/
theorem C23_empty_sort_noop_witness :
    CdBlock.toInt32 ((0 + CdBlock.U32 - 1) % CdBlock.U32) = -1
    ∧ CdBlock.quickSortAcc 1 [] 0 (CdBlock.toInt32 ((0 + CdBlock.U32 - 1) % CdBlock.U32))
      = .ok ([], [])
    ∧ CdBlock.quickSort 1 [] 0 (CdBlock.toInt32 ((0 + CdBlock.U32 - 1) % CdBlock.U32))
      = .ok []
    ∧ CdBlock.fillHeaderTable (Test.disc []) 1 ⟨Test.emptyRoot, []⟩ ⟨7, []⟩
      = .ok ⟨0, ⟨0, []⟩, []⟩
    ∧ (0 : Nat) = 0 :=
  C23_empty_sort_noop (Test.disc []) 1 ⟨Test.emptyRoot, []⟩ ⟨7, []⟩ ⟨0, ⟨0, []⟩, []⟩ (by decide)
    (by decide) rfl

/-! ## The scan of the sectors of a directory -/

namespace CdBlock

theorem Trace.andThen_none (t k : Trace) (h : (t.andThen k).2 = none) :
    t.2 = none ∧ k.2 = none ∧ (t.andThen k).1 = t.1 ++ k.1 := by
  unfold Trace.andThen at h ⊢
  cases ht : t.2 with
  | none =>
    rw [ht] at h
    exact ⟨rfl, h, rfl⟩
  | some f =>
    rw [ht] at h
    cases h

theorem Trace.mem_andThen (t k : Trace) (e : Event) (h : e ∈ (t.andThen k).1) :
    e ∈ t.1 ∨ e ∈ k.1 := by
  unfold Trace.andThen at h
  cases ht : t.2 with
  | none =>
    rw [ht] at h
    exact List.mem_append.mp h
  | some f =>
    rw [ht] at h
    exact Or.inl h

theorem walkLevels_succ (n : Nat) (body : Nat → Trace) :
    walkLevels (n + 1) body = (walkLevels n body).andThen (body n) := by
  unfold walkLevels
  rw [List.range_succ, List.foldl_append]
  rfl

/-- A sector loop that ends without fault is the sequence of its bodies, none
of which ends in a fault. -/
theorem walkLevels_none (body : Nat → Trace) :
    ∀ n, (walkLevels n body).2 = none →
      (∀ lvl, lvl < n → (body lvl).2 = none)
        ∧ (walkLevels n body).1 = (List.range n).flatMap (fun lvl => (body lvl).1) := by
  intro n
  induction n with
  | zero =>
    intro _
    exact ⟨fun lvl h => absurd h (Nat.not_lt_zero lvl), rfl⟩
  | succ n ih =>
    intro h
    rw [walkLevels_succ] at h ⊢
    obtain ⟨h1, h2, h3⟩ := Trace.andThen_none _ _ h
    obtain ⟨ih1, ih2⟩ := ih h1
    refine ⟨?_, ?_⟩
    · intro lvl hl
      by_cases hn : lvl = n
      · rw [hn]; exact h2
      · exact ih1 lvl (by omega)
    · rw [h3, ih2, List.range_succ, List.flatMap_append, List.flatMap_singleton]

theorem mem_walkLevels (body : Nat → Trace) (e : Event) :
    ∀ n, e ∈ (walkLevels n body).1 → ∃ lvl, lvl < n ∧ e ∈ (body lvl).1 := by
  intro n
  induction n with
  | zero =>
    intro h
    exact absurd h (List.not_mem_nil e)
  | succ n ih =>
    intro h
    rw [walkLevels_succ] at h
    rcases Trace.mem_andThen _ _ e h with h | h
    · obtain ⟨lvl, hl, hm⟩ := ih h
      exact ⟨lvl, by omega, hm⟩
    · exact ⟨n, by omega, h⟩

theorem mem_walkEntry (loop : DirectoryRecord → Int → Trace) (record : DirectoryRecord)
    (level : Int) (c : Bool) (e : Event) (h : e ∈ (walkEntry loop record level c).1) :
    ∃ r, e ∈ (loop r level).1 := by
  unfold walkEntry at h
  cases hl : record.length with
  | none => rw [hl] at h; exact absurd h (List.not_mem_nil e)
  | some len =>
    rw [hl] at h
    simp only at h
    by_cases h0 : len = 0
    · rw [if_pos h0] at h; exact absurd h (List.not_mem_nil e)
    · rw [if_neg h0] at h
      cases c with
      | true => exact ⟨_, h⟩
      | false =>
        simp only [Bool.false_eq_true, if_false] at h
        cases hl1 : (record.nextDir len).length with
        | none => rw [hl1] at h; exact absurd h (List.not_mem_nil e)
        | some len1 =>
          rw [hl1] at h
          simp only at h
          by_cases h1 : len1 = 0
          · rw [if_pos h1] at h; exact absurd h (List.not_mem_nil e)
          · rw [if_neg h1] at h; exact ⟨_, h⟩

/-- Every record the walk of a directory visits lies at the path of the
directory or below it. -/
theorem walkLoop_path (dev : CdDevice) :
    ∀ (fuel : Nat) (dir : DirectoryRecord) (level : Int) (path : List (List Nat))
      (d : DirectoryRecord) (l : Int) (p : List (List Nat)),
      Event.visit d l p ∈ (walkLoop dev fuel dir level path).1 → ∃ q, p = path ++ q := by
  intro fuel
  induction fuel with
  | zero =>
    intro dir level path d l p h
    exact absurd h (List.not_mem_nil _)
  | succ fuel ih =>
    intro dir level path d l p h
    rw [walkLoop] at h
    cases hl : dir.length with
    | none => rw [hl] at h; exact absurd h (List.not_mem_nil _)
    | some len =>
      rw [hl] at h
      simp only at h
      by_cases h0 : len = 0
      · rw [if_pos h0] at h; exact absurd h (List.not_mem_nil _)
      · rw [if_neg h0] at h
        rcases Trace.mem_andThen _ _ _ h with h | h
        · rw [List.mem_singleton] at h
          cases h
          exact ⟨[], by simp⟩
        · cases hf : dir.flags with
          | none => rw [hf] at h; exact absurd h (List.not_mem_nil _)
          | some flags =>
            rw [hf] at h
            simp only at h
            rcases Trace.mem_andThen _ _ _ h with h | h
            · by_cases hd : DirectoryRecord.isDirectoryFlag flags = true
              · rw [if_pos hd] at h
                obtain ⟨lvl, _, hm⟩ := mem_walkLevels _ _ _ h
                rcases Trace.mem_andThen _ _ _ hm with hm | hm
                · rw [List.mem_singleton] at hm
                  cases hm
                · obtain ⟨r, hr⟩ := mem_walkEntry _ _ _ _ _ hm
                  obtain ⟨q, hq⟩ := ih r _ _ d l p hr
                  exact ⟨[dir.name] ++ q, by rw [hq, List.append_assoc]⟩
              · rw [if_neg hd] at h
                exact absurd h (List.not_mem_nil _)
            · exact ih _ _ _ d l p h

theorem visitsAt_append (path : List (List Nat)) (a b : List Event) :
    visitsAt path (a ++ b) = visitsAt path a ++ visitsAt path b := by
  unfold visitsAt
  rw [List.filter_append]

/-- The events of a walk below the directory at `path` hold no visit at `path`. -/
theorem visitsAt_below (path : List (List Nat)) (name : List Nat) (es : List Event)
    (h : ∀ d l p, Event.visit d l p ∈ es → ∃ q, p = (path ++ [name]) ++ q) :
    visitsAt path es = [] := by
  unfold visitsAt
  rw [List.filter_eq_nil_iff]
  intro e he
  cases e with
  | read fad => simp [Event.isVisitAt]
  | visit d l p =>
    obtain ⟨q, hq⟩ := h d l p he
    simp only [Event.isVisitAt, decide_eq_true_eq]
    intro hp
    have hlen := congrArg List.length hq
    rw [hp] at hlen
    simp only [List.length_append, List.length_singleton] at hlen
    omega

/-- The loop of a walker from a record on, when it ends without fault, visits
at the path of its directory the records from that one on, in their order in
the sector, up to the first whose length byte is 0. -/
theorem walkLoop_visitsAt (dev : CdDevice) :
    ∀ (fuel : Nat) (dir : DirectoryRecord) (level : Int) (path : List (List Nat)),
      (walkLoop dev fuel dir level path).2 = none →
      ∀ n, fuel ≤ n →
        visitsAt path (walkLoop dev fuel dir level path).1
          = (recordsFrom n dir).map (fun r => Event.visit r level path) := by
  intro fuel
  induction fuel with
  | zero =>
    intro dir level path h
    cases h
  | succ fuel ih =>
    intro dir level path h n hn
    obtain ⟨m, rfl⟩ : ∃ m, n = m + 1 := ⟨n - 1, by omega⟩
    rw [walkLoop] at h ⊢
    rw [recordsFrom]
    cases hl : dir.length with
    | none => rw [hl] at h; cases h
    | some len =>
      rw [hl] at h
      simp only at h ⊢
      by_cases h0 : len = 0
      · rw [if_pos h0, if_pos h0]
        rfl
      · rw [if_neg h0] at h
        rw [if_neg h0, if_neg h0]
        obtain ⟨_, h2, h3⟩ := Trace.andThen_none _ _ h
        rw [h3]
        cases hf : dir.flags with
        | none => rw [hf] at h2; cases h2
        | some flags =>
          rw [hf] at h2
          simp only at h2 ⊢
          obtain ⟨_, h5, h6⟩ := Trace.andThen_none _ _ h2
          rw [h6, visitsAt_append, visitsAt_append, ih _ _ _ h5 m (by omega)]
          have hself : visitsAt path [Event.visit dir level path]
              = [Event.visit dir level path] := by
            simp [visitsAt, Event.isVisitAt]
          rw [hself]
          have hbelow : visitsAt path
              (if DirectoryRecord.isDirectoryFlag flags = true then
                walkLevels (extraLevels dir.extentLength)
                  (fun lvl =>
                    Trace.andThen
                      ([Event.read ((dev.LBA2FAD dir.extentLocation + lvl) % U32)],
                        if (dev.cd_block_read_data
                            ((dev.LBA2FAD dir.extentLocation + lvl) % U32)).1 ≠ 0 then
                          some Fault.assertion
                        else none)
                      (walkEntry (fun r l => walkLoop dev fuel r l (path ++ [dir.name]))
                        ⟨(dev.cd_block_read_data
                          ((dev.LBA2FAD dir.extentLocation + lvl) % U32)).2, 0⟩
                        ((lvl : Int) + 1) (decide (lvl > 0))))
              else ([], none)).1 = [] := by
            apply visitsAt_below path dir.name
            intro d l p hm
            by_cases hd : DirectoryRecord.isDirectoryFlag flags = true
            · rw [if_pos hd] at hm
              obtain ⟨lvl, _, hm⟩ := mem_walkLevels _ _ _ hm
              rcases Trace.mem_andThen _ _ _ hm with hm | hm
              · rw [List.mem_singleton] at hm
                cases hm
              · obtain ⟨r, hr⟩ := mem_walkEntry _ _ _ _ _ hm
                exact walkLoop_path dev fuel r _ _ d l p hr
            · rw [if_neg hd] at hm
              exact absurd hm (List.not_mem_nil _)
          rw [hbelow]
          rfl

/-- The entry of a walker on a sector, when it ends without fault, visits the
records of the sector, in their order, up to the first whose length byte is 0:
all of them when it continues a directory, those after the first two when it
starts one. -/
theorem walkEntry_visitsAt (dev : CdDevice) (fuel : Nat) (record : DirectoryRecord)
    (level : Int) (path : List (List Nat)) (c : Bool)
    (h : (walkEntry (fun r l => walkLoop dev fuel r l path) record level c).2 = none)
    (n : Nat) (hn : fuel + 2 ≤ n) :
    visitsAt path (walkEntry (fun r l => walkLoop dev fuel r l path) record level c).1
      = ((recordsFrom n record).drop (if c = true then 0 else 2)).map
          (fun r => Event.visit r level path) := by
  obtain ⟨m, rfl⟩ : ∃ m, n = m + 2 := ⟨n - 2, by omega⟩
  unfold walkEntry at h ⊢
  rw [recordsFrom]
  cases hl : record.length with
  | none => rw [hl] at h; cases h
  | some len =>
    rw [hl] at h
    simp only at h ⊢
    by_cases h0 : len = 0
    · rw [if_pos h0, if_pos h0]
      simp [visitsAt]
    · rw [if_neg h0] at h
      rw [if_neg h0, if_neg h0]
      cases c with
      | true =>
        simp only [if_true] at h ⊢
        have := walkLoop_visitsAt dev fuel record level path h (m + 2) (by omega)
        rw [this, recordsFrom, hl]
        simp only [List.drop_zero]
        rw [if_neg h0]
      | false =>
        simp only [Bool.false_eq_true, if_false] at h ⊢
        rw [recordsFrom]
        cases hl1 : (record.nextDir len).length with
        | none => rw [hl1] at h; cases h
        | some len1 =>
          rw [hl1] at h
          simp only at h ⊢
          by_cases h1 : len1 = 0
          · rw [if_pos h1] at h; cases h
          · rw [if_neg h1] at h
            rw [if_neg h1, if_neg h1]
            simp only [List.drop_succ_cons, List.drop_zero]
            exact walkLoop_visitsAt dev fuel _ level path h m (by omega)

end CdBlock

/-- C21. The scan of each sector: whenever `navigateDirectory` returns from
the loop that stands at a directory record `dir`, both walkers run over one
trace; that trace is the visit of `dir`, then for each sector of the extent of
`dir`, in order, the read of the sector and its scan, then the records after
`dir`; every one of these reads succeeds; and the scan of a sector visits, in
the directory of `dir`, the records of that sector in their order up to the
first whose length byte is 0, once each: those after the first two in the first
sector, all of them in a later sector. -/
theorem C21_per_sector_scan {σ : Type} (dev : CdBlock.CdDevice) (fuel : Nat)
    (dir : CdBlock.DirectoryRecord) (level : Int) (path : List (List Nat)) (len flags : Nat)
    (f : CdBlock.RecordFunction σ) (st st1 : CdBlock.NavState σ)
    (hlen : dir.length = some len) (hne : len ≠ 0) (hfl : dir.flags = some flags)
    (hdir : CdBlock.DirectoryRecord.isDirectoryFlag flags = true)
    (hret : CdBlock.navigateDirectoryLoop dev f (fuel + 1) dir level st = .ok st1) :
    (∀ (τ : Type) (g : CdBlock.RecordFunction τ) (s : CdBlock.NavState τ),
        CdBlock.navigateDirectoryLoop dev g (fuel + 1) dir level s
          = CdBlock.runTrace (CdBlock.navStep g) s (CdBlock.walkLoop dev (fuel + 1) dir level path))
    ∧ (∀ s : CdBlock.FillState,
        CdBlock.fillHeaderTableEntryLoop dev (fuel + 1) dir (CdBlock.seedOf path).1
            (CdBlock.seedOf path).2 s
          = CdBlock.runTrace CdBlock.fillStep s (CdBlock.walkLoop dev (fuel + 1) dir level path))
    ∧ (CdBlock.walkLoop dev (fuel + 1) dir level path).1
        = CdBlock.Event.visit dir level path ::
            ((List.range (CdBlock.extraLevels dir.extentLength)).flatMap
                (fun lvl => CdBlock.Event.read (CdBlock.sectorFAD dev dir lvl)
                  :: (CdBlock.sectorTrace dev fuel dir path lvl).1)
              ++ (CdBlock.walkLoop dev fuel (dir.nextDir len) level path).1)
    ∧ ∀ lvl, lvl < CdBlock.extraLevels dir.extentLength →
        (dev.cd_block_read_data (CdBlock.sectorFAD dev dir lvl)).1 = 0
        ∧ ∀ n, fuel + 2 ≤ n →
          CdBlock.visitsAt (path ++ [dir.name]) (CdBlock.sectorTrace dev fuel dir path lvl).1
            = ((CdBlock.recordsFrom n
                  ⟨(dev.cd_block_read_data (CdBlock.sectorFAD dev dir lvl)).2, 0⟩).drop
                (if lvl > 0 then 0 else 2)).map
                (fun r => CdBlock.Event.visit r ((lvl : Int) + 1) (path ++ [dir.name])) := by
  have hok : (CdBlock.walkLoop dev (fuel + 1) dir level path).2 = none := by
    rw [CdBlock.navigateDirectoryLoop_eq dev f (fuel + 1) dir level path st] at hret
    exact (CdBlock.runTrace_ok _ _ _ _ hret).1
  refine ⟨fun τ g s => CdBlock.navigateDirectoryLoop_eq dev g (fuel + 1) dir level path s,
    fun s => CdBlock.fillHeaderTableEntryLoop_eq dev (fuel + 1) dir level path s, ?_⟩
  rw [CdBlock.walkLoop] at hok ⊢
  rw [hlen] at hok ⊢
  simp only at hok ⊢
  rw [if_neg hne] at hok ⊢
  obtain ⟨_, h2, h3⟩ := CdBlock.Trace.andThen_none _ _ hok
  rw [h3]
  rw [hfl] at h2 ⊢
  simp only at h2 ⊢
  rw [if_pos hdir] at h2 ⊢
  obtain ⟨h4, _, h6⟩ := CdBlock.Trace.andThen_none _ _ h2
  obtain ⟨h7, h8⟩ := CdBlock.walkLevels_none _ _ h4
  have hbody : ∀ lvl, lvl < CdBlock.extraLevels dir.extentLength →
      (dev.cd_block_read_data (CdBlock.sectorFAD dev dir lvl)).1 = 0
      ∧ (CdBlock.sectorTrace dev fuel dir path lvl).2 = none
      ∧ (CdBlock.Trace.andThen
          ([CdBlock.Event.read ((dev.LBA2FAD dir.extentLocation + lvl) % CdBlock.U32)],
            if (dev.cd_block_read_data
                ((dev.LBA2FAD dir.extentLocation + lvl) % CdBlock.U32)).1 ≠ 0 then
              some CdBlock.Fault.assertion
            else none)
          (CdBlock.walkEntry (fun r l => CdBlock.walkLoop dev fuel r l (path ++ [dir.name]))
            ⟨(dev.cd_block_read_data
              ((dev.LBA2FAD dir.extentLocation + lvl) % CdBlock.U32)).2, 0⟩
            ((lvl : Int) + 1) (decide (lvl > 0)))).1
        = CdBlock.Event.read (CdBlock.sectorFAD dev dir lvl)
            :: (CdBlock.sectorTrace dev fuel dir path lvl).1 := by
    intro lvl hl
    obtain ⟨b1, b2, b3⟩ := CdBlock.Trace.andThen_none _ _ (h7 lvl hl)
    refine ⟨?_, b2, ?_⟩
    · by_contra hs
      have hs1 : (dev.cd_block_read_data
          ((dev.LBA2FAD dir.extentLocation + lvl) % CdBlock.U32)).1 ≠ 0 := hs
      simp only at b1
      rw [if_pos hs1] at b1
      cases b1
    · rw [b3]
      rfl
  refine ⟨?_, ?_⟩
  · rw [h6, h8]
    simp only [List.singleton_append, List.cons.injEq, true_and]
    rw [List.flatMap_congr (fun lvl hl => (hbody lvl (List.mem_range.mp hl)).2.2)]
  · intro lvl hl
    obtain ⟨b1, b2, _⟩ := hbody lvl hl
    refine ⟨b1, ?_⟩
    intro n hn
    unfold CdBlock.sectorTrace at b2 ⊢
    have := CdBlock.walkEntry_visitsAt dev fuel
      ⟨(dev.cd_block_read_data (CdBlock.sectorFAD dev dir lvl)).2, 0⟩ ((lvl : Int) + 1)
      (path ++ [dir.name]) (decide (lvl > 0)) b2 n hn
    simp only [decide_eq_true_eq] at this
    exact this

/-- C21 on the disc whose directory `D` takes two sectors: the scan of its
second sector visits the records of that sector from the first on, which is
the one record `F2;1`; the first sector holds one record after its first two.
And on a directory that lies in a root sector filled to its last byte, where
the loop ends at the first byte of `tempSector`: the scan of its sector visits
the records after the first two. -/
theorem C21_per_sector_scan_witness :
    (Test.wideDirDisc.cd_block_read_data
        (CdBlock.sectorFAD Test.wideDirDisc ⟨⟨Test.wideDirRoot, some []⟩, 68⟩ 1)).1 = 0
    ∧ CdBlock.visitsAt
        ([] ++ [CdBlock.DirectoryRecord.name ⟨⟨Test.wideDirRoot, some []⟩, 68⟩])
        (CdBlock.sectorTrace Test.wideDirDisc 5 ⟨⟨Test.wideDirRoot, some []⟩, 68⟩ [] 1).1
      = ((CdBlock.recordsFrom 7
            ⟨(Test.wideDirDisc.cd_block_read_data
              (CdBlock.sectorFAD Test.wideDirDisc ⟨⟨Test.wideDirRoot, some []⟩, 68⟩ 1)).2,
              0⟩).drop
          (if 1 > 0 then 0 else 2)).map
          (fun r => CdBlock.Event.visit r (((1 : Nat) : Int) + 1)
            ([] ++ [CdBlock.DirectoryRecord.name ⟨⟨Test.wideDirRoot, some []⟩, 68⟩]))
    ∧ CdBlock.recordsFrom 7 ⟨Test.secondSector, 0⟩ = [⟨Test.secondSector, 0⟩]
    ∧ (CdBlock.recordsFrom 7 ⟨Test.firstSector, 0⟩).drop 2 = [⟨Test.firstSector, 68⟩]
    ∧ Test.fullDirRoot.length = 2048
    ∧ CdBlock.navigateDirectoryLoop Test.fullDirDisc CdBlock.countRecord (49 + 1)
          ⟨⟨Test.fullDirRoot, some []⟩, 68⟩ 0 ⟨0, []⟩ = .ok ⟨44, [169]⟩
    ∧ CdBlock.visitsAt
        ([] ++ [CdBlock.DirectoryRecord.name ⟨⟨Test.fullDirRoot, some []⟩, 68⟩])
        (CdBlock.sectorTrace Test.fullDirDisc 49 ⟨⟨Test.fullDirRoot, some []⟩, 68⟩ [] 0).1
      = ((CdBlock.recordsFrom 51
            ⟨(Test.fullDirDisc.cd_block_read_data
              (CdBlock.sectorFAD Test.fullDirDisc ⟨⟨Test.fullDirRoot, some []⟩, 68⟩ 0)).2,
              0⟩).drop
          (if 0 > 0 then 0 else 2)).map
          (fun r => CdBlock.Event.visit r (((0 : Nat) : Int) + 1)
            ([] ++ [CdBlock.DirectoryRecord.name ⟨⟨Test.fullDirRoot, some []⟩, 68⟩])) :=
  ⟨((C21_per_sector_scan Test.wideDirDisc 5 ⟨⟨Test.wideDirRoot, some []⟩, 68⟩ 0 [] 34 2
      Test.recordLevels ⟨[], []⟩
      ⟨[([68], 0), ([70, 49, 59, 49], 1), ([70, 50, 59, 49], 2)], [168, 169]⟩
      (by decide) (by decide) (by decide) (by decide) (by decide)).2.2.2 1 (by decide)).1,
   ((C21_per_sector_scan Test.wideDirDisc 5 ⟨⟨Test.wideDirRoot, some []⟩, 68⟩ 0 [] 34 2
      Test.recordLevels ⟨[], []⟩
      ⟨[([68], 0), ([70, 49, 59, 49], 1), ([70, 50, 59, 49], 2)], [168, 169]⟩
      (by decide) (by decide) (by decide) (by decide) (by decide)).2.2.2 1 (by decide)).2 7
      (by decide),
   by decide, by decide, rfl, by decide,
   ((C21_per_sector_scan Test.fullDirDisc 49 ⟨⟨Test.fullDirRoot, some []⟩, 68⟩ 0 [] 45 2
      CdBlock.countRecord ⟨0, []⟩ ⟨44, [169]⟩
      (by decide) (by decide) (by decide) (by decide) (by decide)).2.2.2 0 (by decide)).2 51
      (by decide)⟩

/-! ## The bytes of an identifier that are hashed -/

namespace CdBlock

/-- The first `n` bytes of the identifier of a record, for `n` up to its length. -/
theorem DirectoryRecord.identifier_take (dir : DirectoryRecord) (il n : Nat)
    (hil : dir.identifierLength = some il) (hn : n ≤ il)
    (hin : dir.off + 33 + il ≤ dir.sector.size) :
    dir.identifier n = some (dir.name.take n) ∧ dir.name.length = il := by
  unfold DirectoryRecord.identifierLength Buffer.byte at hil
  split at hil
  · simp only [Option.some.injEq] at hil
    unfold DirectoryRecord.identifier DirectoryRecord.name
    rw [hil, if_pos (by omega), ← List.map_take, List.take_range, Nat.min_eq_left hn]
    simp
  · exact absurd hil (by simp)

end CdBlock

/-- C22, as stated, fails: the file records `AB` and `C` of the root have
identifiers of two bytes and of one; the identifier without its last two bytes
is empty, with hash 0, and the entries of the built index carry the hashes of
the whole identifiers `AB` and `C`. -/
theorem C22_counterexample :
    CdBlock.Event.isFile (.visit ⟨⟨Test.shortRoot, some []⟩, 68⟩ 0 []) = true
    ∧ CdBlock.DirectoryRecord.name ⟨⟨Test.shortRoot, some []⟩, 68⟩ = [65, 66]
    ∧ CdBlock.withoutSuffix [65, 66] = []
    ∧ CdBlock.Event.isFile (.visit ⟨⟨Test.shortRoot, some []⟩, 103⟩ 0 []) = true
    ∧ CdBlock.DirectoryRecord.name ⟨⟨Test.shortRoot, some []⟩, 103⟩ = [67]
    ∧ CdBlock.withoutSuffix [67] = []
    ∧ CdBlock.getFilenameHash ([].map CdBlock.charOfByte) = 0
    ∧ CdBlock.getFilenameHash ([65, 66].map CdBlock.charOfByte) = 34689
    ∧ CdBlock.getFilenameHash ([67].map CdBlock.charOfByte) = 1116
    ∧ CdBlock.fillHeaderTable (Test.disc []) 5 ⟨Test.shortRoot, []⟩ ⟨0, [⟨0, 0, 0⟩, ⟨0, 0, 0⟩]⟩
        = .ok ⟨2, ⟨2, [⟨1116, 21, 5⟩, ⟨34689, 20, 9⟩]⟩, []⟩ := by
  refine ⟨?_, ?_, ?_, ?_, ?_, ?_, ?_, ?_, ?_, ?_⟩ <;> decide

/-- C22, amended. At a record whose identifier lies inside the buffer it is in,
the loop of `fillHeaderTableEntry` folds into the hash, for a record that is
not a directory, the identifier without its last two bytes when it has more
than two bytes and the whole identifier when it has one or two, and stores the
result as the hash of the entry; for a directory it folds the whole
identifier and then `'/'`, and walks the sectors of the directory with the
result. -/
theorem C22_suffix_stripping (dev : CdBlock.CdDevice) (fuel : Nat)
    (dir : CdBlock.DirectoryRecord) (parentHash parentPrime : Nat) (st : CdBlock.FillState)
    (len il flags : Nat)
    (hlen : dir.length = some len) (hne : len ≠ 0)
    (hil : dir.identifierLength = some il) (hfl : dir.flags = some flags)
    (hin : dir.off + 33 + il ≤ dir.sector.size) :
    dir.name.length = il
    ∧ (CdBlock.DirectoryRecord.isDirectoryFlag flags = false →
        CdBlock.fillHeaderTableEntryLoop dev (fuel + 1) dir parentHash parentPrime st
          = match CdBlock.addFileEntry dir
                (CdBlock.generateHash
                  ((if il > 2 then CdBlock.withoutSuffix dir.name else dir.name).map
                    CdBlock.charOfByte)
                  parentHash parentPrime CdBlock.HASH_PRIME).1 st with
            | .fail f s => .fail f s
            | .ok st =>
              CdBlock.fillHeaderTableEntryLoop dev fuel (dir.nextDir len) parentHash
                parentPrime st)
    ∧ (CdBlock.DirectoryRecord.isDirectoryFlag flags = true →
        CdBlock.fillHeaderTableEntryLoop dev (fuel + 1) dir parentHash parentPrime st
          = match CdBlock.forLevels (CdBlock.extraLevels dir.extentLength)
                (fun level st =>
                  if (dev.cd_block_read_data (CdBlock.sectorFAD dev dir level)).1 ≠ 0 then
                    .fail .assertion
                      { st with reads := st.reads ++ [CdBlock.sectorFAD dev dir level] }
                  else
                    CdBlock.fillHeaderTableEntryEntry
                      (fun r s =>
                        CdBlock.fillHeaderTableEntryLoop dev fuel r
                          (CdBlock.hashStep CdBlock.HASH_PRIME
                            (CdBlock.generateHash (dir.name.map CdBlock.charOfByte) parentHash
                              parentPrime CdBlock.HASH_PRIME) 47).1
                          (CdBlock.hashStep CdBlock.HASH_PRIME
                            (CdBlock.generateHash (dir.name.map CdBlock.charOfByte) parentHash
                              parentPrime CdBlock.HASH_PRIME) 47).2 s)
                      ⟨(dev.cd_block_read_data (CdBlock.sectorFAD dev dir level)).2, 0⟩
                      (decide (level > 0))
                      { st with reads := st.reads ++ [CdBlock.sectorFAD dev dir level] })
                st with
            | .fail f s => .fail f s
            | .ok st =>
              CdBlock.fillHeaderTableEntryLoop dev fuel (dir.nextDir len) parentHash
                parentPrime st) := by
  have hname := (CdBlock.DirectoryRecord.identifier_take dir il il hil (le_refl _) hin).2
  refine ⟨hname, ?_, ?_⟩
  · intro hd
    rw [CdBlock.fillHeaderTableEntryLoop, hlen]
    simp only
    rw [if_neg hne, hil, hfl]
    simp only [hd, true_and, Bool.false_eq_true, if_false]
    by_cases h2 : il > 2
    · rw [if_pos h2, if_pos h2,
        (CdBlock.DirectoryRecord.identifier_take dir il (il - 2) hil (by omega) hin).1]
      simp only [CdBlock.withoutSuffix, hname]
    · rw [if_neg h2, if_neg h2,
        (CdBlock.DirectoryRecord.identifier_take dir il il hil (le_refl _) hin).1]
      simp only
      rw [← hname, List.take_length]
  · intro hd
    rw [CdBlock.fillHeaderTableEntryLoop, hlen]
    simp only
    rw [if_neg hne, hil, hfl]
    simp only [hd, Bool.true_eq_false, false_and, if_false, if_true]
    rw [(CdBlock.DirectoryRecord.identifier_take dir il il hil (le_refl _) hin).1]
    simp only
    rw [← hname, List.take_length]
    rfl

/-- C22 on the demo disc: the record of `TEST_FILE.TXT;1`, of 15 bytes, is
entered with the hash of its first 13. -/
theorem C22_suffix_stripping_witness :
    CdBlock.withoutSuffix (CdBlock.DirectoryRecord.name ⟨⟨Test.demoRoot, some []⟩, 68⟩)
        = [84, 69, 83, 84, 95, 70, 73, 76, 69, 46, 84, 88, 84]
    ∧ CdBlock.fillHeaderTableEntryLoop Test.demoDisc (4 + 1) ⟨⟨Test.demoRoot, some []⟩, 68⟩ 0
          CdBlock.HASH_PRIME ⟨0, ⟨0, [⟨0, 0, 0⟩, ⟨0, 0, 0⟩]⟩, []⟩
        = match CdBlock.addFileEntry ⟨⟨Test.demoRoot, some []⟩, 68⟩
              (CdBlock.generateHash
                ((if 15 > 2 then
                    CdBlock.withoutSuffix (CdBlock.DirectoryRecord.name ⟨⟨Test.demoRoot, some []⟩, 68⟩)
                  else CdBlock.DirectoryRecord.name ⟨⟨Test.demoRoot, some []⟩, 68⟩).map
                  CdBlock.charOfByte)
                0 CdBlock.HASH_PRIME CdBlock.HASH_PRIME).1
              ⟨0, ⟨0, [⟨0, 0, 0⟩, ⟨0, 0, 0⟩]⟩, []⟩ with
          | .fail f s => .fail f s
          | .ok st =>
            CdBlock.fillHeaderTableEntryLoop Test.demoDisc 4
              (CdBlock.DirectoryRecord.nextDir ⟨⟨Test.demoRoot, some []⟩, 68⟩ 48) 0 CdBlock.HASH_PRIME st :=
  ⟨by decide,
    (C22_suffix_stripping Test.demoDisc 4 ⟨⟨Test.demoRoot, some []⟩, 68⟩ 0 CdBlock.HASH_PRIME
      ⟨0, ⟨0, [⟨0, 0, 0⟩, ⟨0, 0, 0⟩]⟩, []⟩ 48 15 0 (by decide) (by decide) (by decide)
      (by decide) (by decide)).2.1 (by decide)⟩

/-! ## The search for the primary descriptor -/

namespace CdBlock

/-- On a disc on which every sector reads as a terminator the scan of
`readFilesystem` goes on for as long as it is let. -/
theorem readFilesystemLoop_terminatorsOnly :
    ∀ (fuel startFAD : Nat) (st : VolumeState),
      ∃ st1, readFilesystemLoop Test.terminatorsOnly fuel startFAD st = .fail .fuel st1
        ∧ st1.reads.length = st.reads.length + fuel := by
  intro fuel
  induction fuel with
  | zero =>
    intro startFAD st
    exact ⟨st, rfl, rfl⟩
  | succ fuel ih =>
    intro startFAD st
    obtain ⟨st1, h1, h2⟩ := ih ((startFAD + 1) % 256) { st with reads := st.reads ++ [startFAD] }
    refine ⟨st1, ?_, ?_⟩
    · rw [readFilesystemLoop]
      exact h1
    · rw [h2]
      simp only [List.length_append, List.length_singleton]
      omega

end CdBlock

/-- C24, where the code departs from it: `readFilesystem` never looks for the
terminator type. On a disc with a terminator at block 16 and a primary
descriptor at block 17 it reads on past the terminator and returns 0 with the
root sector that descriptor names; on a disc on which every sector reads as a
terminator it never returns, whatever the number of reads it is given, and
after frame 255 it goes on at frame 0. -/
theorem C24_search_passes_terminator (fuel : Nat) :
    ((Test.terminatorDisc.cd_block_read_data (Test.terminatorDisc.LBA2FAD 16)).2.getD 0 0
        = CdBlock.VD_SET_TERMINATOR)
    ∧ CdBlock.readFilesystem Test.terminatorDisc 6 ⟨[], []⟩
        = .ok (0, ⟨⟨Test.demoRoot, []⟩, [166, 167, 168]⟩)
    ∧ (∃ st, CdBlock.readFilesystem Test.terminatorsOnly fuel ⟨[], []⟩ = .fail .fuel st
        ∧ st.reads.length = fuel)
    ∧ (∃ st, CdBlock.readFilesystem Test.terminatorsOnly 92 ⟨[], []⟩ = .fail .fuel st
        ∧ st.reads.drop 88 = [254, 255, 0, 1]) := by
  refine ⟨by decide, by decide, ?_, ?_⟩
  · obtain ⟨st, h1, h2⟩ := CdBlock.readFilesystemLoop_terminatorsOnly fuel
      (Test.terminatorsOnly.LBA2FAD 16 % 256) ⟨⟨[], []⟩, []⟩
    exact ⟨st, h1, by simpa using h2⟩
  · exact ⟨_, rfl, by decide⟩
